import Mathlib

/-!
# Verification of the `graphs_theory` graph engine (`graph.py`)

Shallow embedding of the core `Graph` class of `graph.py`: a finite simple
undirected graph with

* `V : Finset Nat` — the vertex set (`self.V`, a Python `set`),
* `E : Finset (Nat × Nat)`  — the canonical edge set (`self.E`, a Python `set` of
  pairs `(min(u,v), max(u,v))`),
* `adj : List (Nat × List Nat)` — the adjacency mapping (`self.adj`, a
  Python `dict` in insertion order; each value is the neighbour list built by
  `append`).

Vertex labels in the source are strings ordered by string comparison; the
embedding uses `Nat` as an opaque totally ordered label type.  Python `set`
iteration order is unspecified; wherever the source iterates over a set we
iterate in ascending (sorted) order, which is one admissible order and keeps
every definition executable and deterministic.  Loops without a structural
termination measure (`while` loops, recursive DFS) are given an explicit fuel
parameter; `none` marks either fuel exhaustion or a raised Python exception,
as documented at each definition.
-/

namespace GraphsTheory

/-- Canonical form of an undirected edge: `(min(u, v), max(u, v))`
(see `add_edge`, `without_edge`, `merge_vertices`, … in `graph.py`). -/
def canon (u v : Nat) : Nat × Nat := (min u v, max u v)

/-- The `Graph` class: vertex set `V`, canonical edge set `E`, adjacency
dict `adj` (insertion-ordered association list, like a Python `dict`). -/
structure Graph where
  V : Finset Nat
  E : Finset (Nat × Nat)
  adj : List (Nat × List Nat)
deriving DecidableEq

/-- `Graph()` — the empty graph produced by the zero-argument constructor. -/
def emptyG : Graph := ⟨∅, ∅, []⟩

instance : Inhabited Graph := ⟨emptyG⟩

/-- Lookup of the first entry for key `v` in an association list,
defaulting to `[]` for a missing key. -/
def lk (l : List (Nat × List Nat)) (v : Nat) : List Nat :=
  ((l.find? (fun p => p.1 == v)).map Prod.snd).getD []

/-- Lookup in the adjacency dict: `self.adj[v]` (the source only reads
keys that are present). -/
def adjL (g : Graph) (v : Nat) : List Nat := lk g.adj v

/-- `self.adj[v].append(w)` on the adjacency dict. -/
def adjAppend (adj : List (Nat × List Nat)) (v w : Nat) :
    List (Nat × List Nat) :=
  adj.map (fun p => if p.1 = v then (p.1, p.2 ++ [w]) else p)

/-- `add_vertex(v)`: no-op if present, else adds `v` with an empty
neighbour list (`self.adj[v] = []`). -/
def Graph.addVertex (g : Graph) (v : Nat) : Graph :=
  if v ∈ g.V then g else ⟨insert v g.V, g.E, g.adj ++ [(v, [])]⟩

/-- `add_edge(u, v)`: raises (`none`) on a self-loop; otherwise ensures both
endpoints exist, and if the canonical pair is absent inserts it into `E` and
appends each endpoint to the other's neighbour list. -/
def Graph.addEdge (g : Graph) (u v : Nat) : Option Graph :=
  if u = v then none
  else
    let g1 := (g.addVertex u).addVertex v
    let e := canon u v
    if e ∈ g1.E then some g1
    else some ⟨g1.V, insert e g1.E, adjAppend (adjAppend g1.adj u v) v u⟩

/-- One incremental construction step on a graph (the only two mutating
operations of the class).  A raising `add_edge` call leaves the object
unchanged, since the source raises before mutating anything. -/
inductive GOp where
  | addV (v : Nat)
  | addE (u v : Nat)
deriving DecidableEq

def applyOp (g : Graph) : GOp → Graph
  | .addV v => g.addVertex v
  | .addE u v => (g.addEdge u v).getD g

/-- A graph built from the empty constructor by a sequence of
`add_vertex` / `add_edge` calls — the construction lifecycle of §3 of the
spec (every bulk constructor is internally such a sequence). -/
def buildG (ops : List GOp) : Graph := ops.foldl applyOp emptyG

/-- Fold `add_edge` over an explicit edge list, propagating the raised
exception (`none`) of a self-loop. -/
def addEdges (g : Graph) : List (Nat × Nat) → Option Graph
  | [] => some g
  | e :: es => match g.addEdge e.1 e.2 with
    | none => none
    | some g' => addEdges g' es

/-- Lexicographic order on edge pairs — Python's `sorted` on tuples. -/
def edgeLe (a b : Nat × Nat) : Prop := a.1 < b.1 ∨ (a.1 = b.1 ∧ a.2 ≤ b.2)

instance : DecidableRel edgeLe := fun a b => by unfold edgeLe; infer_instance

instance : IsTrans (Nat × Nat) edgeLe :=
  ⟨by rintro ⟨a1, a2⟩ ⟨b1, b2⟩ ⟨c1, c2⟩ h1 h2; simp only [edgeLe] at *; omega⟩

instance : IsAntisymm (Nat × Nat) edgeLe :=
  ⟨by rintro ⟨a1, a2⟩ ⟨b1, b2⟩ h1 h2
      simp only [edgeLe] at h1 h2
      have : a1 = b1 ∧ a2 = b2 := by omega
      simp [this.1, this.2]⟩

instance : IsTotal (Nat × Nat) edgeLe :=
  ⟨by rintro ⟨a1, a2⟩ ⟨b1, b2⟩; simp only [edgeLe]; omega⟩

/-- Inserting twice with `orderedInsert` commutes for a total, transitive,
antisymmetric order, so a `Finset` can be sorted through `Multiset.foldr`
(everything here must reduce inside the kernel, which rules out
`Finset.sort` and `List.mergeSort`). -/
theorem orderedInsert_comm {α : Type} (r : α → α → Prop) [DecidableRel r]
    [IsTotal α r] [IsTrans α r] [IsAntisymm α r] (a b : α) :
    ∀ l : List α, (l.orderedInsert r b).orderedInsert r a
      = (l.orderedInsert r a).orderedInsert r b := by
  intro l
  induction l with
  | nil =>
      by_cases hab : r a b <;> by_cases hba : r b a <;>
        simp only [List.orderedInsert, hab, hba, if_true, if_false]
      · have : a = b := antisymm hab hba
        subst this; rfl
      · rcases IsTotal.total (r := r) a b with h | h
        · exact absurd h hab
        · exact absurd h hba
  | cons c l ih =>
      by_cases hbc : r b c
      · by_cases hac : r a c
        · by_cases hab : r a b <;> by_cases hba : r b a <;>
            simp only [List.orderedInsert, hab, hba, hbc, hac, if_true, if_false]
          · have : a = b := antisymm hab hba
            subst this; rfl
          · rcases IsTotal.total (r := r) a b with h | h
            · exact absurd h hab
            · exact absurd h hba
        · have hab : ¬ r a b := fun h => hac (Trans.trans h hbc)
          have hba : r b a := (IsTotal.total (r := r) a b).resolve_left hab
          simp only [List.orderedInsert, hab, hba, hbc, hac, if_true, if_false]
      · by_cases hac : r a c
        · have hba : ¬ r b a := fun h => hbc (Trans.trans h hac)
          simp only [List.orderedInsert, hba, hbc, hac, if_true, if_false]
        · simp only [List.orderedInsert, hbc, hac, if_false, ih]

instance ordInsertLC {α : Type} (r : α → α → Prop) [DecidableRel r]
    [IsTotal α r] [IsTrans α r] [IsAntisymm α r] :
    LeftCommutative (fun (a : α) (l : List α) => l.orderedInsert r a) :=
  ⟨fun a b l => orderedInsert_comm r a b l⟩

/-- Kernel-computable ascending sort of a `Finset` (insertion sort through
`Multiset.foldr`). -/
def finSortR {α : Type} (r : α → α → Prop) [DecidableRel r] [IsTotal α r]
    [IsTrans α r] [IsAntisymm α r] (s : Finset α) : List α :=
  Multiset.foldr (fun (a : α) (l : List α) => l.orderedInsert r a) [] s.val

/-- `sorted(·)` on a set of vertices. -/
def finSort (s : Finset Nat) : List Nat := finSortR (· ≤ ·) s

/-- Ascending vertex list: `sorted(self.V)`. -/
def sortedV (g : Graph) : List Nat := finSort g.V

/-- Ascending edge list: `sorted(self.E)` (tuple order). -/
def sortE (E : Finset (Nat × Nat)) : List (Nat × Nat) := finSortR edgeLe E

/-- The bulk constructor `Graph(vertices, edges)`: start from the given
vertex set with empty neighbour lists, then `add_edge` every pair.
`none` models the `ValueError` raised on a self-loop in `edges`. -/
def mkGraph (vs : Finset Nat) (es : List (Nat × Nat)) : Option Graph :=
  addEdges ⟨vs, ∅, (finSort vs).map (fun v => (v, []))⟩ es

/-- `Graph(vertices=vs, edges=E)` where `E` is already a set of edges
(iterated here in sorted order). -/
def mkGraphE (vs : Finset Nat) (E : Finset (Nat × Nat)) : Option Graph :=
  mkGraph vs (sortE E)

/-- The class invariant of §3 of the spec, maintained by every mutation:
edges are canonical (strictly increasing pairs) with endpoints in `V`, the
adjacency dict has exactly the vertices of `V` as keys (each at most once),
and each neighbour list is duplicate-free and lists exactly the neighbours
determined by `E`. -/
@[mk_iff]
structure Wf (g : Graph) : Prop where
  keysNodup : (g.adj.map Prod.fst).Nodup
  keysMem : (g.adj.map Prod.fst).toFinset = g.V
  edgeCanon : ∀ e ∈ g.E, e.1 < e.2
  edgeMemV : ∀ e ∈ g.E, e.1 ∈ g.V ∧ e.2 ∈ g.V
  adjNodup : ∀ p ∈ g.adj, (p.2 : List Nat).Nodup
  adjInE : ∀ p ∈ g.adj, ∀ w ∈ p.2, canon p.1 w ∈ g.E
  eInAdj : ∀ e ∈ g.E, e.2 ∈ adjL g e.1 ∧ e.1 ∈ adjL g e.2

instance (g : Graph) : Decidable (Wf g) := decidable_of_iff _ (wf_iff g).symm

/-! ## Queries and derived quantities -/

/-- `sum(degrees().values())`: `degrees` maps over `self.adj.items()`. -/
def degreesSum (g : Graph) : Nat := (g.adj.map (fun p => p.2.length)).sum

/-- `_non_isolated_vertices()`: keys of `adj` with a nonempty neighbour
list. -/
def nonIso (g : Graph) : Finset Nat :=
  ((g.adj.filter (fun p => !p.2.isEmpty)).map Prod.fst).toFinset

/-- Mathematical adjacency relation determined by the canonical edge set. -/
def adjacent (g : Graph) (u v : Nat) : Prop := canon u v ∈ g.E

instance (g : Graph) (u v : Nat) : Decidable (adjacent g u v) := by
  unfold adjacent; infer_instance

/-- Reachability along edges of `g` (reflexive–transitive closure of
adjacency) — "connected in the standard sense" means every vertex reaches
every other. -/
def Reach (g : Graph) (u v : Nat) : Prop :=
  Relation.ReflTransGen (adjacent g) u v

/-- A (simple) cycle presented as a duplicate-free vertex list of length at
least 3 with consecutive vertices adjacent and the last adjacent to the
first. -/
def IsCycleList (g : Graph) (c : List Nat) : Prop :=
  3 ≤ c.length ∧ c.Nodup ∧ List.Chain' (adjacent g) c ∧
    ∀ a ∈ c.getLast?, ∀ b ∈ c.head?, adjacent g a b

/-- Some cycle exists all of whose vertices lie in `S`. -/
def HasCycleWithin (g : Graph) (S : Finset Nat) : Prop :=
  ∃ c, IsCycleList g c ∧ ∀ x ∈ c, x ∈ S

/-! ## Connectivity (`is_connected`) -/

/-- The `while stack:` loop of `is_connected`: pop the top, skip if
visited, else mark and push the currently-unvisited neighbours.  The list
head is the stack top (Python pops and extends at the end of the list), so
an `extend` pushes the filtered neighbour list in reverse.  `none` is fuel
exhaustion, which `satFuel` rules out. -/
def saturate (g : Graph) : Nat → List Nat → Finset Nat → Option (Finset Nat)
  | _, [], vis => some vis
  | 0, _ :: _, _ => none
  | fuel+1, u :: stack, vis =>
      if u ∈ vis then saturate g fuel stack vis
      else
        saturate g fuel
          ((((adjL g u).filter (fun w => w ∉ vis)).reverse) ++ stack)
          (insert u vis)

/-- Fuel bound for `saturate`: one initial stack entry plus, for every
vertex, one visit plus one push per neighbour entry. -/
def satFuel (g : Graph) : Nat :=
  1 + ((sortedV g).map (fun v => 1 + (adjL g v).length)).sum

/-- `is_connected()`: vacuously true for an empty graph or an edgeless one;
otherwise a stack traversal from one non-isolated vertex must reach exactly
the non-isolated set.  (Isolated vertices are ignored — the documented
policy choice of the source.) -/
def isConnected (g : Graph) : Bool :=
  if g.V = ∅ then true
  else
    let ni := nonIso g
    if ni = ∅ then true
    else
      match saturate g (satFuel g) [(finSort ni).headD 0] ∅ with
      | some vis => decide (vis = ni)
      | none => false

/-- `is_tree()`: nonempty, connected (per `is_connected`), and
`|E| = |V| - 1`. -/
def isTree (g : Graph) : Bool :=
  if g.V = ∅ then false
  else isConnected g && decide (g.E.card = g.V.card - 1)

/-! ## Set algebra and structural transforms

Each of these reads its operands' fields, computes a `(V, E)` pair, and
returns `Graph(vertices=V, edges=E)` — a fresh graph whose adjacency is
re-derived from scratch by the constructor.  The operand values are not
written to anywhere (the bodies in the source contain no assignment to
`self` or `other` attributes), which the pure embedding renders as plain
functions of the operand values.  `none` models a raised `ValueError`. -/

/-- `union(other)`. -/
def unionG (g1 g2 : Graph) : Option Graph :=
  mkGraphE (g1.V ∪ g2.V) (g1.E ∪ g2.E)

/-- `intersection(other)`: common vertices, and common edges filtered to
those with both endpoints surviving. -/
def interG (g1 g2 : Graph) : Option Graph :=
  let vc := g1.V ∩ g2.V
  mkGraphE vc ((g1.E ∩ g2.E).filter (fun e => e.1 ∈ vc ∧ e.2 ∈ vc))

/-- `symmetric_difference(other)`: symmetric difference of edge sets;
vertex union plus all endpoints of surviving edges. -/
def symmDiffG (g1 g2 : Graph) : Option Graph :=
  let es := (g1.E \ g2.E) ∪ (g2.E \ g1.E)
  mkGraphE ((g1.V ∪ g2.V) ∪ es.biUnion (fun e => {e.1, e.2})) es

/-- `without_vertex(v)`: fails if `v` is absent; drops `v` and every
incident edge. -/
def withoutVertex (g : Graph) (v : Nat) : Option Graph :=
  if v ∉ g.V then none
  else mkGraphE (g.V.erase v) (g.E.filter (fun e => e.1 ≠ v ∧ e.2 ≠ v))

/-- `without_edge(u, v)`: fails if an endpoint or the canonical edge is
absent; keeps all vertices. -/
def withoutEdge (g : Graph) (u v : Nat) : Option Graph :=
  if u ∉ g.V ∨ v ∉ g.V then none
  else if canon u v ∉ g.E then none
  else mkGraphE g.V (g.E.erase (canon u v))

/-- `merge_vertices(v1, v2)`: rewrite every edge endpoint in `{v1, v2}` to
`v1`, dropping would-be self-loops; `v2` leaves the vertex set. -/
def mergeVertices (g : Graph) (v1 v2 : Nat) : Option Graph :=
  if v1 ∉ g.V ∨ v2 ∉ g.V then none
  else
    let rew := fun (x : Nat) => if x = v1 ∨ x = v2 then v1 else x
    mkGraphE (g.V.erase v2)
      ((g.E.filter (fun e => rew e.1 ≠ rew e.2)).image
        (fun e => canon (rew e.1) (rew e.2)))

/-! ## Tree centres (`find_centers`) -/

/-- One iteration of the leaf-pruning `while n > 2:` body: decrease `n` by
the current number of leaves, then remove each leaf in turn (reading its
single neighbour as `adj[leaf][0]`), collecting neighbours whose degree has
become 1.  `none` models the `IndexError` on an empty neighbour list or the
`ValueError` of `degree`/`without_vertex` on a removed vertex. -/
def findCentersStep (gn : Graph × Nat × Finset Nat) :
    Option (Graph × Nat × Finset Nat) :=
  let (g, n, leaves) := gn
  ((finSort leaves).foldlM
      (fun (st : Graph × Finset Nat) leaf =>
        match (adjL st.1 leaf).head? with
        | none => none
        | some nb =>
          match withoutVertex st.1 leaf with
          | none => none
          | some g' =>
            if nb ∉ g'.V then none
            else
              some (g', if (adjL g' nb).length = 1 then insert nb st.2 else st.2))
      (g, (∅ : Finset Nat))).map
    (fun (st : Graph × Finset Nat) => (st.1, n - leaves.card, st.2))

/-- The leaf-pruning loop of `find_centers`, with fuel: `none` at fuel 0
marks a loop that has not terminated within the given number of
iterations. -/
def findCentersLoop : Nat → Graph × Nat × Finset Nat → Option (List Nat)
  | 0, _ => none
  | fuel+1, st =>
      if st.2.1 ≤ 2 then some (sortedV st.1)
      else match findCentersStep st with
        | none => none
        | some st' => findCentersLoop fuel st'

/-- `find_centers()`: fails (`none`) on a graph whose `is_tree()` is false;
for `n ≤ 2` returns all vertices sorted; otherwise runs the leaf-pruning
loop starting from the degree-1 vertices. -/
def findCenters (g : Graph) (fuel : Nat) : Option (List Nat) :=
  if isTree g = false then none
  else if g.V.card ≤ 2 then some (sortedV g)
  else
    findCentersLoop fuel
      (g, g.V.card, g.V.filter (fun v => (adjL g v).length = 1))

/-! ## Spanning tree via BFS (`find_spanning_tree`) -/

/-- The BFS `while queue:` loop: dequeue `u`, then for each neighbour in
ascending order that is unvisited, mark it, enqueue it and record the
canonical discovery edge.  `none` is fuel exhaustion, impossible for
well-formed graphs with fuel `|V| + 1`. -/
def bfsLoop (g : Graph) : Nat → List Nat → Finset Nat → Finset (Nat × Nat) →
    Option (Finset Nat × Finset (Nat × Nat))
  | _, [], vis, te => some (vis, te)
  | 0, _ :: _, _, _ => none
  | fuel+1, u :: queue, vis, te =>
      let st := ((adjL g u).insertionSort (· ≤ ·)).foldl
        (fun (st : Finset Nat × List Nat × Finset (Nat × Nat)) v =>
          if v ∈ st.1 then st
          else (insert v st.1, st.2.1 ++ [v], insert (canon u v) st.2.2))
        (vis, queue, te)
      bfsLoop g fuel st.2.1 st.1 st.2.2

/-- `find_spanning_tree()` (default start): fails if `is_connected()` is
false; otherwise BFS from `sorted(self.V)[0]` — which raises `IndexError`
(`none`) on an empty vertex list — and builds
`Graph(vertices=self.V, edges=tree_edges)`. -/
def findSpanningTree (g : Graph) : Option Graph :=
  if isConnected g = false then none
  else
    match sortedV g with
    | [] => none
    | start :: _ =>
      match bfsLoop g (g.V.card + 1) [start] {start} ∅ with
      | none => none
      | some (_, te) => mkGraphE g.V te

/-! ## Hamiltonian cycle (`hamiltonian_cycle`) -/

/-- The recursive `backtrack(u)` of `hamiltonian_cycle`, defunctionalized:
the Python call stack becomes an explicit list of frames, one per level,
each holding the neighbours of its vertex still to be tried (`path` holds
the corresponding vertices, current one last).  At each step the top frame
either skips a visited neighbour, or "calls `backtrack(w)`": on a full path
accept iff the start is adjacent (else undo at once), otherwise push `w`'s
frame.  An empty top frame is a `return False`: undo `w` and resume the
caller.  Fuel counts steps (the search is exponential, so only soundness —
never a particular fuel value — is used by the theorems). -/
def hamRun (g : Graph) (n start : Nat) :
    Nat → List (List Nat) → List Nat → Finset Nat → Option (List Nat)
  | 0, _, _, _ => none
  | _+1, [], _, _ => none
  | fuel+1, [] :: fr, path, vis =>
      hamRun g n start fuel fr path.dropLast (vis.erase (path.getLastD 0))
  | fuel+1, (w :: ws) :: fr, path, vis =>
      if w ∈ vis then hamRun g n start fuel (ws :: fr) path vis
      else if (path ++ [w]).length = n then
        if start ∈ adjL g w then some ((path ++ [w]) ++ [start])
        else hamRun g n start fuel (ws :: fr) path vis
      else
        hamRun g n start fuel
          (((adjL g w).insertionSort (· ≤ ·)) :: ws :: fr)
          (path ++ [w]) (insert w vis)

/-- `hamiltonian_cycle()`: the empty graph yields the empty list; otherwise
backtracking from the smallest vertex with the path `[start]` (the
length-`n` acceptance check of the very first `backtrack(start)` call is
inlined for `n = 1`). -/
def hamiltonianCycle (g : Graph) : Option (List Nat) :=
  let n := g.V.card
  if n = 0 then some []
  else
    let start := (sortedV g).headD 0
    if n = 1 then
      if start ∈ adjL g start then some [start, start] else none
    else
      hamRun g n start ((g.V.card + 2).factorial * (g.V.card + g.E.card + 2))
        [(adjL g start).insertionSort (· ≤ ·)] [start] {start}

/-! ## Cycle through a DFS (`cycle_containing`) -/

/-- The `while x != w:` walk of the cycle reconstruction: collect parents
of `x` until reaching `w` (inclusive).  `none` models the `KeyError` of a
missing parent (walking past the root), which cannot occur thanks to the
ancestor property proved below. -/
def parentWalk (par : Nat → Option Nat) : Nat → Nat → Nat → Option (List Nat)
  | 0, _, _ => none
  | fuel+1, x, w =>
      if x = w then some []
      else match par x with
        | none => none
        | some y => (parentWalk par fuel y w).map (fun l => y :: l)

/-- `cycle = [w, u]` extended by the parent walk from `u` and reversed. -/
def buildCycle (par : Nat → Option Nat) (fuel u w : Nat) : Option (List Nat) :=
  (parentWalk par fuel u w).map (fun walk => ([w, u] ++ walk).reverse)

/-- The recursive `dfs(u, p)` of `cycle_containing`, defunctionalized: the
Python call stack becomes an explicit list of frames `(u, p, pending)`, the
innermost first, each holding the vertex `u` being searched, its `p`
argument and the suffix of `self.adj[u]` still to scan.  Each step scans
one neighbour of the top frame: the parent is skipped, a visited
non-parent closes a cycle (reconstructed through the parent pointers — the
inner `none` of `buildCycle` is the `KeyError` of walking past the root),
and an unvisited one is marked, gets its parent set, and is pushed as a new
frame.  An exhausted frame is `return None` to the caller.  The result is
`(found cycle?, visited, parent)`; the outer `none` marks fuel exhaustion
or that `KeyError`, both impossible in the runs verified below. -/
def cdfsRun (g : Graph) :
    Nat → List (Nat × Option Nat × List Nat) → Finset Nat → (Nat → Option Nat) →
      Option (Option (List Nat) × Finset Nat × (Nat → Option Nat))
  | 0, _, _, _ => none
  | _+1, [], vis, par => some (none, vis, par)
  | fuel+1, (_, _, []) :: fr, vis, par => cdfsRun g fuel fr vis par
  | fuel+1, (u, p, w :: ws) :: fr, vis, par =>
      if some w = p then cdfsRun g fuel ((u, p, ws) :: fr) vis par
      else if w ∈ vis then
        match buildCycle par (vis.card + 1) u w with
        | none => none
        | some c => some (some c, vis, par)
      else
        cdfsRun g fuel ((w, some u, adjL g w) :: (u, p, ws) :: fr)
          (insert w vis) (fun x => if x = w then some u else par x)

/-- Fuel for `cdfsRun`: every step removes a pending neighbour entry, pops
a frame, or pushes one (each vertex is pushed at most once). -/
def cFuel (g : Graph) : Nat :=
  1 + 2 * g.V.card + ((sortedV g).map (fun v => (adjL g v).length)).sum

/-- `cycle_containing(v)`: `none` for the `ValueError` on an absent vertex
(`_ensure_vertex`); otherwise the first component of `dfs(v, None)`. -/
def cycleContaining (g : Graph) (v : Nat) : Option (Option (List Nat)) :=
  if v ∉ g.V then none
  else
    (cdfsRun g (cFuel g) [(v, none, adjL g v)] {v} (fun _ => none)).map
      Prod.fst

/-! ## Fundamental cycle and `k_spanning_trees` -/

/-- `fundamental_cycle(edge)`: run `cycle_containing(edge[0])`; a missing
or too-short vertex list yields Python `None` (`some none`); otherwise each
consecutive pair of the vertex list — including the wrap-around from its
last entry back to its first — is emitted as a canonical pair. -/
def fundamentalCycle (g : Graph) (e : Nat × Nat) :
    Option (Option (List (Nat × Nat))) :=
  match cycleContaining g e.1 with
  | none => none
  | some none => some none
  | some (some cv) =>
      if cv.length < 2 then some none
      else
        some (some ((List.range cv.length).map (fun i =>
          canon (cv.getD i 0) (cv.getD ((i + 1) % cv.length) 0))))

/-- Search state of `k_spanning_trees`: deduplication keys (frozen edge
sets), collected results, worklist. -/
structure KSt where
  seen : Finset (Finset (Nat × Nat))
  results : List Graph
  queue : List Graph

/-- The `for f in cycle:` loop: skip `f == e`; build the candidate graph on
`extended_edges - {f}`; a new edge-set key is recorded, collected and
enqueued, returning early (`Sum.inr`) when `k` results are reached. -/
def kstF (vs : Finset Nat) (k : Nat) (extended : Finset (Nat × Nat))
    (e : Nat × Nat) : List (Nat × Nat) → KSt → Option (KSt ⊕ List Graph)
  | [], st => some (.inl st)
  | f :: fs, st =>
      if f = e then kstF vs k extended e fs st
      else
        match mkGraphE vs (extended.erase f) with
        | none => none
        | some nt =>
          if nt.E ∈ st.seen then kstF vs k extended e fs st
          else
            let st' : KSt := ⟨insert nt.E st.seen, st.results ++ [nt], st.queue ++ [nt]⟩
            if st'.results.length = k then some (.inr st'.results)
            else kstF vs k extended e fs st'

/-- The `for e in non_tree_edges:` loop: extend the current edge set by
`e`, compute the fundamental cycle in the extended graph and run the
`f`-loop.  A `None` cycle would be iterated by Python (`TypeError`) —
modelled as the abnormal `none`. -/
def kstE (g : Graph) (k : Nat) (current : Finset (Nat × Nat)) :
    List (Nat × Nat) → KSt → Option (KSt ⊕ List Graph)
  | [], st => some (.inl st)
  | e :: es, st =>
      match mkGraphE g.V (insert e current) with
      | none => none
      | some temp =>
        match fundamentalCycle temp e with
        | none => none
        | some none => none
        | some (some cyc) =>
          match kstF g.V k (insert e current) e cyc st with
          | none => none
          | some (.inr r) => some (.inr r)
          | some (.inl st') => kstE g k current es st'

/-- The `while queue and len(results) < k:` loop. -/
def kstLoop (g : Graph) (k : Nat) : Nat → KSt → Option (List Graph)
  | 0, _ => none
  | fuel+1, st =>
      match st.queue with
      | [] => some st.results
      | current :: rest =>
        if k ≤ st.results.length then some st.results
        else
          match kstE g k current.E (sortE (g.E \ current.E)) ⟨st.seen, st.results, rest⟩ with
          | none => none
          | some (.inr r) => some r
          | some (.inl st') => kstLoop g k fuel st'

/-- `k_spanning_trees(base_tree, k)`: breadth-first single-edge-exchange
search seeded with `base_tree`.  At most `k` results are ever collected and
every loop iteration pops the queue, so `k + 2` iterations of fuel always
suffice. -/
def kSpanningTrees (g base : Graph) (k : Nat) : Option (List Graph) :=
  kstLoop g k (k + 2) ⟨{base.E}, [], [base]⟩

/-! ## Representation conversions -/

/-- `M[i][j]`, with out-of-range reads defaulting to 0 (the theorems below
only read in range). -/
def matGet (M : List (List Nat)) (i j : Nat) : Nat := (M.getD i []).getD j 0

/-- `M[i][j] = x`. -/
def matSet (M : List (List Nat)) (i j x : Nat) : List (List Nat) :=
  M.set i ((M.getD i []).set j x)

/-- `adjacency_matrix()`: an `n × n` zero matrix over the sorted vertex
list, with `M[i][j] = M[j][i] = 1` set for every edge. -/
def adjacencyMatrix (g : Graph) : List (List Nat) :=
  let vs := sortedV g
  let n := vs.length
  (sortE g.E).foldl
    (fun M e => matSet (matSet M (vs.indexOf e.1) (vs.indexOf e.2) 1)
      (vs.indexOf e.2) (vs.indexOf e.1) 1)
    (List.replicate n (List.replicate n 0))

/-- `from_adjacency_matrix(M, labels)`: fails on a label count mismatch;
adds an edge for every nonzero strict-upper-triangle cell. -/
def fromAdjacencyMatrix (M : List (List Nat)) (labels : List Nat) :
    Option Graph :=
  if labels.length ≠ M.length then none
  else
    addEdges emptyG
      ((List.range M.length).flatMap (fun i =>
        (((List.range M.length).filter (fun j => i < j ∧ matGet M i j ≠ 0)).map
          (fun j => (labels.getD i 0, labels.getD j 0)))))

/-- `incidence_matrix()`: rows over sorted vertices, one column per sorted
edge with 1s at the two endpoint rows. -/
def incidenceMatrix (g : Graph) : List (List Nat) :=
  let vs := sortedV g
  let es := sortE g.E
  es.enum.foldl
    (fun M p => matSet (matSet M (vs.indexOf p.2.1) p.1 1)
      (vs.indexOf p.2.2) p.1 1)
    (List.replicate vs.length (List.replicate es.length 0))

/-- `from_incidence_matrix(M, labels)`: for each column collect the labels
of rows holding 1 (an out-of-range label access is the raised `IndexError`);
fail unless exactly two, else `add_edge` them. -/
def fromIncidenceMatrix (M : List (List Nat)) (labels : List Nat) :
    Option Graph :=
  let n := M.length
  let m := if n = 0 then 0 else (M.headD []).length
  (List.range m).foldlM
    (fun (g : Graph) e =>
      match ((List.range n).filter (fun v => matGet M v e = 1)).mapM
          (fun v => labels.get? v) with
      | none => none
      | some [a, b] => g.addEdge a b
      | some _ => none)
    emptyG

/-- `adjacency_list()`: each neighbour list sorted, keys in dict order. -/
def adjacencyList (g : Graph) : List (Nat × List Nat) :=
  g.adj.map (fun p => (p.1, p.2.insertionSort (· ≤ ·)))

/-- `from_adjacency_list(L)`: `add_edge(u, v)` for every listed pair. -/
def fromAdjacencyList (L : List (Nat × List Nat)) : Option Graph :=
  L.foldlM (fun (g : Graph) p => p.2.foldlM (fun g' w => g'.addEdge p.1 w) g)
    emptyG

/-- The shape asserted of `hamiltonian_cycle()`'s output by its claim:
either no cycle is reported, or the reported vertex sequence starts and
ends at the start vertex (the smallest vertex of the graph), lists every
vertex of the graph exactly once before the final repeat, and steps only
along edges of the graph. -/
def HamClaim (g : Graph) : Prop :=
  hamiltonianCycle g = none ∨
    ∃ L s, hamiltonianCycle g = some L ∧ (sortedV g).head? = some s ∧
      L.head? = some s ∧ L.getLast? = some s ∧
      L.dropLast.Nodup ∧ L.dropLast.length = g.V.card ∧
      (∀ x ∈ L, x ∈ g.V) ∧ List.Chain' (adjacent g) L

/-! ## Concrete instances used by the individual claims -/

/-- A triangle `0-1-2` together with the isolated vertex `3`:
`|V| = 4`, `|E| = 3`. -/
def gTriIso : Graph := buildG [.addE 0 1, .addE 0 2, .addE 1 2, .addV 3]

/-- A triangle `0-1-2` with a pendant vertex `3` attached to `2`. -/
def gPendant : Graph := buildG [.addE 0 1, .addE 0 2, .addE 1 2, .addE 2 3]

/-- The triangle `Graph(vertices={0,1,2}, edges={(0,1),(0,2),(1,2)})`. -/
def gTri : Graph := (mkGraphE {0, 1, 2} {(0, 1), (0, 2), (1, 2)}).getD emptyG

/-- The spanning tree `{(0,1),(0,2)}` of the triangle `gTri`. -/
def tBase : Graph := (mkGraphE {0, 1, 2} {(0, 1), (0, 2)}).getD emptyG

/-- Two isolated vertices and no edges. -/
def gIsoPair : Graph := buildG [.addV 0, .addV 1]

/-- The square `A-B-D-C` of the test suite with `A,B,C,D ↦ 0,1,2,3`:
edges `A-B`, `B-D`, `D-C`, `C-A`. -/
def gSquare : Graph := buildG [.addE 0 1, .addE 1 3, .addE 3 2, .addE 2 0]

/-! ## Derived notions used by the verification -/

/-- Rectangular `n × m` matrix shape. -/
def Rect (M : List (List Nat)) (n m : Nat) : Prop :=
  M.length = n ∧ ∀ r ∈ M, r.length = m

/-- Reachability along a bare canonical edge set (used to state that the
edges recorded by a traversal connect what it visited). -/
def ReachE (te : Finset (Nat × Nat)) (u v : Nat) : Prop :=
  Relation.ReflTransGen (fun a b => canon a b ∈ te) u v

/-- Decreasing measure of the `is_connected` stack traversal: the stack
size plus, for every unvisited vertex, one visit plus its degree. -/
def satMeasure (g : Graph) (stack : List Nat) (vis : Finset Nat) : Nat :=
  stack.length + ∑ v ∈ g.V \ vis, (1 + (adjL g v).length)

/-- Decreasing measure of the `cycle_containing` DFS: frame count, plus
pending neighbour entries, plus one visit and one full neighbour list per
unvisited vertex. -/
def cMeasure (g : Graph) (fr : List (Nat × Option Nat × List Nat))
    (vis : Finset Nat) : Nat :=
  fr.length + (fr.map (fun f => f.2.2.length)).sum
    + ∑ x ∈ g.V \ vis, (1 + (adjL g x).length)

/-! # Theorems

## Canonical pairs -/

theorem canon_comm (u v : Nat) : canon u v = canon v u := by
  simp only [canon, Nat.min_comm, Nat.max_comm]

theorem canon_of_lt {u v : Nat} (h : u < v) : canon u v = (u, v) := by
  simp only [canon, Nat.min_eq_left h.le, Nat.max_eq_right h.le]

theorem canon_of_canonical {e : Nat × Nat} (h : e.1 < e.2) :
    canon e.1 e.2 = e := by
  rw [canon_of_lt h]

theorem canon_fst_lt_snd {u v : Nat} (h : u ≠ v) :
    (canon u v).1 < (canon u v).2 := by
  simp only [canon]; omega

theorem canon_cases (u v : Nat) : canon u v = (u, v) ∨ canon u v = (v, u) := by
  simp only [canon, Prod.mk.injEq]; omega

theorem canon_inj {v w w' : Nat} (h : canon v w = canon v w') : w = w' := by
  simp only [canon, Prod.mk.injEq] at h; omega

theorem adjacent_symm {g : Graph} {u v : Nat} (h : adjacent g u v) :
    adjacent g v u := by
  rwa [adjacent, canon_comm]

theorem adjacent_ne {g : Graph} (hW : Wf g) {u v : Nat} (h : adjacent g u v) :
    u ≠ v := by
  intro rfl
  exact absurd (hW.edgeCanon _ h) (by simp only [canon]; omega)

theorem adjacent_mem_V {g : Graph} (hW : Wf g) {u v : Nat}
    (h : adjacent g u v) : u ∈ g.V ∧ v ∈ g.V := by
  have h2 := hW.edgeMemV _ h
  rcases canon_cases u v with h1 | h1 <;> rw [h1] at h2
  · exact h2
  · exact ⟨h2.2, h2.1⟩

/-! ## Sorted lists from finite sets -/

theorem msort_coe {α : Type} (r : α → α → Prop) [DecidableRel r]
    [IsTotal α r] [IsTrans α r] [IsAntisymm α r] (l : List α) :
    Multiset.foldr (fun (a : α) (l : List α) => l.orderedInsert r a) [] (↑l)
      = l.insertionSort r := by
  induction l with
  | nil => rfl
  | cons a l ih =>
      rw [show ((a :: l : List α) : Multiset α) = a ::ₘ (l : Multiset α) from rfl,
        Multiset.foldr_cons, ih]
      rfl

theorem finSortR_perm {α : Type} (r : α → α → Prop) [DecidableRel r]
    [IsTotal α r] [IsTrans α r] [IsAntisymm α r] (s : Finset α) :
    ((finSortR r s : List α) : Multiset α) = s.val := by
  obtain ⟨m, hm⟩ := s
  induction m using Quotient.inductionOn with
  | h l =>
      show ((finSortR r ⟨⟦l⟧, hm⟩ : List α) : Multiset α) = (l : Multiset α)
      rw [show finSortR r ⟨⟦l⟧, hm⟩
          = Multiset.foldr (fun (a : α) (t : List α) => t.orderedInsert r a) [] (↑l)
          from rfl, msort_coe]
      exact Quot.sound (List.perm_insertionSort r l)

theorem mem_finSortR {α : Type} (r : α → α → Prop) [DecidableRel r]
    [IsTotal α r] [IsTrans α r] [IsAntisymm α r] {s : Finset α} {a : α} :
    a ∈ finSortR r s ↔ a ∈ s := by
  rw [← Multiset.mem_coe, finSortR_perm]; rfl

theorem finSortR_nodup {α : Type} (r : α → α → Prop) [DecidableRel r]
    [IsTotal α r] [IsTrans α r] [IsAntisymm α r] (s : Finset α) :
    (finSortR r s).Nodup := by
  have := s.nodup
  rw [← Multiset.coe_nodup, finSortR_perm]
  exact this

theorem finSortR_sorted {α : Type} (r : α → α → Prop) [DecidableRel r]
    [IsTotal α r] [IsTrans α r] [IsAntisymm α r] (s : Finset α) :
    List.Sorted r (finSortR r s) := by
  obtain ⟨m, hm⟩ := s
  induction m using Quotient.inductionOn with
  | h l =>
      rw [show finSortR r ⟨⟦l⟧, hm⟩
          = Multiset.foldr (fun (a : α) (t : List α) => t.orderedInsert r a) [] (↑l)
          from rfl, msort_coe]
      exact List.sorted_insertionSort r l

theorem finSortR_length {α : Type} (r : α → α → Prop) [DecidableRel r]
    [IsTotal α r] [IsTrans α r] [IsAntisymm α r] (s : Finset α) :
    (finSortR r s).length = s.card := by
  have := finSortR_perm r s
  have h2 := congrArg Multiset.card this
  simpa using h2

theorem mem_finSort {s : Finset Nat} {a : Nat} : a ∈ finSort s ↔ a ∈ s :=
  mem_finSortR _

theorem finSort_nodup (s : Finset Nat) : (finSort s).Nodup := finSortR_nodup _ s

theorem finSort_sorted (s : Finset Nat) : List.Sorted (· ≤ ·) (finSort s) :=
  finSortR_sorted _ s

theorem finSort_length (s : Finset Nat) : (finSort s).length = s.card :=
  finSortR_length _ s

theorem mem_sortE {E : Finset (Nat × Nat)} {e : Nat × Nat} :
    e ∈ sortE E ↔ e ∈ E := mem_finSortR _

theorem mem_sortedV {g : Graph} {v : Nat} : v ∈ sortedV g ↔ v ∈ g.V :=
  mem_finSortR _

/-! ## Association-list lookups -/

theorem lk_cons (p : Nat × List Nat) (l : List (Nat × List Nat)) (v : Nat) :
    lk (p :: l) v = if p.1 = v then p.2 else lk l v := by
  by_cases h : p.1 = v
  · simp [lk, List.find?_cons_of_pos, h]
  · simp only [lk, List.find?]
    rw [show (p.1 == v) = false by simpa using h]
    simp [h]

theorem lk_not_mem {l : List (Nat × List Nat)} {v : Nat}
    (h : v ∉ l.map Prod.fst) : lk l v = [] := by
  induction l with
  | nil => rfl
  | cons p l ih =>
      simp only [List.map_cons, List.mem_cons] at h
      push_neg at h
      rw [lk_cons, if_neg (fun hh => h.1 hh.symm), ih h.2]

theorem lk_mem_nodup {l : List (Nat × List Nat)}
    (hnd : (l.map Prod.fst).Nodup) {v : Nat} {ns : List Nat}
    (h : (v, ns) ∈ l) : lk l v = ns := by
  induction l with
  | nil => cases h
  | cons p l ih =>
      simp only [List.map_cons, List.nodup_cons] at hnd
      rcases List.mem_cons.mp h with h | h
      · rw [← h, lk_cons, if_pos rfl]
      · have : p.1 ≠ v := by
          intro hv
          exact hnd.1 (hv ▸ (List.mem_map.mpr ⟨_, h, rfl⟩))
        rw [lk_cons, if_neg this, ih hnd.2 h]

theorem lk_mem_self {l : List (Nat × List Nat)} {v : Nat}
    (h : v ∈ l.map Prod.fst) : (v, lk l v) ∈ l := by
  induction l with
  | nil => cases h
  | cons p l ih =>
      rw [lk_cons]
      by_cases hv : p.1 = v
      · rw [if_pos hv]
        have : (v, p.2) = p := by rw [← hv]
        rw [this]
        exact List.mem_cons_self _ _
      · rw [if_neg hv]
        simp only [List.map_cons, List.mem_cons] at h
        rcases h with h | h
        · exact absurd h.symm hv
        · exact List.mem_cons_of_mem _ (ih h)

theorem adjAppend_keys (l : List (Nat × List Nat)) (v w : Nat) :
    (adjAppend l v w).map Prod.fst = l.map Prod.fst := by
  induction l with
  | nil => rfl
  | cons p l ih =>
      show (if p.1 = v then (p.1, p.2 ++ [w]) else p).1 :: (adjAppend l v w).map Prod.fst
          = p.1 :: l.map Prod.fst
      rw [ih]
      by_cases h : p.1 = v <;> simp [h]

theorem lk_adjAppend (l : List (Nat × List Nat)) (v w x : Nat) :
    lk (adjAppend l v w) x =
      if x = v ∧ v ∈ l.map Prod.fst then lk l v ++ [w] else lk l x := by
  induction l with
  | nil => simp [adjAppend, lk]
  | cons p l ih =>
      have hstep : adjAppend (p :: l) v w
          = (if p.1 = v then (p.1, p.2 ++ [w]) else p) :: adjAppend l v w := rfl
      by_cases hp : p.1 = v <;> by_cases hx : x = v <;>
        by_cases hm : v ∈ l.map Prod.fst
      · have hpx : p.1 = x := by rw [hp, hx]
        simp [hstep, lk_cons, hp, hx, hm, hpx]
      · have hpx : p.1 = x := by rw [hp, hx]
        simp [hstep, lk_cons, hp, hx, hm, hpx]
      · have hpx : ¬ p.1 = x := by rw [hp]; exact fun h => hx h.symm
        have hvx : ¬ v = x := fun h => hx h.symm
        simp [hstep, lk_cons, hp, hx, hm, hpx, hvx, ih]
      · have hpx : ¬ p.1 = x := by rw [hp]; exact fun h => hx h.symm
        have hvx : ¬ v = x := fun h => hx h.symm
        simp [hstep, lk_cons, hp, hx, hm, hpx, hvx, ih]
      · subst hx
        have hvp : ¬ x = p.1 := fun h => hp h.symm
        simp [hstep, lk_cons, hp, hm, hvp, ih]
      · subst hx
        have hvp : ¬ x = p.1 := fun h => hp h.symm
        simp [hstep, lk_cons, hp, hm, hvp, ih]
      · simp [hstep, lk_cons, hp, hx, hm, ih]
      · simp [hstep, lk_cons, hp, hx, hm, ih]

/-! ## The construction operations preserve the class invariant -/

theorem addVertex_V (g : Graph) (v : Nat) : (g.addVertex v).V = insert v g.V := by
  unfold Graph.addVertex
  split
  · exact (Finset.insert_eq_self.mpr (by assumption)).symm
  · rfl

theorem addVertex_E (g : Graph) (v : Nat) : (g.addVertex v).E = g.E := by
  unfold Graph.addVertex; split <;> rfl

theorem lk_append_nil_entry (l : List (Nat × List Nat)) (v x : Nat) :
    lk (l ++ [(v, [])]) x = lk l x := by
  induction l with
  | nil =>
      show lk [(v, [])] x = lk [] x
      rw [lk_cons]
      by_cases h : v = x <;> simp [h, lk]
  | cons p l ih => rw [List.cons_append, lk_cons, lk_cons, ih]

theorem addVertex_adjL (g : Graph) (v x : Nat) :
    adjL (g.addVertex v) x = adjL g x := by
  unfold Graph.addVertex adjL
  split
  · rfl
  · exact lk_append_nil_entry _ _ _

/-- Rebuild the invariant from a pointwise description of the adjacency
lists (more convenient than entry-level reasoning). -/
theorem wf_mk {g : Graph}
    (h1 : (g.adj.map Prod.fst).Nodup)
    (h2 : (g.adj.map Prod.fst).toFinset = g.V)
    (h3 : ∀ e ∈ g.E, e.1 < e.2)
    (h4 : ∀ e ∈ g.E, e.1 ∈ g.V ∧ e.2 ∈ g.V)
    (h5 : ∀ x, (adjL g x).Nodup)
    (h6 : ∀ x w, w ∈ adjL g x ↔ canon x w ∈ g.E) : Wf g := by
  refine ⟨h1, h2, h3, h4, ?_, ?_, ?_⟩
  · intro p hp
    have : p = (p.1, lk g.adj p.1) := by
      rw [lk_mem_nodup h1 (show (p.1, p.2) ∈ g.adj from hp)]
    rw [show (p.2 : List Nat) = adjL g p.1 from congrArg Prod.snd this]
    exact h5 _
  · intro p hp w hw
    have : p = (p.1, lk g.adj p.1) := by
      rw [lk_mem_nodup h1 (show (p.1, p.2) ∈ g.adj from hp)]
    rw [show (p.2 : List Nat) = adjL g p.1 from congrArg Prod.snd this] at hw
    exact (h6 _ _).mp hw
  · intro e he
    constructor
    · rw [h6]
      rwa [canon_of_canonical (h3 _ he)]
    · rw [h6, canon_comm]
      rwa [canon_of_canonical (h3 _ he)]

/-- The two directions of the adjacency/edge correspondence, for any
well-formed graph. -/
theorem Wf.adjL_iff {g : Graph} (hW : Wf g) (x w : Nat) :
    w ∈ adjL g x ↔ canon x w ∈ g.E := by
  constructor
  · intro h
    by_cases hk : x ∈ g.adj.map Prod.fst
    · exact hW.adjInE _ (lk_mem_self hk) _ h
    · rw [adjL, lk_not_mem hk] at h
      cases h
  · intro h
    rcases canon_cases x w with hc | hc
    · have := (hW.eInAdj _ h).1
      rwa [hc] at this
    · have := (hW.eInAdj _ h).2
      rwa [hc] at this

theorem Wf.adjL_nodup {g : Graph} (hW : Wf g) (x : Nat) :
    (adjL g x).Nodup := by
  by_cases hk : x ∈ g.adj.map Prod.fst
  · exact hW.adjNodup _ (lk_mem_self hk)
  · rw [adjL, lk_not_mem hk]
    exact List.nodup_nil

theorem Wf.adjL_mem_V {g : Graph} (hW : Wf g) {x w : Nat}
    (h : w ∈ adjL g x) : x ∈ g.V ∧ w ∈ g.V := by
  rw [hW.adjL_iff] at h
  exact adjacent_mem_V hW h

theorem Wf.adjL_ne {g : Graph} (hW : Wf g) {x w : Nat}
    (h : w ∈ adjL g x) : w ≠ x := by
  rw [hW.adjL_iff] at h
  exact fun hc => (adjacent_ne hW h) (hc ▸ rfl)

theorem Wf.adjL_of_not_mem_V {g : Graph} (hW : Wf g) {x : Nat}
    (h : x ∉ g.V) : adjL g x = [] := by
  apply lk_not_mem
  rw [← List.mem_toFinset, hW.keysMem] at *
  exact h

theorem addVertex_wf {g : Graph} (hW : Wf g) (v : Nat) :
    Wf (g.addVertex v) := by
  unfold Graph.addVertex
  split
  · exact hW
  · rename_i hv
    refine wf_mk ?_ ?_ ?_ ?_ ?_ ?_
    · show ((g.adj ++ [(v, [])]).map Prod.fst).Nodup
      rw [List.map_append]
      refine List.Nodup.append hW.keysNodup (by simp) ?_
      intro a ha hb
      simp only [List.map_cons, List.map_nil, List.mem_singleton] at hb
      subst hb
      rw [← List.mem_toFinset, hW.keysMem] at ha
      exact hv ha
    · show ((g.adj ++ [(v, [])]).map Prod.fst).toFinset = insert v g.V
      rw [List.map_append, List.toFinset_append, hW.keysMem]
      show g.V ∪ {v} = insert v g.V
      rw [Finset.union_comm, ← Finset.insert_eq]
    · exact hW.edgeCanon
    · intro e he
      have := hW.edgeMemV e he
      exact ⟨Finset.mem_insert_of_mem this.1, Finset.mem_insert_of_mem this.2⟩
    · intro x
      show (lk (g.adj ++ [(v, [])]) x).Nodup
      rw [lk_append_nil_entry]
      exact hW.adjL_nodup x
    · intro x w
      show w ∈ lk (g.adj ++ [(v, [])]) x ↔ _
      rw [lk_append_nil_entry]
      exact hW.adjL_iff x w

theorem addEdge_none_iff (g : Graph) (u v : Nat) :
    g.addEdge u v = none ↔ u = v := by
  unfold Graph.addEdge
  by_cases h : u = v
  · simp [h]
  · simp only [h, if_false]
    split <;> simp [h]

/-- `add_edge` on a well-formed graph with distinct endpoints: succeeds,
preserves the invariant, inserts both endpoints and the canonical pair. -/
theorem addEdge_spec {g : Graph} (hW : Wf g) {u v : Nat} (h : u ≠ v) :
    ∃ g', g.addEdge u v = some g' ∧ Wf g' ∧
      g'.V = insert u (insert v g.V) ∧ g'.E = insert (canon u v) g.E := by
  have hW1 : Wf ((g.addVertex u).addVertex v) := addVertex_wf (addVertex_wf hW u) v
  have hV1 : ((g.addVertex u).addVertex v).V = insert v (insert u g.V) := by
    rw [addVertex_V, addVertex_V]
  have hE1 : ((g.addVertex u).addVertex v).E = g.E := by
    rw [addVertex_E, addVertex_E]
  have hA1 : ∀ x, adjL ((g.addVertex u).addVertex v) x = adjL g x := by
    intro x; rw [addVertex_adjL, addVertex_adjL]
  set g1 := (g.addVertex u).addVertex v with hg1
  unfold Graph.addEdge
  rw [if_neg h]
  by_cases hmem : canon u v ∈ g1.E
  · refine ⟨g1, by simp [hmem, ← hg1], hW1, ?_, ?_⟩
    · rw [hV1, Finset.Insert.comm]
    · rw [hE1, Finset.insert_eq_self.mpr (hE1 ▸ hmem)]
  · have hu1 : u ∈ g1.V := by rw [hV1]; simp
    have hv1 : v ∈ g1.V := by rw [hV1]; simp
    have hukeys : u ∈ g1.adj.map Prod.fst := by
      rw [← List.mem_toFinset, hW1.keysMem]; exact hu1
    have hvkeys : v ∈ g1.adj.map Prod.fst := by
      rw [← List.mem_toFinset, hW1.keysMem]; exact hv1
    set g2 : Graph :=
      ⟨g1.V, insert (canon u v) g1.E, adjAppend (adjAppend g1.adj u v) v u⟩
      with hg2
    have hkeys2 : g2.adj.map Prod.fst = g1.adj.map Prod.fst := by
      rw [hg2]
      show (adjAppend (adjAppend g1.adj u v) v u).map Prod.fst = _
      rw [adjAppend_keys, adjAppend_keys]
    have hadj2 : ∀ x, adjL g2 x =
        if x = u then adjL g1 u ++ [v]
        else if x = v then adjL g1 v ++ [u] else adjL g1 x := by
      intro x
      show lk (adjAppend (adjAppend g1.adj u v) v u) x = _
      by_cases hxu : x = u
      · subst hxu
        rw [lk_adjAppend, if_neg (fun hc => h hc.1), lk_adjAppend,
          if_pos ⟨rfl, hukeys⟩, if_pos rfl]
        rfl
      · by_cases hxv : x = v
        · subst hxv
          rw [lk_adjAppend,
            if_pos ⟨rfl, by rw [adjAppend_keys]; exact hvkeys⟩,
            lk_adjAppend, if_neg (fun hc => h hc.1.symm),
            if_neg hxu, if_pos rfl]
          rfl
        · rw [lk_adjAppend, if_neg (fun hc => hxv hc.1), lk_adjAppend,
            if_neg (fun hc => hxu hc.1), if_neg hxu, if_neg hxv]
          rfl
    refine ⟨g2, ?_, ?_, ?_, ?_⟩
    · simp only [← hg1, hmem, if_false]
    · refine wf_mk ?_ ?_ ?_ ?_ ?_ ?_
      · rw [hkeys2]; exact hW1.keysNodup
      · rw [hkeys2]
        show _ = g1.V
        exact hW1.keysMem
      · intro e he
        rcases Finset.mem_insert.mp he with he | he
        · subst he; exact canon_fst_lt_snd h
        · exact hW1.edgeCanon _ he
      · intro e he
        rcases Finset.mem_insert.mp he with he | he
        · subst he
          show (canon u v).1 ∈ g1.V ∧ (canon u v).2 ∈ g1.V
          rcases canon_cases u v with hc | hc <;> rw [hc] <;>
            exact ⟨by assumption, by assumption⟩
        · exact hW1.edgeMemV _ he
      · intro x
        rw [hadj2]
        by_cases hxu : x = u
        · rw [if_pos hxu]
          refine List.Nodup.append (hW1.adjL_nodup u) (by simp) ?_
          intro a ha hb
          simp only [List.mem_singleton] at hb
          subst hb
          rw [hW1.adjL_iff] at ha
          exact hmem ha
        · by_cases hxv : x = v
          · rw [if_neg hxu, if_pos hxv]
            refine List.Nodup.append (hW1.adjL_nodup v) (by simp) ?_
            intro a ha hb
            simp only [List.mem_singleton] at hb
            subst hb
            rw [hW1.adjL_iff, canon_comm] at ha
            exact hmem ha
          · rw [if_neg hxu, if_neg hxv]
            exact hW1.adjL_nodup x
      · intro x w
        rw [hadj2]
        show _ ↔ canon x w ∈ insert (canon u v) g1.E
        by_cases hxu : x = u
        · subst hxu
          rw [if_pos rfl, List.mem_append, List.mem_singleton,
            Finset.mem_insert, hW1.adjL_iff]
          constructor
          · rintro (hh | rfl)
            · exact Or.inr hh
            · exact Or.inl rfl
          · rintro (hh | hh)
            · exact Or.inr (canon_inj hh)
            · exact Or.inl hh
        · by_cases hxv : x = v
          · subst hxv
            rw [if_neg hxu, if_pos rfl, List.mem_append, List.mem_singleton,
              Finset.mem_insert, hW1.adjL_iff]
            constructor
            · rintro (hh | rfl)
              · exact Or.inr hh
              · exact Or.inl (canon_comm _ _)
            · rintro (hh | hh)
              · have h3 : canon x u = canon x w := by
                  rw [canon_comm, hh, canon_comm]
                exact Or.inr (canon_inj h3 ▸ rfl)
              · exact Or.inl hh
          · rw [if_neg hxu, if_neg hxv, hW1.adjL_iff, Finset.mem_insert]
            constructor
            · exact Or.inr
            · rintro (hh | hh)
              · exfalso
                rcases canon_cases x w with hc | hc <;>
                  rcases canon_cases u v with hc' | hc' <;>
                  rw [hc, hc'] at hh <;> injection hh with h1 h2
                · exact hxu h1
                · exact hxv h1
                · exact hxv h2
                · exact hxu h2
              · exact hh
    · show g1.V = _
      rw [hV1, Finset.Insert.comm]
    · show insert (canon u v) g1.E = _
      rw [hE1]

theorem emptyG_wf : Wf emptyG := by decide

theorem applyOp_wf {g : Graph} (hW : Wf g) (op : GOp) : Wf (applyOp g op) := by
  cases op with
  | addV v => exact addVertex_wf hW v
  | addE u v =>
      show Wf ((g.addEdge u v).getD g)
      by_cases h : u = v
      · rw [show g.addEdge u v = none from (addEdge_none_iff g u v).mpr h]
        exact hW
      · obtain ⟨g', hg', hWg', -, -⟩ := addEdge_spec hW h
        rw [hg']
        exact hWg'

/-- C8's side condition: every graph reachable through the constructors is
well-formed. -/
theorem buildG_wf (ops : List GOp) : Wf (buildG ops) := by
  suffices h : ∀ g, Wf g → Wf (ops.foldl applyOp g) from h _ emptyG_wf
  induction ops with
  | nil => exact fun g h => h
  | cons op ops ih => exact fun g h => ih _ (applyOp_wf h op)

theorem addEdges_spec {g : Graph} (hW : Wf g) {es : List (Nat × Nat)}
    (hes : ∀ e ∈ es, e.1 ≠ e.2) :
    ∃ g', addEdges g es = some g' ∧ Wf g' ∧
      g'.V = (g.V ∪ (es.map Prod.fst).toFinset) ∪ (es.map Prod.snd).toFinset ∧
      g'.E = g.E ∪ (es.map (fun e => canon e.1 e.2)).toFinset := by
  induction es generalizing g with
  | nil =>
      exact ⟨g, rfl, hW, by simp, by simp⟩
  | cons e es ih =>
      obtain ⟨g1, hg1, hW1, hV1, hE1⟩ :=
        addEdge_spec hW (hes e (List.mem_cons_self _ _))
      obtain ⟨g', hg', hW', hV', hE'⟩ :=
        ih hW1 (fun e' he' => hes e' (List.mem_cons_of_mem _ he'))
      refine ⟨g', ?_, hW', ?_, ?_⟩
      · show addEdges g (e :: es) = some g'
        unfold addEdges
        rw [hg1]
        exact hg'
      · rw [hV', hV1]
        ext x
        simp only [Finset.mem_union, Finset.mem_insert, List.mem_toFinset,
          List.map_cons, List.mem_cons]
        tauto
      · rw [hE', hE1]
        ext x
        simp only [Finset.mem_union, Finset.mem_insert, List.mem_toFinset,
          List.map_cons, List.mem_cons]
        tauto

theorem lk_const_nil (l : List Nat) (x : Nat) :
    lk (l.map (fun v => (v, []))) x = [] := by
  induction l with
  | nil => rfl
  | cons a l ih =>
      rw [List.map_cons, lk_cons]
      by_cases h : a = x <;> simp [h, ih]

theorem mkGraph_init_wf (vs : Finset Nat) :
    Wf ⟨vs, ∅, (finSort vs).map (fun v => (v, []))⟩ := by
  have hkeys : ((finSort vs).map (fun v => (v, ([] : List Nat)))).map Prod.fst
      = finSort vs := by
    rw [List.map_map]
    exact List.map_id'' (fun _ => rfl) _
  refine wf_mk ?_ ?_ ?_ ?_ ?_ ?_
  · show ((List.map _ _).map Prod.fst).Nodup
    rw [hkeys]
    exact finSort_nodup vs
  · show ((List.map _ _).map Prod.fst).toFinset = vs
    rw [hkeys]
    ext x
    rw [List.mem_toFinset, mem_finSort]
  · intro e he; cases he
  · intro e he; cases he
  · intro x
    show (lk _ x).Nodup
    rw [lk_const_nil]
    exact List.nodup_nil
  · intro x w
    show w ∈ lk _ x ↔ _
    rw [lk_const_nil]
    simp

theorem mkGraph_spec {vs : Finset Nat} {es : List (Nat × Nat)}
    (hes : ∀ e ∈ es, e.1 ≠ e.2) :
    ∃ g', mkGraph vs es = some g' ∧ Wf g' ∧
      g'.V = (vs ∪ (es.map Prod.fst).toFinset) ∪ (es.map Prod.snd).toFinset ∧
      g'.E = (es.map (fun e => canon e.1 e.2)).toFinset := by
  obtain ⟨g', h1, h2, h3, h4⟩ := addEdges_spec (mkGraph_init_wf vs) hes
  exact ⟨g', h1, h2, h3, by simpa using h4⟩

/-- `Graph(vertices=vs, edges=E)` for an already-canonical edge set with
endpoints inside `vs`: the constructor succeeds and reproduces `(vs, E)`,
with the adjacency re-derived from scratch (hence well-formed). -/
theorem mkGraphE_spec {vs : Finset Nat} {E : Finset (Nat × Nat)}
    (hE : ∀ e ∈ E, e.1 < e.2) (hsub : ∀ e ∈ E, e.1 ∈ vs ∧ e.2 ∈ vs) :
    ∃ g', mkGraphE vs E = some g' ∧ Wf g' ∧ g'.V = vs ∧ g'.E = E := by
  have hes : ∀ e ∈ sortE E, e.1 ≠ e.2 := by
    intro e he
    have := hE e (mem_sortE.mp he)
    omega
  obtain ⟨g', h1, h2, h3, h4⟩ := mkGraph_spec hes
  refine ⟨g', h1, h2, ?_, ?_⟩
  · rw [h3]
    ext x
    simp only [Finset.mem_union, List.mem_toFinset, List.mem_map]
    constructor
    · rintro ((hx | ⟨e, he, rfl⟩) | ⟨e, he, rfl⟩)
      · exact hx
      · exact (hsub e (mem_sortE.mp he)).1
      · exact (hsub e (mem_sortE.mp he)).2
    · exact fun hx => Or.inl (Or.inl hx)
  · rw [h4]
    ext e
    rw [List.mem_toFinset, List.mem_map]
    constructor
    · rintro ⟨e', he', rfl⟩
      rw [canon_of_canonical (hE e' (mem_sortE.mp he'))]
      exact mem_sortE.mp he'
    · intro he
      exact ⟨e, mem_sortE.mpr he, canon_of_canonical (hE e he)⟩

/-! ## The degree sum (C8) -/

theorem degreesSum_eq {g : Graph} (hW : Wf g) :
    degreesSum g = ∑ v ∈ g.V, (adjL g v).length := by
  unfold degreesSum
  rw [List.map_congr_left
      (show ∀ p ∈ g.adj, (fun (p : Nat × List Nat) => p.2.length) p
          = ((fun k => (adjL g k).length) ∘ Prod.fst) p by
        intro p hp
        show p.2.length = (adjL g p.1).length
        rw [show adjL g p.1 = p.2 from lk_mem_nodup hW.keysNodup hp]),
    ← List.map_map, ← List.sum_toFinset _ hW.keysNodup, hW.keysMem]

theorem adjL_length_eq {g : Graph} (hW : Wf g) (v : Nat) :
    (adjL g v).length = (g.V.filter (fun w => canon v w ∈ g.E)).card := by
  rw [← List.toFinset_card_of_nodup (hW.adjL_nodup v)]
  congr 1
  ext w
  rw [List.mem_toFinset, Finset.mem_filter, hW.adjL_iff]
  exact ⟨fun h => ⟨(adjacent_mem_V hW h).2, h⟩, fun h => h.2⟩

theorem sum_filter_canon (V : Finset Nat) (E : Finset (Nat × Nat)) :
    (∀ e ∈ E, e.1 < e.2 ∧ e.1 ∈ V ∧ e.2 ∈ V) →
    ∑ v ∈ V, (V.filter (fun w => canon v w ∈ E)).card = 2 * E.card := by
  induction E using Finset.induction_on with
  | empty => intro _; simp
  | @insert e E hnot ih =>
      intro hE
      have he := hE e (Finset.mem_insert_self e E)
      have hrest : ∀ e' ∈ E, e'.1 < e'.2 ∧ e'.1 ∈ V ∧ e'.2 ∈ V :=
        fun e' h => hE e' (Finset.mem_insert_of_mem h)
      have hsplit : ∀ v, (V.filter (fun w => canon v w ∈ insert e E)).card
          = (V.filter (fun w => canon v w ∈ E)).card
            + (V.filter (fun w => canon v w = e)).card := by
        intro v
        have hfe : (V.filter (fun w => canon v w ∈ insert e E))
            = V.filter (fun w => canon v w ∈ E)
              ∪ V.filter (fun w => canon v w = e) := by
          rw [← Finset.filter_or]
          apply Finset.filter_congr
          intro w _
          rw [Finset.mem_insert]
          tauto
        rw [hfe, Finset.card_union_of_disjoint]
        rw [Finset.disjoint_left]
        intro a ha hb
        rw [Finset.mem_filter] at ha hb
        exact hnot (hb.2 ▸ ha.2)
      have hsingle : ∀ v ∈ V, (V.filter (fun w => canon v w = e)).card
          = (if v = e.1 then 1 else 0) + (if v = e.2 then 1 else 0) := by
        intro v _
        have hne : e.1 ≠ e.2 := by have := he.1; omega
        by_cases h1 : v = e.1
        · subst h1
          rw [if_pos rfl, if_neg hne]
          have hfe : V.filter (fun w => canon e.1 w = e) = {e.2} := by
            ext w
            simp only [Finset.mem_filter, Finset.mem_singleton]
            constructor
            · rintro ⟨_, hc⟩
              exact canon_inj (hc.trans (canon_of_canonical he.1).symm)
            · rintro rfl
              exact ⟨he.2.2, canon_of_canonical he.1⟩
          rw [hfe]
          simp
        · by_cases h2 : v = e.2
          · subst h2
            rw [if_neg h1, if_pos rfl]
            have hfe : V.filter (fun w => canon e.2 w = e) = {e.1} := by
              ext w
              simp only [Finset.mem_filter, Finset.mem_singleton]
              constructor
              · rintro ⟨_, hc⟩
                have hc2 : canon e.2 w = canon e.2 e.1 := by
                  rw [show canon e.2 e.1 = canon e.1 e.2 from canon_comm _ _,
                    canon_of_canonical he.1]
                  exact hc
                exact canon_inj hc2
              · rintro rfl
                refine ⟨he.2.1, ?_⟩
                rw [show canon e.2 e.1 = canon e.1 e.2 from canon_comm _ _]
                exact canon_of_canonical he.1
            rw [hfe]
            simp
          · rw [if_neg h1, if_neg h2]
            have hfe : V.filter (fun w => canon v w = e) = ∅ := by
              ext w
              simp only [Finset.mem_filter, Finset.not_mem_empty, iff_false,
                not_and]
              intro _ hc
              rcases canon_cases v w with hcc | hcc <;> rw [hcc] at hc
              · exact h1 (congrArg Prod.fst hc)
              · exact h2 (congrArg Prod.snd hc)
            rw [hfe]
            simp
      rw [Finset.sum_congr rfl (fun v _ => hsplit v), Finset.sum_add_distrib,
        ih hrest, Finset.sum_congr rfl hsingle, Finset.sum_add_distrib,
        Finset.sum_ite_eq' V e.1 (fun _ => 1),
        Finset.sum_ite_eq' V e.2 (fun _ => 1),
        if_pos he.2.1, if_pos he.2.2, Finset.card_insert_of_not_mem hnot]
      ring

/-! ## Claim C10 -/

/-- C10: there is a cyclic graph accepted by `is_tree()`: the triangle
`0-1-2` plus the isolated vertex `3` has 4 vertices and 3 edges, passes
`is_connected()` (which ignores the degree-0 vertex 3) and hence
`is_tree()`, although it contains the cycle `0,1,2` and vertex 3 is
unreachable from vertex 0. -/
theorem isTree_accepts_triangle_with_isolated :
    isTree gTriIso = true ∧ isConnected gTriIso = true ∧
    gTriIso.V.card = 4 ∧ gTriIso.E.card = 3 ∧
    IsCycleList gTriIso [0, 1, 2] ∧
    3 ∈ gTriIso.V ∧ adjL gTriIso 3 = [] ∧ ¬ Reach gTriIso 0 3 := by
  refine ⟨by decide, by decide, by decide, by decide, ?_, by decide, rfl, ?_⟩
  · refine ⟨by decide, by decide, ?_, by decide⟩
    show List.Chain' (adjacent gTriIso) [0, 1, 2]
    refine List.chain'_cons.mpr ⟨by decide, List.chain'_cons.mpr ⟨by decide, ?_⟩⟩
    exact List.chain'_singleton _
  · have hE : ∀ e ∈ gTriIso.E, e.1 ≤ 2 ∧ e.2 ≤ 2 := by decide
    intro h
    have key : ∀ y, Reach gTriIso 0 y → y ≠ 3 := by
      intro y hy
      induction hy with
      | refl => decide
      | tail _ hadj ih =>
          rintro rfl
          have h2 := (hE _ hadj).2
          have h3 := Nat.le_max_right (by assumption : Nat) 3
          simp only [canon] at h2
          omega
    exact key 3 h rfl

/-! ## Claim C8 -/

/-- C8: every graph reachable from the empty constructor through
`add_vertex` / `add_edge` (which is how every bulk constructor builds its
result) is well-formed — its adjacency dict is exactly the
neighbour-expansion of the canonical edge set — and satisfies
`sum(degrees().values()) == 2 * |E|`. -/
theorem degree_sum_eq_twice_edges (ops : List GOp) :
    Wf (buildG ops) ∧ degreesSum (buildG ops) = 2 * (buildG ops).E.card := by
  have hW := buildG_wf ops
  refine ⟨hW, ?_⟩
  rw [degreesSum_eq hW,
    Finset.sum_congr rfl (fun v _ => adjL_length_eq hW v),
    sum_filter_canon _ _ (fun e he => ⟨hW.edgeCanon e he, hW.edgeMemV e he⟩)]

/-! ## Claim C3 -/

/-- C3: `find_centers()` does not terminate on the triangle-plus-isolated
graph even though the code's own `is_tree()` guard accepts it: the leaf
set is empty (all degrees are 2 or 0), one pass of the pruning loop leaves
the state unchanged with `n = 4 > 2`, so the loop never exits (`none` for
every fuel), contradicting the specified termination with 1 or 2
centres. -/
theorem findCenters_diverges_on_accepted_pseudotree :
    isTree gTriIso = true ∧
    gTriIso.V.card = 4 ∧
    gTriIso.V.filter (fun v => (adjL gTriIso v).length = 1) = ∅ ∧
    findCentersStep (gTriIso, 4, ∅) = some (gTriIso, 4, ∅) ∧
    (∀ fuel, findCentersLoop fuel (gTriIso, 4, ∅) = none) ∧
    (∀ fuel, findCenters gTriIso fuel = none) := by
  have hstep : findCentersStep (gTriIso, 4, (∅ : Finset Nat))
      = some (gTriIso, 4, ∅) := by decide
  have hloop : ∀ fuel, findCentersLoop fuel (gTriIso, 4, ∅) = none := by
    intro fuel
    induction fuel with
    | zero => rfl
    | succ f ih =>
        show findCentersLoop (f + 1) (gTriIso, 4, ∅) = none
        rw [findCentersLoop, if_neg (by decide), hstep]
        exact ih
  refine ⟨by decide, by decide, by decide, hstep, hloop, ?_⟩
  intro fuel
  show findCenters gTriIso fuel = none
  rw [findCenters, if_neg (by decide), if_neg (by decide),
    show gTriIso.V.card = 4 from by decide,
    show gTriIso.V.filter (fun v => (adjL gTriIso v).length = 1) = ∅ from by decide]
  exact hloop fuel

/-! ## Claim C1 -/

/-- C1: `k_spanning_trees` does not return only spanning trees.  On the
triangle with base spanning tree `{(0,1),(0,2)}` and `k = 3`, the third
returned graph carries the full triangle edge set (3 = |V| edges, so
`is_tree` is false on it): the degenerate pair emitted by
`fundamental_cycle` makes `extended_edges - {f}` a no-op, and the
resulting non-tree is deduplicated, collected and returned. -/
theorem kSpanningTrees_returns_non_spanning_tree :
    isTree tBase = true ∧ tBase.V = gTri.V ∧ tBase.E ⊆ gTri.E ∧
    (kSpanningTrees gTri tBase 3).map (List.map (fun t => (t.E, isTree t))) =
      some [({(1, 2), (0, 2)}, true), ({(1, 2), (0, 1)}, true),
        (gTri.E, false)] ∧
    gTri.E.card = 3 ∧ gTri.V.card = 3 := by decide

/-! ## Claim C2 -/

/-- C2: `fundamental_cycle` does not return exactly the cycle's edge set.
For the spanning tree `{(0,1),(0,2)}` of the triangle and the non-tree
edge `(1,2)`, the cycle-vertex list is already closed (first = last), and
the wrap-around over it emits, besides the three genuine cycle edges, the
degenerate self-pair `(1,1)` — which is not an edge at all. -/
theorem fundamentalCycle_includes_degenerate_pair :
    isTree tBase = true ∧ tBase.V = gTri.V ∧
    gTri.E = insert (1, 2) tBase.E ∧ (1, 2) ∉ tBase.E ∧
    fundamentalCycle gTri (1, 2)
      = some (some [(0, 1), (0, 2), (1, 2), (1, 1)]) ∧
    (1, 1) ∈ [(0, 1), (0, 2), (1, 2), (1, 1)] ∧ (1, 1) ∉ gTri.E := by decide

/-! ## Claim C4, counterexample -/

/-- C4 counterexample: the graph of two isolated vertices is connected
according to `is_connected()`, yet `find_spanning_tree()` succeeds with 0
edges where the claim demands `|V| - 1 = 1`. -/
theorem findSpanningTree_defies_edge_count :
    isConnected gIsoPair = true ∧ gIsoPair.V.card = 2 ∧
    (findSpanningTree gIsoPair).isSome = true ∧
    ((findSpanningTree gIsoPair).getD emptyG).E.card = 0 ∧
    ((findSpanningTree gIsoPair).getD emptyG).E.card
      ≠ gIsoPair.V.card - 1 := by decide

/-! ## Claim C6, counterexample -/

/-- C6 counterexample: on the triangle with a pendant vertex 3,
`cycle_containing(3)` returns the triangle cycle `[2, 0, 1, 2]`, which
does not contain the queried vertex 3. -/
theorem cycleContaining_returns_cycle_without_vertex :
    3 ∈ gPendant.V ∧
    cycleContaining gPendant 3 = some (some [2, 0, 1, 2]) ∧
    3 ∉ [2, 0, 1, 2] := by decide

/-! ## Claim C5, counterexample -/

/-- C5 counterexample: on the empty graph `hamiltonian_cycle()` returns
the empty list, which is neither `None` nor a sequence beginning and
ending at a start vertex (the empty graph has no smallest vertex). -/
theorem hamiltonianCycle_empty_defies_claim :
    hamiltonianCycle emptyG = some [] ∧ ¬ HamClaim emptyG := by
  refine ⟨rfl, ?_⟩
  rintro (h | ⟨L, s, hL, hs, -⟩)
  · exact absurd h (by decide)
  · have hnone : (sortedV emptyG).head? = none := rfl
    rw [hnone] at hs
    cases hs

/-! ## Claim C9 -/

/-- C9: each set-algebra and structural transform reads only its operands'
`(V, E)` values and returns a freshly constructed
`Graph(vertices=V', edges=E')` — in the embedding, a `mkGraphE` graph whose
adjacency dict is re-derived from scratch by `add_edge` (hence well-formed)
and whose vertex and edge sets are exactly the computed set formulas of the
source.  The source bodies contain no assignment to an operand attribute,
which the pure translation renders literally: the operands `g1`, `g2` are
immutable values, identical before and after each call. -/
theorem transforms_fresh_and_pure (g1 g2 : Graph) (hW1 : Wf g1) (hW2 : Wf g2) :
    (∃ u, unionG g1 g2 = some u ∧ Wf u ∧
      u.V = g1.V ∪ g2.V ∧ u.E = g1.E ∪ g2.E) ∧
    (∃ i, interG g1 g2 = some i ∧ Wf i ∧ i.V = g1.V ∩ g2.V ∧
      i.E = (g1.E ∩ g2.E).filter
        (fun e => e.1 ∈ g1.V ∩ g2.V ∧ e.2 ∈ g1.V ∩ g2.V)) ∧
    (∃ d, symmDiffG g1 g2 = some d ∧ Wf d ∧ d.V = g1.V ∪ g2.V ∧
      d.E = (g1.E \ g2.E) ∪ (g2.E \ g1.E)) ∧
    (∀ v ∈ g1.V, ∃ h, withoutVertex g1 v = some h ∧ Wf h ∧
      h.V = g1.V.erase v ∧
      h.E = g1.E.filter (fun e => e.1 ≠ v ∧ e.2 ≠ v)) ∧
    (∀ u v, canon u v ∈ g1.E → ∃ h, withoutEdge g1 u v = some h ∧ Wf h ∧
      h.V = g1.V ∧ h.E = g1.E.erase (canon u v)) ∧
    (∀ v1 ∈ g1.V, ∀ v2 ∈ g1.V, v1 ≠ v2 →
      ∃ h, mergeVertices g1 v1 v2 = some h ∧ Wf h ∧
        h.V = g1.V.erase v2 ∧
        h.E = (g1.E.filter (fun e =>
            (if e.1 = v1 ∨ e.1 = v2 then v1 else e.1)
              ≠ (if e.2 = v1 ∨ e.2 = v2 then v1 else e.2))).image
          (fun e => canon (if e.1 = v1 ∨ e.1 = v2 then v1 else e.1)
            (if e.2 = v1 ∨ e.2 = v2 then v1 else e.2))) := by
  refine ⟨?_, ?_, ?_, ?_, ?_, ?_⟩
  · -- union
    refine mkGraphE_spec ?_ ?_
    · intro e he
      rcases Finset.mem_union.mp he with he | he
      · exact hW1.edgeCanon e he
      · exact hW2.edgeCanon e he
    · intro e he
      rcases Finset.mem_union.mp he with he | he
      · exact ⟨Finset.mem_union_left _ (hW1.edgeMemV e he).1,
          Finset.mem_union_left _ (hW1.edgeMemV e he).2⟩
      · exact ⟨Finset.mem_union_right _ (hW2.edgeMemV e he).1,
          Finset.mem_union_right _ (hW2.edgeMemV e he).2⟩
  · -- intersection
    refine mkGraphE_spec ?_ ?_
    · intro e he
      exact hW1.edgeCanon e (Finset.mem_inter.mp (Finset.mem_filter.mp he).1).1
    · intro e he
      exact (Finset.mem_filter.mp he).2
  · -- symmetric difference
    have hcanon : ∀ e ∈ (g1.E \ g2.E) ∪ (g2.E \ g1.E), e.1 < e.2 := by
      intro e he
      rcases Finset.mem_union.mp he with he | he
      · exact hW1.edgeCanon e (Finset.mem_sdiff.mp he).1
      · exact hW2.edgeCanon e (Finset.mem_sdiff.mp he).1
    have hsub : ∀ e ∈ (g1.E \ g2.E) ∪ (g2.E \ g1.E),
        e.1 ∈ (g1.V ∪ g2.V) ∪ ((g1.E \ g2.E) ∪ (g2.E \ g1.E)).biUnion
          (fun e => {e.1, e.2})
        ∧ e.2 ∈ (g1.V ∪ g2.V) ∪ ((g1.E \ g2.E) ∪ (g2.E \ g1.E)).biUnion
          (fun e => {e.1, e.2}) := by
      intro e he
      constructor
      · exact Finset.mem_union_right _
          (Finset.mem_biUnion.mpr ⟨e, he, Finset.mem_insert_self _ _⟩)
      · exact Finset.mem_union_right _
          (Finset.mem_biUnion.mpr ⟨e, he, by simp⟩)
    obtain ⟨d, hd, hWd, hVd, hEd⟩ := mkGraphE_spec hcanon hsub
    refine ⟨d, hd, hWd, ?_, hEd⟩
    rw [hVd]
    apply Finset.union_eq_left.mpr
    intro x hx
    obtain ⟨e, he, hxe⟩ := Finset.mem_biUnion.mp hx
    have hor : x = e.1 ∨ x = e.2 := by
      rcases Finset.mem_insert.mp hxe with h | h
      · exact Or.inl h
      · exact Or.inr (Finset.mem_singleton.mp h)
    rcases Finset.mem_union.mp he with he | he
    · have hm := hW1.edgeMemV e (Finset.mem_sdiff.mp he).1
      rcases hor with rfl | rfl
      · exact Finset.mem_union_left _ hm.1
      · exact Finset.mem_union_left _ hm.2
    · have hm := hW2.edgeMemV e (Finset.mem_sdiff.mp he).1
      rcases hor with rfl | rfl
      · exact Finset.mem_union_right _ hm.1
      · exact Finset.mem_union_right _ hm.2
  · -- without_vertex
    intro v hv
    rw [withoutVertex, if_neg (not_not_intro hv)]
    refine mkGraphE_spec ?_ ?_
    · intro e he
      exact hW1.edgeCanon e (Finset.mem_filter.mp he).1
    · intro e he
      obtain ⟨heE, hne⟩ := Finset.mem_filter.mp he
      exact ⟨Finset.mem_erase.mpr ⟨hne.1, (hW1.edgeMemV e heE).1⟩,
        Finset.mem_erase.mpr ⟨hne.2, (hW1.edgeMemV e heE).2⟩⟩
  · -- without_edge
    intro u v he
    have hmemV := adjacent_mem_V hW1 (show adjacent g1 u v from he)
    rw [withoutEdge, if_neg (by push_neg; exact hmemV),
      if_neg (not_not_intro he)]
    refine mkGraphE_spec ?_ ?_
    · intro e h
      exact hW1.edgeCanon e (Finset.mem_of_mem_erase h)
    · intro e h
      exact hW1.edgeMemV e (Finset.mem_of_mem_erase h)
  · -- merge_vertices
    intro v1 hv1 v2 hv2 hne
    rw [mergeVertices, if_neg (by push_neg; exact ⟨hv1, hv2⟩)]
    have hrew : ∀ x, x ∈ g1.V →
        (if x = v1 ∨ x = v2 then v1 else x) ∈ g1.V.erase v2 := by
      intro x hx
      by_cases hx12 : x = v1 ∨ x = v2
      · rw [if_pos hx12]
        exact Finset.mem_erase.mpr ⟨hne, hv1⟩
      · rw [if_neg hx12]
        push_neg at hx12
        exact Finset.mem_erase.mpr ⟨hx12.2, hx⟩
    refine mkGraphE_spec ?_ ?_
    · intro e he
      obtain ⟨e', he', rfl⟩ := Finset.mem_image.mp he
      exact canon_fst_lt_snd (Finset.mem_filter.mp he').2
    · intro e he
      obtain ⟨e', he', rfl⟩ := Finset.mem_image.mp he
      obtain ⟨heE, -⟩ := Finset.mem_filter.mp he'
      have h1 := hrew e'.1 (hW1.edgeMemV e' heE).1
      have h2 := hrew e'.2 (hW1.edgeMemV e' heE).2
      rcases canon_cases (if e'.1 = v1 ∨ e'.1 = v2 then v1 else e'.1)
          (if e'.2 = v1 ∨ e'.2 = v2 then v1 else e'.2) with hc | hc <;>
        rw [hc]
      · exact ⟨h1, h2⟩
      · exact ⟨h2, h1⟩


/-- Witness for C9 at the concrete square and triangle graphs. -/
theorem transforms_fresh_and_pure_witness :
    Wf gSquare ∧ Wf gTri ∧
    ((∃ u, unionG gSquare gTri = some u ∧ Wf u ∧
      u.V = gSquare.V ∪ gTri.V ∧ u.E = gSquare.E ∪ gTri.E) ∧
    (∃ i, interG gSquare gTri = some i ∧ Wf i ∧ i.V = gSquare.V ∩ gTri.V ∧
      i.E = (gSquare.E ∩ gTri.E).filter
        (fun e => e.1 ∈ gSquare.V ∩ gTri.V ∧ e.2 ∈ gSquare.V ∩ gTri.V)) ∧
    (∃ d, symmDiffG gSquare gTri = some d ∧ Wf d ∧ d.V = gSquare.V ∪ gTri.V ∧
      d.E = (gSquare.E \ gTri.E) ∪ (gTri.E \ gSquare.E)) ∧
    (∀ v ∈ gSquare.V, ∃ h, withoutVertex gSquare v = some h ∧ Wf h ∧
      h.V = gSquare.V.erase v ∧
      h.E = gSquare.E.filter (fun e => e.1 ≠ v ∧ e.2 ≠ v)) ∧
    (∀ u v, canon u v ∈ gSquare.E → ∃ h, withoutEdge gSquare u v = some h ∧ Wf h ∧
      h.V = gSquare.V ∧ h.E = gSquare.E.erase (canon u v)) ∧
    (∀ v1 ∈ gSquare.V, ∀ v2 ∈ gSquare.V, v1 ≠ v2 →
      ∃ h, mergeVertices gSquare v1 v2 = some h ∧ Wf h ∧
        h.V = gSquare.V.erase v2 ∧
        h.E = (gSquare.E.filter (fun e =>
            (if e.1 = v1 ∨ e.1 = v2 then v1 else e.1)
              ≠ (if e.2 = v1 ∨ e.2 = v2 then v1 else e.2))).image
          (fun e => canon (if e.1 = v1 ∨ e.1 = v2 then v1 else e.1)
            (if e.2 = v1 ∨ e.2 = v2 then v1 else e.2)))) :=
  ⟨by decide, by decide,
    transforms_fresh_and_pure gSquare gTri (by decide) (by decide)⟩

/-! ## Matrix cells (infrastructure for C7) -/

theorem rect_matSet {M : List (List Nat)} {n m : Nat} (h : Rect M n m)
    (i j x : Nat) : Rect (matSet M i j x) n m := by
  by_cases hi : i < M.length
  · refine ⟨by rw [matSet, List.length_set]; exact h.1, ?_⟩
    intro r hr
    rcases List.mem_or_eq_of_mem_set hr with hr | rfl
    · exact h.2 r hr
    · rw [List.length_set, List.getD_eq_getElem _ _ hi]
      exact h.2 _ (List.getElem_mem hi)
  · rw [matSet, List.set_eq_of_length_le (by omega)]
    exact h

theorem matGet_matSet_self {M : List (List Nat)} {n m : Nat} (h : Rect M n m)
    {i j : Nat} (hi : i < n) (hj : j < m) (x : Nat) :
    matGet (matSet M i j x) i j = x := by
  have hiM : i < M.length := by rw [h.1]; exact hi
  have hrow : (M.getD i []).length = m := by
    rw [List.getD_eq_getElem _ _ hiM]
    exact h.2 _ (List.getElem_mem hiM)
  have h1 : (M.set i ((M.getD i []).set j x)).getD i [] = (M.getD i []).set j x := by
    rw [List.getD_eq_getElem?_getD, List.getElem?_set_self hiM, Option.getD_some]
  rw [matGet, matSet, h1, List.getD_eq_getElem?_getD,
    List.getElem?_set_self (by omega), Option.getD_some]

theorem matGet_matSet_ne {M : List (List Nat)} {i j i' j' : Nat}
    (h : ¬ (i = i' ∧ j = j')) (x : Nat) :
    matGet (matSet M i j x) i' j' = matGet M i' j' := by
  by_cases hii : i = i'
  · subst hii
    have hj : j ≠ j' := fun hc => h ⟨rfl, hc⟩
    by_cases hi : i < M.length
    · have h1 : (M.set i ((M.getD i []).set j x)).getD i []
          = (M.getD i []).set j x := by
        rw [List.getD_eq_getElem?_getD, List.getElem?_set_self hi,
          Option.getD_some]
      rw [matGet, matGet, matSet, h1, List.getD_eq_getElem?_getD,
        List.getElem?_set_ne hj, ← List.getD_eq_getElem?_getD]
    · rw [matGet, matGet, matSet, List.set_eq_of_length_le (by omega)]
  · have h1 : (M.set i ((M.getD i []).set j x)).getD i' [] = M.getD i' [] := by
      rw [List.getD_eq_getElem?_getD, List.getElem?_set_ne hii,
        ← List.getD_eq_getElem?_getD]
    rw [matGet, matGet, matSet, h1]

theorem matGet_replicate (n i j : Nat) :
    matGet (List.replicate n (List.replicate n 0)) i j = 0 := by
  by_cases hi : i < n
  · have h1 : (List.replicate n (List.replicate n (0 : Nat))).getD i []
        = List.replicate n 0 := by
      rw [List.getD_eq_getElem _ _ (by simpa using hi)]
      exact List.getElem_replicate _ _
    rw [matGet, h1, List.getD_eq_getElem?_getD]
    rcases lt_or_ge j n with hj | hj
    · rw [List.getElem?_eq_getElem (by simpa using hj)]
      simp
    · rw [List.getElem?_eq_none (by simpa using hj)]
      rfl
  · have h1 : (List.replicate n (List.replicate n (0 : Nat))).getD i [] = [] := by
      rw [List.getD_eq_getElem?_getD, List.getElem?_eq_none (by simpa using hi)]
      rfl
    rw [matGet, h1]
    rfl

theorem rect_replicate (n : Nat) :
    Rect (List.replicate n (List.replicate n 0)) n n := by
  refine ⟨List.length_replicate n _, ?_⟩
  intro r hr
  rw [List.eq_of_mem_replicate hr]
  exact List.length_replicate n _

/-- Characterization of the `adjacency_matrix` fill loop: a cell holds 1
exactly when some processed edge touches it (in either orientation);
otherwise it keeps its initial value. -/
theorem fillAdj_char (f : Nat → Nat) (n : Nat) (es : List (Nat × Nat)) :
    ∀ (M : List (List Nat)), Rect M n n →
      (∀ e ∈ es, f e.1 < n ∧ f e.2 < n) →
      Rect (es.foldl (fun N e =>
        matSet (matSet N (f e.1) (f e.2) 1) (f e.2) (f e.1) 1) M) n n ∧
      ∀ i j, matGet (es.foldl (fun N e =>
          matSet (matSet N (f e.1) (f e.2) 1) (f e.2) (f e.1) 1) M) i j
        = if ∃ e ∈ es, (f e.1 = i ∧ f e.2 = j) ∨ (f e.2 = i ∧ f e.1 = j)
          then 1 else matGet M i j := by
  induction es with
  | nil =>
      intro M hR _
      exact ⟨hR, by simp⟩
  | cons e es ih =>
      intro M hR hran
      have he := hran e (List.mem_cons_self _ _)
      have hR1 : Rect (matSet M (f e.1) (f e.2) 1) n n := rect_matSet hR _ _ _
      have hR2 : Rect (matSet (matSet M (f e.1) (f e.2) 1) (f e.2) (f e.1) 1) n n :=
        rect_matSet hR1 _ _ _
      obtain ⟨hRf, hchar⟩ := ih _ hR2 (fun e' h => hran e' (List.mem_cons_of_mem _ h))
      refine ⟨hRf, ?_⟩
      intro i j
      show matGet (es.foldl _ _) i j = _
      rw [hchar i j]
      by_cases hes : ∃ e' ∈ es, (f e'.1 = i ∧ f e'.2 = j) ∨ (f e'.2 = i ∧ f e'.1 = j)
      · rw [if_pos hes, if_pos ?_]
        obtain ⟨e', he', hd⟩ := hes
        exact ⟨e', List.mem_cons_of_mem _ he', hd⟩
      · rw [if_neg hes]
        by_cases hcur : (f e.1 = i ∧ f e.2 = j) ∨ (f e.2 = i ∧ f e.1 = j)
        · rw [if_pos ?_]
          swap
          · exact ⟨e, List.mem_cons_self _ _, hcur⟩
          rcases hcur with ⟨h1, h2⟩ | ⟨h1, h2⟩
          · by_cases houter : f e.2 = i ∧ f e.1 = j
            · rw [← houter.1, ← houter.2]
              exact matGet_matSet_self hR1 he.2 he.1 1
            · rw [matGet_matSet_ne houter, ← h1, ← h2]
              exact matGet_matSet_self hR he.1 he.2 1
          · rw [← h1, ← h2]
            exact matGet_matSet_self hR1 he.2 he.1 1
        · push_neg at hcur
          rw [if_neg ?_]
          swap
          · rintro ⟨e', he', hd⟩
            rcases List.mem_cons.mp he' with rfl | hmem
            · rcases hd with hd | hd
              · exact (hcur.1 hd.1) hd.2
              · exact (hcur.2 hd.1) hd.2
            · exact hes ⟨e', hmem, hd⟩
          rw [matGet_matSet_ne (fun hc => (hcur.2 hc.1) hc.2),
            matGet_matSet_ne (fun hc => (hcur.1 hc.1) hc.2)]

theorem sortedV_sorted_lt (g : Graph) : List.Sorted (· < ·) (sortedV g) :=
  (finSort_sorted g.V).lt_of_le (finSort_nodup g.V)

theorem sorted_indexOf_lt {l : List Nat} (hs : List.Sorted (· < ·) l)
    {x y : Nat} (hx : x ∈ l) (hy : y ∈ l) (hxy : x < y) :
    l.indexOf x < l.indexOf y := by
  have hxl := List.indexOf_lt_length.mpr hx
  have hyl := List.indexOf_lt_length.mpr hy
  by_contra hcon
  push_neg at hcon
  rcases Nat.lt_or_ge (l.indexOf y) (l.indexOf x) with hlt | hge
  · have hrel := hs.rel_get_of_lt
      (a := ⟨l.indexOf y, hyl⟩) (b := ⟨l.indexOf x, hxl⟩) hlt
    rw [List.get_eq_getElem, List.get_eq_getElem, List.getElem_indexOf hyl,
      List.getElem_indexOf hxl] at hrel
    omega
  · have heq : l.indexOf x = l.indexOf y := by omega
    have hxy2 : x = y := (List.indexOf_inj hx hy).mp heq
    omega


/-- Characterization of `adjacency_matrix()`: the matrix is `n x n` over the
sorted vertex list, and a cell is 1 exactly when some edge touches its index
pair in either orientation, else 0. -/
theorem adjacencyMatrix_char {g : Graph} (hW : Wf g) :
    Rect (adjacencyMatrix g) (sortedV g).length (sortedV g).length ∧
    ∀ i j, matGet (adjacencyMatrix g) i j
      = if ∃ e ∈ sortE g.E,
            ((sortedV g).indexOf e.1 = i ∧ (sortedV g).indexOf e.2 = j)
          ∨ ((sortedV g).indexOf e.2 = i ∧ (sortedV g).indexOf e.1 = j)
        then 1 else 0 := by
  have hran : ∀ e ∈ sortE g.E,
      (fun x => (sortedV g).indexOf x) e.1 < (sortedV g).length ∧
      (fun x => (sortedV g).indexOf x) e.2 < (sortedV g).length := by
    intro e he
    have hmem := hW.edgeMemV e (mem_sortE.mp he)
    exact ⟨List.indexOf_lt_length.mpr (mem_sortedV.mpr hmem.1),
      List.indexOf_lt_length.mpr (mem_sortedV.mpr hmem.2)⟩
  obtain ⟨hR, hchar⟩ := fillAdj_char (fun x => (sortedV g).indexOf x)
    (sortedV g).length (sortE g.E) _
    (rect_replicate (sortedV g).length) hran
  refine ⟨hR, ?_⟩
  intro i j
  have h := hchar i j
  rw [matGet_replicate] at h
  exact h

/-- Both endpoint reads of a generated pair are in range, hence the pair is
strictly increasing. -/
theorem sortedV_getD_lt {g : Graph} {i j : Nat}
    (hi : i < (sortedV g).length) (hj : j < (sortedV g).length)
    (hij : i < j) : (sortedV g).getD i 0 < (sortedV g).getD j 0 := by
  have h := (sortedV_sorted_lt g).rel_get_of_lt
    (a := ⟨i, hi⟩) (b := ⟨j, hj⟩) hij
  rw [List.get_eq_getElem, List.get_eq_getElem] at h
  rw [List.getD_eq_getElem _ _ hi, List.getD_eq_getElem _ _ hj]
  exact h

/-- `from_adjacency_matrix(adjacency_matrix(), sorted(V))` rebuilds exactly
the edge set of the original graph. -/
theorem adjacencyMatrix_roundtrip {g : Graph} (hW : Wf g) :
    (fromAdjacencyMatrix (adjacencyMatrix g) (sortedV g)).map Graph.E
      = some g.E := by
  obtain ⟨hR, hchar⟩ := adjacencyMatrix_char hW
  have hn : (adjacencyMatrix g).length = (sortedV g).length := hR.1
  rw [fromAdjacencyMatrix, if_neg (by simp [hn])]
  have hmemL : ∀ p : Nat × Nat,
      p ∈ (List.range (adjacencyMatrix g).length).flatMap (fun i =>
        (((List.range (adjacencyMatrix g).length).filter
            (fun j => i < j ∧ matGet (adjacencyMatrix g) i j ≠ 0)).map
          (fun j => ((sortedV g).getD i 0, (sortedV g).getD j 0))))
      ↔ ∃ i j, i < (sortedV g).length ∧ j < (sortedV g).length ∧ i < j ∧
          matGet (adjacencyMatrix g) i j ≠ 0 ∧
          p = ((sortedV g).getD i 0, (sortedV g).getD j 0) := by
    intro p
    simp only [List.mem_flatMap, List.mem_map, List.mem_filter, List.mem_range,
      decide_eq_true_eq, hn]
    constructor
    · rintro ⟨i, hi, j, ⟨hj, hij, hne⟩, rfl⟩
      exact ⟨i, j, hi, hj, hij, hne, rfl⟩
    · rintro ⟨i, j, hi, hj, hij, hne, rfl⟩
      exact ⟨i, hi, j, ⟨hj, hij, hne⟩, rfl⟩
  have hes : ∀ p ∈ (List.range (adjacencyMatrix g).length).flatMap (fun i =>
        (((List.range (adjacencyMatrix g).length).filter
            (fun j => i < j ∧ matGet (adjacencyMatrix g) i j ≠ 0)).map
          (fun j => ((sortedV g).getD i 0, (sortedV g).getD j 0)))),
      p.1 ≠ p.2 := by
    intro p hp
    obtain ⟨i, j, hi, hj, hij, -, rfl⟩ := (hmemL p).mp hp
    exact Nat.ne_of_lt (sortedV_getD_lt hi hj hij)
  obtain ⟨g', hg', -, -, hE'⟩ := addEdges_spec emptyG_wf hes
  rw [hg', Option.map_some']
  refine congrArg some ?_
  rw [hE', show emptyG.E = ∅ from rfl, Finset.empty_union]
  ext e
  rw [List.mem_toFinset, List.mem_map]
  constructor
  · rintro ⟨p, hp, rfl⟩
    obtain ⟨i, j, hi, hj, hij, hne, rfl⟩ := (hmemL p).mp hp
    have h := hchar i j
    by_cases hc : ∃ e' ∈ sortE g.E,
        ((sortedV g).indexOf e'.1 = i ∧ (sortedV g).indexOf e'.2 = j)
      ∨ ((sortedV g).indexOf e'.2 = i ∧ (sortedV g).indexOf e'.1 = j)
    · obtain ⟨e', he', hd⟩ := hc
      have heE : e' ∈ g.E := mem_sortE.mp he'
      have hcanon := hW.edgeCanon e' heE
      rcases hd with ⟨h1, h2⟩ | ⟨h1, h2⟩
      · have hg1 : (sortedV g).getD i 0 = e'.1 := by
          rw [← h1, List.getD_eq_getElem _ _ (by rw [h1]; exact hi)]
          exact List.getElem_indexOf _
        have hg2 : (sortedV g).getD j 0 = e'.2 := by
          rw [← h2, List.getD_eq_getElem _ _ (by rw [h2]; exact hj)]
          exact List.getElem_indexOf _
        rw [hg1, hg2, canon_of_canonical hcanon]
        exact heE
      · have hg1 : (sortedV g).getD i 0 = e'.2 := by
          rw [← h1, List.getD_eq_getElem _ _ (by rw [h1]; exact hi)]
          exact List.getElem_indexOf _
        have hg2 : (sortedV g).getD j 0 = e'.1 := by
          rw [← h2, List.getD_eq_getElem _ _ (by rw [h2]; exact hj)]
          exact List.getElem_indexOf _
        rw [hg1, hg2, canon_comm, canon_of_canonical hcanon]
        exact heE
    · rw [if_neg hc] at h
      exact absurd h hne
  · intro he
    have hmem := hW.edgeMemV e he
    have hm1 : e.1 ∈ sortedV g := mem_sortedV.mpr hmem.1
    have hm2 : e.2 ∈ sortedV g := mem_sortedV.mpr hmem.2
    have hi : (sortedV g).indexOf e.1 < (sortedV g).length :=
      List.indexOf_lt_length.mpr hm1
    have hj : (sortedV g).indexOf e.2 < (sortedV g).length :=
      List.indexOf_lt_length.mpr hm2
    have hcanon := hW.edgeCanon e he
    have hij : (sortedV g).indexOf e.1 < (sortedV g).indexOf e.2 :=
      sorted_indexOf_lt (sortedV_sorted_lt g) hm1 hm2 hcanon
    have hg1 : (sortedV g).getD ((sortedV g).indexOf e.1) 0 = e.1 := by
      rw [List.getD_eq_getElem _ _ hi]
      exact List.getElem_indexOf _
    have hg2 : (sortedV g).getD ((sortedV g).indexOf e.2) 0 = e.2 := by
      rw [List.getD_eq_getElem _ _ hj]
      exact List.getElem_indexOf _
    have hne : matGet (adjacencyMatrix g)
        ((sortedV g).indexOf e.1) ((sortedV g).indexOf e.2) ≠ 0 := by
      rw [hchar, if_pos ⟨e, mem_sortE.mpr he, Or.inl ⟨rfl, rfl⟩⟩]
      exact one_ne_zero
    refine ⟨((sortedV g).getD ((sortedV g).indexOf e.1) 0,
      (sortedV g).getD ((sortedV g).indexOf e.2) 0), ?_, ?_⟩
    · exact (hmemL _).mpr ⟨_, _, hi, hj, hij, hne, rfl⟩
    · rw [hg1, hg2, canon_of_canonical hcanon]


theorem matGet_replicate2 (n m i j : Nat) :
    matGet (List.replicate n (List.replicate m 0)) i j = 0 := by
  by_cases hi : i < n
  · have h1 : (List.replicate n (List.replicate m (0 : Nat))).getD i []
        = List.replicate m 0 := by
      rw [List.getD_eq_getElem _ _ (by simpa using hi)]
      exact List.getElem_replicate _ _
    rw [matGet, h1, List.getD_eq_getElem?_getD]
    rcases lt_or_ge j m with hj | hj
    · rw [List.getElem?_eq_getElem (by simpa using hj)]
      simp
    · rw [List.getElem?_eq_none (by simpa using hj)]
      rfl
  · have h1 : (List.replicate n (List.replicate m (0 : Nat))).getD i [] = [] := by
      rw [List.getD_eq_getElem?_getD, List.getElem?_eq_none (by simpa using hi)]
      rfl
    rw [matGet, h1]
    rfl

theorem rect_replicate2 (n m : Nat) :
    Rect (List.replicate n (List.replicate m 0)) n m := by
  refine ⟨List.length_replicate n _, ?_⟩
  intro r hr
  rw [List.eq_of_mem_replicate hr]
  exact List.length_replicate m _

/-- Characterization of the `incidence_matrix()` fill loop over enumerated
edges: a cell holds 1 exactly when its column is a processed edge's index
and its row is one of that edge's endpoint rows; otherwise the initial
value. -/
theorem fillInc_char (f : Nat → Nat) (n m : Nat) (ps : List (Nat × Nat × Nat)) :
    ∀ (M : List (List Nat)), Rect M n m →
      (∀ p ∈ ps, f p.2.1 < n ∧ f p.2.2 < n ∧ p.1 < m) →
      Rect (ps.foldl (fun N p =>
        matSet (matSet N (f p.2.1) p.1 1) (f p.2.2) p.1 1) M) n m ∧
      ∀ v k, matGet (ps.foldl (fun N p =>
          matSet (matSet N (f p.2.1) p.1 1) (f p.2.2) p.1 1) M) v k
        = if ∃ p ∈ ps, p.1 = k ∧ (f p.2.1 = v ∨ f p.2.2 = v)
          then 1 else matGet M v k := by
  induction ps with
  | nil =>
      intro M hR _
      exact ⟨hR, by simp⟩
  | cons p ps ih =>
      intro M hR hran
      have hp := hran p (List.mem_cons_self _ _)
      have hR1 : Rect (matSet M (f p.2.1) p.1 1) n m := rect_matSet hR _ _ _
      have hR2 : Rect (matSet (matSet M (f p.2.1) p.1 1) (f p.2.2) p.1 1) n m :=
        rect_matSet hR1 _ _ _
      obtain ⟨hRf, hchar⟩ := ih _ hR2 (fun q hq => hran q (List.mem_cons_of_mem _ hq))
      refine ⟨hRf, ?_⟩
      intro v k
      show matGet (ps.foldl _ _) v k = _
      rw [hchar v k]
      by_cases hps : ∃ q ∈ ps, q.1 = k ∧ (f q.2.1 = v ∨ f q.2.2 = v)
      · rw [if_pos hps, if_pos ?_]
        obtain ⟨q, hq, hd⟩ := hps
        exact ⟨q, List.mem_cons_of_mem _ hq, hd⟩
      · rw [if_neg hps]
        by_cases hcur : p.1 = k ∧ (f p.2.1 = v ∨ f p.2.2 = v)
        · rw [if_pos ?_]
          swap
          · exact ⟨p, List.mem_cons_self _ _, hcur⟩
          by_cases h2 : f p.2.2 = v
          · rw [← h2, ← hcur.1]
            exact matGet_matSet_self hR1 hp.2.1 hp.2.2 1
          · have h1 : f p.2.1 = v := by
              rcases hcur.2 with h | h
              · exact h
              · exact absurd h h2
            rw [matGet_matSet_ne (fun hc => h2 hc.1), ← h1, ← hcur.1]
            exact matGet_matSet_self hR hp.1 hp.2.2 1
        · rw [if_neg ?_]
          swap
          · rintro ⟨q, hq, hd⟩
            rcases List.mem_cons.mp hq with rfl | hmem
            · exact hcur hd
            · exact hps ⟨q, hmem, hd⟩
          rw [matGet_matSet_ne (fun hc => hcur ⟨hc.2, Or.inr hc.1⟩),
            matGet_matSet_ne (fun hc => hcur ⟨hc.2, Or.inl hc.1⟩)]


theorem range_filter_single {q : Nat → Bool} {a : Nat} :
    ∀ {n : Nat}, a < n → (∀ v, v < n → (q v = true ↔ v = a)) →
      (List.range n).filter q = [a] := by
  intro n
  induction n with
  | zero => omega
  | succ n ih =>
      intro han hq
      rw [List.range_succ, List.filter_append]
      by_cases ha : a = n
      · subst ha
        have h1 : (List.range a).filter q = [] := by
          rw [List.filter_eq_nil_iff]
          intro v hv
          have hvn := List.mem_range.mp hv
          rw [hq v (by omega)]
          omega
        rw [h1, List.nil_append, List.filter_cons_of_pos
          ((hq a (by omega)).mpr rfl), List.filter_nil]
      · have h2 : List.filter q [n] = [] := by
          rw [List.filter_cons_of_neg, List.filter_nil]
          rw [hq n (by omega)]
          exact fun hh => ha hh.symm
        rw [h2, List.append_nil]
        exact ih (by omega) (fun v hv => hq v (by omega))

theorem range_filter_pair {q : Nat → Bool} {a b : Nat} :
    ∀ {n : Nat}, a < b → b < n →
      (∀ v, v < n → (q v = true ↔ (v = a ∨ v = b))) →
      (List.range n).filter q = [a, b] := by
  intro n
  induction n with
  | zero => omega
  | succ n ih =>
      intro hab hbn hq
      rw [List.range_succ, List.filter_append]
      by_cases hb : b = n
      · subst hb
        have h1 : (List.range b).filter q = [a] := by
          refine range_filter_single hab (fun v hv => ?_)
          rw [hq v (by omega)]
          omega
        rw [h1, List.filter_cons_of_pos
          ((hq b (by omega)).mpr (Or.inr rfl)), List.filter_nil]
        rfl
      · have h2 : List.filter q [n] = [] := by
          rw [List.filter_cons_of_neg, List.filter_nil]
          rw [hq n (by omega)]
          omega
        rw [h2, List.append_nil]
        exact ih hab (by omega) (fun v hv => hq v (by omega))

theorem map_getD_range {α : Type} (l : List α) (d : α) :
    (List.range l.length).map (fun k => l.getD k d) = l := by
  refine List.ext_getElem (by simp) ?_
  intro i h1 h2
  rw [List.getElem_map, List.getElem_range, List.getD_eq_getElem _ _ h2]

theorem addEdges_append (l1 : List (Nat × Nat)) :
    ∀ (l2 : List (Nat × Nat)) (g : Graph),
      addEdges g (l1 ++ l2) = (addEdges g l1).bind (fun g2 => addEdges g2 l2) := by
  induction l1 with
  | nil => intro l2 g; rfl
  | cons e l1 ih =>
      intro l2 g
      show (match g.addEdge e.1 e.2 with
        | none => none
        | some g1 => addEdges g1 (l1 ++ l2))
        = (match g.addEdge e.1 e.2 with
          | none => none
          | some g1 => addEdges g1 l1).bind (fun g2 => addEdges g2 l2)
      cases g.addEdge e.1 e.2 with
      | none => rfl
      | some g1 => exact ih l2 g1

/-- A `foldlM` whose step is (pointwise on the traversed list) an
`add_edge` call is the `addEdges` of the generated pair list. -/
theorem foldlM_addEdge_eq_addEdges (F : Graph → Nat → Option Graph)
    (ef : Nat → Nat × Nat) :
    ∀ (l : List Nat),
      (∀ gr k, k ∈ l → F gr k = gr.addEdge (ef k).1 (ef k).2) →
      ∀ g0 : Graph, l.foldlM F g0 = addEdges g0 (l.map ef) := by
  intro l
  induction l with
  | nil => intro _ g0; rfl
  | cons k l ih =>
      intro h g0
      rw [List.foldlM_cons, h g0 k (List.mem_cons_self _ _), List.map_cons]
      have hP : addEdges g0 (ef k :: l.map ef)
          = match g0.addEdge (ef k).1 (ef k).2 with
            | none => none
            | some g1 => addEdges g1 (l.map ef) := rfl
      rw [hP]
      cases hek : g0.addEdge (ef k).1 (ef k).2 with
      | none => rfl
      | some g1 => exact ih (fun gr k2 hk2 => h gr k2 (List.mem_cons_of_mem _ hk2)) g1

/-- Characterization of `incidence_matrix()`: rows over sorted vertices,
one column per sorted edge, a cell holding 1 exactly when its row is an
endpoint row of the edge indexed by its column. -/
theorem incidenceMatrix_char {g : Graph} (hW : Wf g) :
    Rect (incidenceMatrix g) (sortedV g).length (sortE g.E).length ∧
    ∀ v k, matGet (incidenceMatrix g) v k
      = if ∃ p ∈ (sortE g.E).enum, p.1 = k ∧
            ((sortedV g).indexOf p.2.1 = v ∨ (sortedV g).indexOf p.2.2 = v)
        then 1 else 0 := by
  have hran : ∀ p ∈ (sortE g.E).enum,
      (fun x => (sortedV g).indexOf x) p.2.1 < (sortedV g).length ∧
      (fun x => (sortedV g).indexOf x) p.2.2 < (sortedV g).length ∧
      p.1 < (sortE g.E).length := by
    intro p hp
    obtain ⟨hk, hx⟩ := List.mem_enum hp
    have hpe : p.2 ∈ g.E := by
      rw [hx]
      exact mem_sortE.mp (List.getElem_mem hk)
    have hmem := hW.edgeMemV p.2 hpe
    exact ⟨List.indexOf_lt_length.mpr (mem_sortedV.mpr hmem.1),
      List.indexOf_lt_length.mpr (mem_sortedV.mpr hmem.2), hk⟩
  obtain ⟨hR, hchar⟩ := fillInc_char (fun x => (sortedV g).indexOf x)
    (sortedV g).length (sortE g.E).length (sortE g.E).enum _
    (rect_replicate2 (sortedV g).length (sortE g.E).length) hran
  refine ⟨hR, ?_⟩
  intro v k
  have h := hchar v k
  rw [matGet_replicate2] at h
  exact h

/-- `from_incidence_matrix(incidence_matrix(), sorted(V))` rebuilds exactly
the edge set of the original graph. -/
theorem incidenceMatrix_roundtrip {g : Graph} (hW : Wf g) :
    (fromIncidenceMatrix (incidenceMatrix g) (sortedV g)).map Graph.E
      = some g.E := by
  obtain ⟨hR, hchar⟩ := incidenceMatrix_char hW
  by_cases hV : g.V = ∅
  · have hE : g.E = ∅ := by
      rw [Finset.eq_empty_iff_forall_not_mem]
      intro e he
      have h1 := (hW.edgeMemV e he).1
      rw [hV] at h1
      exact absurd h1 (Finset.not_mem_empty _)
    have h1 : sortE g.E = [] := by rw [hE]; rfl
    have h2 : sortedV g = [] := by
      rw [sortedV, finSort, hV]
      rfl
    have h3 : incidenceMatrix g = [] := by
      rw [incidenceMatrix, h1, h2]
      rfl
    rw [h3, hE]
    rfl
  · have hne : (sortedV g).length ≠ 0 := by
      intro h0
      apply hV
      rw [Finset.eq_empty_iff_forall_not_mem]
      intro v hv
      have hv2 := mem_sortedV.mpr hv
      rw [List.length_eq_zero] at h0
      rw [h0] at hv2
      exact absurd hv2 (List.not_mem_nil v)
    have hn : (incidenceMatrix g).length = (sortedV g).length := hR.1
    have hlen0 : 0 < (incidenceMatrix g).length := by omega
    have hm : ((incidenceMatrix g).headD []).length = (sortE g.E).length := by
      rw [List.headD_eq_head?, List.head?_eq_getElem?,
        List.getElem?_eq_getElem hlen0, Option.getD_some]
      exact hR.2 _ (List.getElem_mem hlen0)
    have hunfold : fromIncidenceMatrix (incidenceMatrix g) (sortedV g)
        = (List.range (if (incidenceMatrix g).length = 0 then 0
            else ((incidenceMatrix g).headD []).length)).foldlM
          (fun (gr : Graph) e =>
            match ((List.range (incidenceMatrix g).length).filter
                (fun v => matGet (incidenceMatrix g) v e = 1)).mapM
                (fun v => (sortedV g).get? v) with
            | none => none
            | some [a, b] => gr.addEdge a b
            | some _ => none) emptyG := rfl
    have hmval : (if (incidenceMatrix g).length = 0 then 0
        else ((incidenceMatrix g).headD []).length) = (sortE g.E).length := by
      rw [if_neg (by omega), hm]
    rw [hunfold, hmval]
    have hstep : ∀ (gr : Graph) k, k ∈ List.range (sortE g.E).length →
        (match ((List.range (incidenceMatrix g).length).filter
            (fun v => matGet (incidenceMatrix g) v k = 1)).mapM
            (fun v => (sortedV g).get? v) with
          | none => none
          | some [a, b] => gr.addEdge a b
          | some _ => none)
        = gr.addEdge ((sortE g.E).getD k (0, 0)).1
            ((sortE g.E).getD k (0, 0)).2 := by
      intro gr k hk
      have hkl : k < (sortE g.E).length := List.mem_range.mp hk
      generalize he : (sortE g.E).getD k (0, 0) = e
      have hkeq : e = (sortE g.E)[k] := by
        rw [← he]
        exact List.getD_eq_getElem _ _ hkl
      have heE : e ∈ g.E := by
        rw [hkeq]
        exact mem_sortE.mp (List.getElem_mem hkl)
      have hcanon := hW.edgeCanon e heE
      have hmem := hW.edgeMemV e heE
      have hm1 : e.1 ∈ sortedV g := mem_sortedV.mpr hmem.1
      have hm2 : e.2 ∈ sortedV g := mem_sortedV.mpr hmem.2
      have hi1 : (sortedV g).indexOf e.1 < (sortedV g).length :=
        List.indexOf_lt_length.mpr hm1
      have hi2 : (sortedV g).indexOf e.2 < (sortedV g).length :=
        List.indexOf_lt_length.mpr hm2
      have hii : (sortedV g).indexOf e.1 < (sortedV g).indexOf e.2 :=
        sorted_indexOf_lt (sortedV_sorted_lt g) hm1 hm2 hcanon
      have henum_len : k < (sortE g.E).enum.length := by
        rw [List.enum_length]
        exact hkl
      have hmem_ke : (k, e) ∈ (sortE g.E).enum := by
        have h4 := List.getElem_enum (sortE g.E) k henum_len
        rw [hkeq, ← h4]
        exact List.getElem_mem henum_len
      have hfilter : (List.range (incidenceMatrix g).length).filter
          (fun v => matGet (incidenceMatrix g) v k = 1)
          = [(sortedV g).indexOf e.1, (sortedV g).indexOf e.2] := by
        rw [hn]
        refine range_filter_pair hii hi2 ?_
        intro v hv
        simp only [decide_eq_true_eq]
        rw [hchar v k]
        constructor
        · intro h1
          by_cases hc : ∃ p ∈ (sortE g.E).enum, p.1 = k ∧
              ((sortedV g).indexOf p.2.1 = v ∨ (sortedV g).indexOf p.2.2 = v)
          · obtain ⟨p, hp, hpk, hd⟩ := hc
            obtain ⟨hplt, hpx⟩ := List.mem_enum hp
            have hpe : p.2 = e := by
              have h7 : (sortE g.E)[p.1]? = (sortE g.E)[k]? := by rw [hpk]
              rw [List.getElem?_eq_getElem hplt,
                List.getElem?_eq_getElem hkl] at h7
              rw [hpx, hkeq]
              exact Option.some_injective _ h7
            rw [hpe] at hd
            rcases hd with hd | hd
            · exact Or.inl hd.symm
            · exact Or.inr hd.symm
          · rw [if_neg hc] at h1
            exact absurd h1 (by omega)
        · intro h2
          rw [if_pos ?_]
          refine ⟨(k, e), hmem_ke, rfl, ?_⟩
          rcases h2 with h2 | h2
          · exact Or.inl h2.symm
          · exact Or.inr h2.symm
      rw [hfilter]
      have hg1 : (sortedV g).get? ((sortedV g).indexOf e.1) = some e.1 := by
        rw [List.get?_eq_getElem?, List.getElem?_eq_getElem hi1]
        exact congrArg some (List.getElem_indexOf _)
      have hg2 : (sortedV g).get? ((sortedV g).indexOf e.2) = some e.2 := by
        rw [List.get?_eq_getElem?, List.getElem?_eq_getElem hi2]
        exact congrArg some (List.getElem_indexOf _)
      rw [List.mapM_cons, List.mapM_cons, List.mapM_nil, hg1, hg2]
      rfl
    rw [foldlM_addEdge_eq_addEdges _ (fun k => (sortE g.E).getD k (0, 0))
      (List.range (sortE g.E).length) hstep emptyG,
      show (List.range (sortE g.E).length).map
          (fun k => (sortE g.E).getD k (0, 0)) = sortE g.E
        from map_getD_range _ _]
    have hes : ∀ p ∈ sortE g.E, p.1 ≠ p.2 := by
      intro p hp
      have h6 := hW.edgeCanon p (mem_sortE.mp hp)
      omega
    obtain ⟨g2, hg2, -, -, hE2⟩ := addEdges_spec emptyG_wf hes
    rw [hg2, Option.map_some']
    refine congrArg some ?_
    rw [hE2, show emptyG.E = ∅ from rfl, Finset.empty_union]
    have h5 : ∀ e2 ∈ sortE g.E, canon e2.1 e2.2 = (fun x => x) e2 := by
      intro e2 he2
      exact canon_of_canonical (hW.edgeCanon e2 (mem_sortE.mp he2))
    rw [List.map_congr_left h5, List.map_id'' (fun _ => rfl) _]
    ext e2
    rw [List.mem_toFinset, mem_sortE]


/-- `from_adjacency_list` is `add_edge` folded over the flattened pair
list of the dict. -/
theorem fromAdjacencyList_eq (L : List (Nat × List Nat)) :
    fromAdjacencyList L
      = addEdges emptyG (L.flatMap (fun p => p.2.map (fun w => (p.1, w)))) := by
  rw [fromAdjacencyList]
  suffices h : ∀ g0, L.foldlM
      (fun (gr : Graph) p => p.2.foldlM (fun g2 w => g2.addEdge p.1 w) gr) g0
      = addEdges g0 (L.flatMap (fun p => p.2.map (fun w => (p.1, w)))) from
    h emptyG
  induction L with
  | nil => intro g0; rfl
  | cons p L ih =>
      intro g0
      rw [List.foldlM_cons, List.flatMap_cons, addEdges_append]
      have hinner : p.2.foldlM (fun g2 w => g2.addEdge p.1 w) g0
          = addEdges g0 (p.2.map (fun w => (p.1, w))) :=
        foldlM_addEdge_eq_addEdges (fun g2 w => g2.addEdge p.1 w)
          (fun w => (p.1, w)) p.2 (fun gr k hk => rfl) g0
      rw [hinner]
      cases addEdges g0 (p.2.map (fun w => (p.1, w))) with
      | none => rfl
      | some g1 => exact ih g1

/-- `from_adjacency_list(adjacency_list())` rebuilds exactly the edge set
of the original graph. -/
theorem adjacencyList_roundtrip {g : Graph} (hW : Wf g) :
    (fromAdjacencyList (adjacencyList g)).map Graph.E = some g.E := by
  rw [fromAdjacencyList_eq]
  have hes : ∀ r ∈ (adjacencyList g).flatMap
      (fun p => p.2.map (fun w => (p.1, w))), r.1 ≠ r.2 := by
    intro r hr
    obtain ⟨p, hp, hw⟩ := List.mem_flatMap.mp hr
    obtain ⟨w, hwp, rfl⟩ := List.mem_map.mp hw
    obtain ⟨q, hq, rfl⟩ := List.mem_map.mp hp
    have hw2 : w ∈ q.2 := ((List.perm_insertionSort _ _).mem_iff).mp hwp
    have h8 := hW.edgeCanon _ (hW.adjInE q hq w hw2)
    intro hc
    have hc2 : q.1 = w := hc
    rw [hc2] at h8
    simp [canon] at h8
  obtain ⟨g2, hg2, -, -, hE2⟩ := addEdges_spec emptyG_wf hes
  rw [hg2, Option.map_some']
  refine congrArg some ?_
  rw [hE2, show emptyG.E = ∅ from rfl, Finset.empty_union]
  ext e
  rw [List.mem_toFinset, List.mem_map]
  constructor
  · rintro ⟨r, hr, rfl⟩
    obtain ⟨p, hp, hw⟩ := List.mem_flatMap.mp hr
    obtain ⟨w, hwp, rfl⟩ := List.mem_map.mp hw
    obtain ⟨q, hq, rfl⟩ := List.mem_map.mp hp
    have hw2 : w ∈ q.2 := ((List.perm_insertionSort _ _).mem_iff).mp hwp
    exact hW.adjInE q hq w hw2
  · intro he
    have h9 := (hW.eInAdj e he).1
    have hcanon := hW.edgeCanon e he
    by_cases hk : e.1 ∈ g.adj.map Prod.fst
    · refine ⟨(e.1, e.2), ?_, canon_of_canonical hcanon⟩
      rw [List.mem_flatMap]
      refine ⟨(e.1, (lk g.adj e.1).insertionSort (· ≤ ·)), ?_, ?_⟩
      · rw [adjacencyList, List.mem_map]
        exact ⟨(e.1, lk g.adj e.1), lk_mem_self hk, rfl⟩
      · rw [List.mem_map]
        refine ⟨e.2, ?_, rfl⟩
        exact ((List.perm_insertionSort _ _).mem_iff).mpr h9
    · rw [adjL, lk_not_mem hk] at h9
      exact absurd h9 (List.not_mem_nil _)

/-- C7: for every well-formed graph `G`, each of the three representation
round-trips — `from_adjacency_matrix(G.adjacency_matrix(), sorted(V))`,
`from_incidence_matrix(G.incidence_matrix(), sorted(V))` and
`from_adjacency_list(G.adjacency_list())` — succeeds and rebuilds a graph
whose edge set equals `G.E`. -/
theorem conversion_roundtrips_preserve_E (g : Graph) (hW : Wf g) :
    (fromAdjacencyMatrix (adjacencyMatrix g) (sortedV g)).map Graph.E
        = some g.E ∧
    (fromIncidenceMatrix (incidenceMatrix g) (sortedV g)).map Graph.E
        = some g.E ∧
    (fromAdjacencyList (adjacencyList g)).map Graph.E = some g.E :=
  ⟨adjacencyMatrix_roundtrip hW, incidenceMatrix_roundtrip hW,
    adjacencyList_roundtrip hW⟩

/-- Closed instance of C7 at the 4-cycle graph. -/
theorem conversion_roundtrips_preserve_E_witness :
    Wf gSquare ∧
    ((fromAdjacencyMatrix (adjacencyMatrix gSquare) (sortedV gSquare)).map
          Graph.E = some gSquare.E ∧
      (fromIncidenceMatrix (incidenceMatrix gSquare) (sortedV gSquare)).map
          Graph.E = some gSquare.E ∧
      (fromAdjacencyList (adjacencyList gSquare)).map Graph.E
          = some gSquare.E) :=
  ⟨by decide, conversion_roundtrips_preserve_E gSquare (by decide)⟩


/-! ## Connectivity: the stack traversal of `is_connected` -/

theorem nonIso_iff {g : Graph} (hW : Wf g) (v : Nat) :
    v ∈ nonIso g ↔ v ∈ g.V ∧ adjL g v ≠ [] := by
  rw [nonIso]
  simp only [List.mem_toFinset, List.mem_map]
  constructor
  · rintro ⟨p, hp, rfl⟩
    have hpf := List.mem_filter.mp hp
    have hkey : p.1 ∈ g.adj.map Prod.fst := List.mem_map.mpr ⟨p, hpf.1, rfl⟩
    have hlk : lk g.adj p.1 = p.2 := lk_mem_nodup hW.keysNodup hpf.1
    refine ⟨?_, ?_⟩
    · rw [← hW.keysMem]
      exact List.mem_toFinset.mpr hkey
    · show lk g.adj p.1 ≠ []
      rw [hlk]
      intro hnil
      rw [hnil] at hpf
      exact absurd hpf.2 (by decide)
  · rintro ⟨hv, hne⟩
    have hkey : v ∈ g.adj.map Prod.fst := by
      rw [← List.mem_toFinset, hW.keysMem]
      exact hv
    refine ⟨(v, lk g.adj v), ?_, rfl⟩
    rw [List.mem_filter]
    refine ⟨lk_mem_self hkey, ?_⟩
    show (!(lk g.adj v).isEmpty) = true
    cases hc : lk g.adj v with
    | nil => exact absurd hc hne
    | cons a l => rfl

theorem satMeasure_cons (g : Graph) (a : Nat) (st : List Nat)
    (vis : Finset Nat) :
    satMeasure g (a :: st) vis = satMeasure g st vis + 1 := by
  rw [satMeasure, satMeasure, List.length_cons]
  omega

/-- Full characterization of the `is_connected` stack traversal: with
enough fuel it terminates, growing the visited set monotonically inside
`V`, absorbing the whole stack, visiting only vertices reachable from the
stack, and reaching adjacency closure. -/
theorem saturate_spec {g : Graph} (hW : Wf g) :
    ∀ (fuel : Nat) (stack : List Nat) (vis : Finset Nat),
      (∀ x ∈ stack, x ∈ g.V) → vis ⊆ g.V →
      (∀ u ∈ vis, ∀ w ∈ adjL g u, w ∈ vis ∨ w ∈ stack) →
      satMeasure g stack vis ≤ fuel →
      ∃ vis', saturate g fuel stack vis = some vis' ∧
        vis ⊆ vis' ∧ vis' ⊆ g.V ∧ (∀ x ∈ stack, x ∈ vis') ∧
        (∀ x ∈ vis', x ∈ vis ∨ ∃ u ∈ stack, Reach g u x) ∧
        (∀ u ∈ vis', ∀ w ∈ adjL g u, w ∈ vis') := by
  intro fuel
  induction fuel with
  | zero =>
      intro stack vis hstackV hvisV hclosed hfuel
      cases stack with
      | nil =>
          refine ⟨vis, rfl, Finset.Subset.refl _, hvisV,
            fun x hx => absurd hx (List.not_mem_nil x),
            fun x hx => Or.inl hx, ?_⟩
          intro u hu w hw
          rcases hclosed u hu w hw with h | h
          · exact h
          · exact absurd h (List.not_mem_nil w)
      | cons a stack =>
          rw [satMeasure, List.length_cons] at hfuel
          omega
  | succ fuel ih =>
      intro stack vis hstackV hvisV hclosed hfuel
      cases stack with
      | nil =>
          refine ⟨vis, rfl, Finset.Subset.refl _, hvisV,
            fun x hx => absurd hx (List.not_mem_nil x),
            fun x hx => Or.inl hx, ?_⟩
          intro u hu w hw
          rcases hclosed u hu w hw with h | h
          · exact h
          · exact absurd h (List.not_mem_nil w)
      | cons u stack =>
          by_cases hu : u ∈ vis
          · rw [show saturate g (fuel + 1) (u :: stack) vis
                = saturate g fuel stack vis from by rw [saturate, if_pos hu]]
            have hclosed2 : ∀ x ∈ vis, ∀ w ∈ adjL g x, w ∈ vis ∨ w ∈ stack := by
              intro x hx w hw
              rcases hclosed x hx w hw with h | h
              · exact Or.inl h
              · rcases List.mem_cons.mp h with rfl | h
                · exact Or.inl hu
                · exact Or.inr h
            have hfuel2 : satMeasure g stack vis ≤ fuel := by
              rw [satMeasure_cons] at hfuel
              omega
            obtain ⟨vis', h1, h2, h3, h4, h5, h6⟩ :=
              ih stack vis (fun x hx => hstackV x (List.mem_cons_of_mem _ hx))
                hvisV hclosed2 hfuel2
            refine ⟨vis', h1, h2, h3, ?_, ?_, h6⟩
            · intro x hx
              rcases List.mem_cons.mp hx with rfl | hx
              · exact h2 hu
              · exact h4 x hx
            · intro x hx
              rcases h5 x hx with h | ⟨w, hw, hr⟩
              · exact Or.inl h
              · exact Or.inr ⟨w, List.mem_cons_of_mem _ hw, hr⟩
          · have huV : u ∈ g.V := hstackV u (List.mem_cons_self _ _)
            rw [show saturate g (fuel + 1) (u :: stack) vis
                = saturate g fuel
                    ((((adjL g u).filter (fun w => w ∉ vis)).reverse) ++ stack)
                    (insert u vis) from by rw [saturate, if_neg hu]]
            have hmemF : ∀ {w : Nat},
                w ∈ ((adjL g u).filter (fun w => w ∉ vis)).reverse ↔
                  w ∈ adjL g u ∧ w ∉ vis := by
              intro w
              rw [List.mem_reverse, List.mem_filter, decide_eq_true_eq]
            have hstackV2 : ∀ x ∈
                (((adjL g u).filter (fun w => w ∉ vis)).reverse) ++ stack,
                x ∈ g.V := by
              intro x hx
              rcases List.mem_append.mp hx with hx | hx
              · exact (hW.adjL_mem_V (hmemF.mp hx).1).2
              · exact hstackV x (List.mem_cons_of_mem _ hx)
            have hvisV2 : insert u vis ⊆ g.V :=
              Finset.insert_subset_iff.mpr ⟨huV, hvisV⟩
            have hclosed2 : ∀ x ∈ insert u vis, ∀ w ∈ adjL g x,
                w ∈ insert u vis ∨
                w ∈ (((adjL g u).filter (fun w => w ∉ vis)).reverse) ++ stack := by
              intro x hx w hw
              rcases Finset.mem_insert.mp hx with rfl | hx
              · by_cases hwv : w ∈ vis
                · exact Or.inl (Finset.mem_insert_of_mem hwv)
                · exact Or.inr (List.mem_append.mpr
                    (Or.inl (hmemF.mpr ⟨hw, hwv⟩)))
              · rcases hclosed x hx w hw with h | h
                · exact Or.inl (Finset.mem_insert_of_mem h)
                · rcases List.mem_cons.mp h with rfl | h
                  · exact Or.inl (Finset.mem_insert_self _ _)
                  · exact Or.inr (List.mem_append.mpr (Or.inr h))
            have hfuel2 : satMeasure g
                ((((adjL g u).filter (fun w => w ∉ vis)).reverse) ++ stack)
                (insert u vis) ≤ fuel := by
              have huSd : u ∈ g.V \ vis := Finset.mem_sdiff.mpr ⟨huV, hu⟩
              have hsplit : ∑ v ∈ (g.V \ vis).erase u, (1 + (adjL g v).length)
                  + (1 + (adjL g u).length)
                  = ∑ v ∈ g.V \ vis, (1 + (adjL g v).length) :=
                Finset.sum_erase_add _ _ huSd
              have herase : g.V \ insert u vis = (g.V \ vis).erase u := by
                ext x
                simp only [Finset.mem_sdiff, Finset.mem_erase,
                  Finset.mem_insert]
                tauto
              have hfl : (((adjL g u).filter (fun w => w ∉ vis)).reverse).length
                  ≤ (adjL g u).length := by
                rw [List.length_reverse]
                exact List.length_filter_le _ _
              have e1 : satMeasure g (u :: stack) vis
                  = (stack.length + 1)
                    + (∑ v ∈ (g.V \ vis).erase u, (1 + (adjL g v).length)
                      + (1 + (adjL g u).length)) := by
                rw [satMeasure, ← hsplit, List.length_cons]
              have e2 : satMeasure g
                  ((((adjL g u).filter (fun w => w ∉ vis)).reverse) ++ stack)
                  (insert u vis)
                  = ((((adjL g u).filter (fun w => w ∉ vis)).reverse).length
                      + stack.length)
                    + ∑ v ∈ (g.V \ vis).erase u, (1 + (adjL g v).length) := by
                rw [satMeasure, herase, List.length_append]
              omega
            obtain ⟨vis', h1, h2, h3, h4, h5, h6⟩ :=
              ih _ _ hstackV2 hvisV2 hclosed2 hfuel2
            refine ⟨vis', h1, ?_, h3, ?_, ?_, h6⟩
            · exact fun x hx => h2 (Finset.mem_insert_of_mem hx)
            · intro x hx
              rcases List.mem_cons.mp hx with rfl | hx
              · exact h2 (Finset.mem_insert_self _ _)
              · exact h4 x (List.mem_append.mpr (Or.inr hx))
            · intro x hx
              rcases h5 x hx with h | ⟨w, hw, hr⟩
              · rcases Finset.mem_insert.mp h with rfl | h
                · exact Or.inr ⟨x, List.mem_cons_self _ _,
                    Relation.ReflTransGen.refl⟩
                · exact Or.inl h
              · rcases List.mem_append.mp hw with hw | hw
                · refine Or.inr ⟨u, List.mem_cons_self _ _, ?_⟩
                  exact Relation.ReflTransGen.head
                    ((hW.adjL_iff u w).mp (hmemF.mp hw).1) hr
                · exact Or.inr ⟨w, List.mem_cons_of_mem _ hw, hr⟩


theorem sortedV_toFinset (g : Graph) : (sortedV g).toFinset = g.V := by
  ext x
  rw [List.mem_toFinset, mem_sortedV]

theorem satFuel_eq (g : Graph) :
    satFuel g = 1 + ∑ v ∈ g.V, (1 + (adjL g v).length) := by
  have hnd : (sortedV g).Nodup := finSort_nodup g.V
  rw [satFuel, ← sortedV_toFinset g, List.sum_toFinset _ hnd]

/-- A vertex reachable from a non-isolated vertex is non-isolated: it is
either the start itself or carries the last edge of the walk in its
neighbour list. -/
theorem reach_mem_nonIso {g : Graph} (hW : Wf g) {s x : Nat}
    (hs : s ∈ nonIso g) (hr : Reach g s x) : x ∈ nonIso g := by
  rcases Relation.ReflTransGen.cases_tail hr with rfl | ⟨y, -, hyx⟩
  · exact hs
  · have hxV : x ∈ g.V := (adjacent_mem_V hW hyx).2
    have hy : y ∈ adjL g x := ((hW.adjL_iff x y).mpr (by
      show canon x y ∈ g.E
      rw [canon_comm]
      exact hyx))
    exact (nonIso_iff hW x).mpr ⟨hxV, List.ne_nil_of_mem hy⟩

/-- On a (mathematically) connected graph `is_connected()` returns
`True`. -/
theorem isConnected_true_of_connected {g : Graph} (hW : Wf g)
    (hconn : ∀ u ∈ g.V, ∀ v ∈ g.V, Reach g u v) : isConnected g = true := by
  rw [isConnected]
  by_cases hV : g.V = ∅
  · rw [if_pos hV]
  · rw [if_neg hV]
    show (if nonIso g = ∅ then true
      else match saturate g (satFuel g) [(finSort (nonIso g)).headD 0] ∅ with
        | some vis => decide (vis = nonIso g)
        | none => false) = true
    by_cases hni : nonIso g = ∅
    · rw [if_pos hni]
    · rw [if_neg hni]
      have hsMem : (finSort (nonIso g)).headD 0 ∈ nonIso g := by
        obtain ⟨x, hx⟩ := Finset.nonempty_iff_ne_empty.mpr hni
        have hxl : x ∈ finSort (nonIso g) := mem_finSort.mpr hx
        rw [← mem_finSort]
        cases hc : finSort (nonIso g) with
        | nil =>
            rw [hc] at hxl
            exact absurd hxl (List.not_mem_nil x)
        | cons a l =>
            rw [List.headD_cons]
            exact List.mem_cons_self _ _
      have hsV : (finSort (nonIso g)).headD 0 ∈ g.V :=
        ((nonIso_iff hW _).mp hsMem).1
      have hfuel : satMeasure g [(finSort (nonIso g)).headD 0] ∅ ≤ satFuel g := by
        rw [satMeasure, satFuel_eq, Finset.sdiff_empty]
        simp
      obtain ⟨vis', h1, -, h3, h4, h5, h6⟩ :=
        saturate_spec hW (satFuel g) [(finSort (nonIso g)).headD 0] ∅
          (by
            intro x hx
            rcases List.mem_cons.mp hx with rfl | hx
            · exact hsV
            · exact absurd hx (List.not_mem_nil x))
          (Finset.empty_subset _)
          (by
            intro u hu
            exact absurd hu (Finset.not_mem_empty u))
          hfuel
      have hveq : vis' = nonIso g := by
        ext x
        constructor
        · intro hx
          rcases h5 x hx with h | ⟨u, hu, hr⟩
          · exact absurd h (Finset.not_mem_empty x)
          · rcases List.mem_cons.mp hu with rfl | hu
            · exact reach_mem_nonIso hW hsMem hr
            · exact absurd hu (List.not_mem_nil u)
        · intro hx
          have hreach_vis : ∀ y, Reach g ((finSort (nonIso g)).headD 0) y →
              y ∈ vis' := by
            intro y hr
            induction hr with
            | refl => exact h4 _ (List.mem_cons_self _ _)
            | tail h7 h8 ih => exact h6 _ ih _ ((hW.adjL_iff _ _).mpr h8)
          exact hreach_vis x (hconn _ hsV x ((nonIso_iff hW x).mp hx).1)
      rw [h1, hveq]
      simp


/-! ## Spanning tree: the BFS loop of `find_spanning_tree` -/

/-- Characterization of the neighbour scan of one BFS iteration: it
appends the (duplicate-free, previously unvisited) newly discovered
vertices `nw` to queue and visited set, and records one discovery edge per
new vertex. -/
theorem bfsFold_spec (u : Nat) :
    ∀ (l : List Nat) (vis : Finset Nat) (q : List Nat)
      (te : Finset (Nat × Nat)),
      ∃ nw : List Nat,
        l.foldl (fun (st : Finset Nat × List Nat × Finset (Nat × Nat)) v =>
            if v ∈ st.1 then st
            else (insert v st.1, st.2.1 ++ [v], insert (canon u v) st.2.2))
          (vis, q, te)
        = (vis ∪ nw.toFinset, q ++ nw,
            te ∪ (nw.map (fun w => canon u w)).toFinset) ∧
        nw.Nodup ∧ (∀ w ∈ nw, w ∈ l ∧ w ∉ vis) ∧
        (∀ w ∈ l, w ∈ vis ∪ nw.toFinset) := by
  intro l
  induction l with
  | nil =>
      intro vis q te
      refine ⟨[], ?_, List.nodup_nil,
        fun w hw => absurd hw (List.not_mem_nil w),
        fun w hw => absurd hw (List.not_mem_nil w)⟩
      show (vis, q, te) = _
      rw [List.toFinset_nil, Finset.union_empty, List.append_nil,
        List.map_nil, List.toFinset_nil, Finset.union_empty]
  | cons v l ih =>
      intro vis q te
      rw [List.foldl_cons]
      by_cases hv : v ∈ vis
      · rw [if_pos hv]
        obtain ⟨nw, h1, h2, h3, h4⟩ := ih vis q te
        refine ⟨nw, h1, h2,
          fun w hw => ⟨List.mem_cons_of_mem _ (h3 w hw).1, (h3 w hw).2⟩, ?_⟩
        intro w hw
        rcases List.mem_cons.mp hw with rfl | hw
        · exact Finset.mem_union_left _ hv
        · exact h4 w hw
      · rw [if_neg hv]
        obtain ⟨nw, h1, h2, h3, h4⟩ :=
          ih (insert v vis) (q ++ [v]) (insert (canon u v) te)
        refine ⟨v :: nw, ?_, ?_, ?_, ?_⟩
        · rw [h1]
          refine congrArg₂ _ ?_ (congrArg₂ _ ?_ ?_)
          · rw [List.toFinset_cons, Finset.union_insert, Finset.insert_union]
          · rw [List.append_assoc]
            rfl
          · rw [List.map_cons, List.toFinset_cons, Finset.union_insert,
              Finset.insert_union]
        · refine List.nodup_cons.mpr ⟨?_, h2⟩
          intro hvnw
          exact absurd (Finset.mem_insert_self v vis) ((h3 v hvnw).2)
        · intro w hw
          rcases List.mem_cons.mp hw with rfl | hw
          · exact ⟨List.mem_cons_self _ _, hv⟩
          · refine ⟨List.mem_cons_of_mem _ (h3 w hw).1, ?_⟩
            intro hwvis
            exact (h3 w hw).2 (Finset.mem_insert_of_mem hwvis)
        · intro w hw
          rcases List.mem_cons.mp hw with rfl | hw
          · exact Finset.mem_union_right _
              (List.mem_toFinset.mpr (List.mem_cons_self _ _))
          · rcases Finset.mem_union.mp (h4 w hw) with h | h
            · rcases Finset.mem_insert.mp h with rfl | h
              · exact Finset.mem_union_right _
                  (List.mem_toFinset.mpr (List.mem_cons_self _ _))
              · exact Finset.mem_union_left _ h
            · exact Finset.mem_union_right _ (List.mem_toFinset.mpr
                (List.mem_cons_of_mem _ (List.mem_toFinset.mp h)))


/-- Full characterization of the BFS loop of `find_spanning_tree`: with
fuel exceeding the measure it terminates; the visited set grows inside
`V`, the recorded discovery edges stay inside `E` with visited endpoints
and count exactly `|visited| - 1`, every visited vertex is connected to
`start` through the recorded edges alone, and on termination the visited
set is closed under adjacency. -/
theorem bfsLoop_spec {g : Graph} (hW : Wf g) (start : Nat) :
    ∀ (fuel : Nat) (q : List Nat) (vis : Finset Nat)
      (te : Finset (Nat × Nat)),
      (∀ x ∈ q, x ∈ vis) → vis ⊆ g.V → start ∈ vis →
      te ⊆ g.E → (∀ e ∈ te, e.1 ∈ vis ∧ e.2 ∈ vis) →
      vis.card = te.card + 1 →
      (∀ x ∈ vis, ReachE te start x) →
      (∀ x ∈ vis, x ∉ q → ∀ w ∈ adjL g x, w ∈ vis) →
      q.length + (g.V.card - vis.card) < fuel →
      ∃ vis' te', bfsLoop g fuel q vis te = some (vis', te') ∧
        vis ⊆ vis' ∧ vis' ⊆ g.V ∧ te ⊆ te' ∧ te' ⊆ g.E ∧
        vis'.card = te'.card + 1 ∧
        (∀ x ∈ vis', ReachE te' start x) ∧
        (∀ x ∈ vis', ∀ w ∈ adjL g x, w ∈ vis') := by
  intro fuel
  induction fuel with
  | zero =>
      intro q vis te _ _ _ _ _ _ _ _ hfuel
      omega
  | succ fuel ih =>
      intro q vis te hq hvisV hstart hteE hteVis hcard hreach hclosed hfuel
      cases q with
      | nil =>
          refine ⟨vis, te, rfl, Finset.Subset.refl _, hvisV,
            Finset.Subset.refl _, hteE, hcard, hreach, ?_⟩
          intro x hx w hw
          exact hclosed x hx (List.not_mem_nil x) w hw
      | cons u queue =>
          obtain ⟨nw, hfold, hnwnd, hnwprop, hcover⟩ :=
            bfsFold_spec u ((adjL g u).insertionSort (· ≤ ·)) vis queue te
          have hstep : bfsLoop g (fuel + 1) (u :: queue) vis te
              = bfsLoop g fuel (queue ++ nw) (vis ∪ nw.toFinset)
                  (te ∪ (nw.map (fun w => canon u w)).toFinset) := by
            rw [bfsLoop, hfold]
          rw [hstep]
          have hnwl : ∀ w ∈ nw, w ∈ adjL g u ∧ w ∉ vis := fun w hw =>
            ⟨(List.mem_insertionSort _ ).mp (hnwprop w hw).1, (hnwprop w hw).2⟩
          have hu_vis : u ∈ vis := hq u (List.mem_cons_self _ _)
          have hq2 : ∀ x ∈ queue ++ nw, x ∈ vis ∪ nw.toFinset := by
            intro x hx
            rcases List.mem_append.mp hx with hx | hx
            · exact Finset.mem_union_left _ (hq x (List.mem_cons_of_mem _ hx))
            · exact Finset.mem_union_right _ (List.mem_toFinset.mpr hx)
          have hvisV2 : vis ∪ nw.toFinset ⊆ g.V := by
            refine Finset.union_subset hvisV ?_
            intro w hw
            exact (hW.adjL_mem_V (hnwl w (List.mem_toFinset.mp hw)).1).2
          have hstart2 : start ∈ vis ∪ nw.toFinset :=
            Finset.mem_union_left _ hstart
          have hteE2 : te ∪ (nw.map (fun w => canon u w)).toFinset ⊆ g.E := by
            refine Finset.union_subset hteE ?_
            intro e he
            obtain ⟨w, hw, rfl⟩ := List.mem_map.mp (List.mem_toFinset.mp he)
            exact (hW.adjL_iff u w).mp (hnwl w hw).1
          have hteVis2 : ∀ e ∈ te ∪ (nw.map (fun w => canon u w)).toFinset,
              e.1 ∈ vis ∪ nw.toFinset ∧ e.2 ∈ vis ∪ nw.toFinset := by
            intro e he
            rcases Finset.mem_union.mp he with he | he
            · exact ⟨Finset.mem_union_left _ (hteVis e he).1,
                Finset.mem_union_left _ (hteVis e he).2⟩
            · obtain ⟨w, hw, rfl⟩ := List.mem_map.mp (List.mem_toFinset.mp he)
              have hwm : w ∈ vis ∪ nw.toFinset :=
                Finset.mem_union_right _ (List.mem_toFinset.mpr hw)
              have hum : u ∈ vis ∪ nw.toFinset :=
                Finset.mem_union_left _ hu_vis
              rcases canon_cases u w with hc | hc <;> rw [hc]
              · exact ⟨hum, hwm⟩
              · exact ⟨hwm, hum⟩
          have hdis1 : Disjoint vis nw.toFinset := by
            rw [Finset.disjoint_right]
            intro w hw
            exact (hnwl w (List.mem_toFinset.mp hw)).2
          have hmap_nd : (nw.map (fun w => canon u w)).Nodup :=
            hnwnd.map (fun a b h => canon_inj h)
          have hdis2 : Disjoint te (nw.map (fun w => canon u w)).toFinset := by
            rw [Finset.disjoint_right]
            intro e he hte
            obtain ⟨w, hw, rfl⟩ := List.mem_map.mp (List.mem_toFinset.mp he)
            have hvw := hteVis _ hte
            rcases canon_cases u w with hc | hc <;> rw [hc] at hvw
            · exact (hnwl w hw).2 hvw.2
            · exact (hnwl w hw).2 hvw.1
          have hclen : (vis ∪ nw.toFinset).card = vis.card + nw.length := by
            rw [Finset.card_union_of_disjoint hdis1,
              List.toFinset_card_of_nodup hnwnd]
          have htlen : (te ∪ (nw.map (fun w => canon u w)).toFinset).card
              = te.card + nw.length := by
            rw [Finset.card_union_of_disjoint hdis2,
              List.toFinset_card_of_nodup hmap_nd, List.length_map]
          have hcard2 : (vis ∪ nw.toFinset).card
              = (te ∪ (nw.map (fun w => canon u w)).toFinset).card + 1 := by
            omega
          have hreach2 : ∀ x ∈ vis ∪ nw.toFinset,
              ReachE (te ∪ (nw.map (fun w => canon u w)).toFinset) start x := by
            intro x hx
            rcases Finset.mem_union.mp hx with hx | hx
            · exact (hreach x hx).mono
                (fun a b hab => Finset.mem_union_left _ hab)
            · have hxnw := List.mem_toFinset.mp hx
              refine Relation.ReflTransGen.tail
                ((hreach u hu_vis).mono
                  (fun a b hab => Finset.mem_union_left _ hab)) ?_
              exact Finset.mem_union_right _
                (List.mem_toFinset.mpr (List.mem_map.mpr ⟨x, hxnw, rfl⟩))
          have hclosed2 : ∀ x ∈ vis ∪ nw.toFinset, x ∉ queue ++ nw →
              ∀ w ∈ adjL g x, w ∈ vis ∪ nw.toFinset := by
            intro x hx hxq w hw
            rcases Finset.mem_union.mp hx with hx | hx
            · by_cases hxu : x = u
              · subst hxu
                exact hcover w ((List.mem_insertionSort _ ).mpr hw)
              · have hxnotin : x ∉ u :: queue := by
                  intro hc
                  rcases List.mem_cons.mp hc with rfl | hc
                  · exact hxu rfl
                  · exact hxq (List.mem_append.mpr (Or.inl hc))
                exact Finset.mem_union_left _ (hclosed x hx hxnotin w hw)
            · exact absurd (List.mem_append.mpr
                (Or.inr (List.mem_toFinset.mp hx))) hxq
          have hfuel2 : (queue ++ nw).length
              + (g.V.card - (vis ∪ nw.toFinset).card) < fuel := by
            have hql : (queue ++ nw).length = queue.length + nw.length :=
              List.length_append _ _
            have hcle : (vis ∪ nw.toFinset).card ≤ g.V.card :=
              Finset.card_le_card hvisV2
            rw [List.length_cons] at hfuel
            omega
          obtain ⟨vis', te', h1, h2, h3, h4, h5, h6, h7, h8⟩ :=
            ih (queue ++ nw) (vis ∪ nw.toFinset)
              (te ∪ (nw.map (fun w => canon u w)).toFinset)
              hq2 hvisV2 hstart2 hteE2 hteVis2 hcard2 hreach2 hclosed2 hfuel2
          exact ⟨vis', te', h1,
            Finset.Subset.trans (Finset.subset_union_left) h2, h3,
            Finset.Subset.trans (Finset.subset_union_left) h4, h5, h6, h7, h8⟩


/-- When `is_connected()` holds and the graph is nonempty,
`find_spanning_tree()` succeeds, and the BFS invariants describe its
result. -/
theorem findSpanningTree_run {g : Graph} (hW : Wf g)
    (hconn : isConnected g = true) (hne : g.V ≠ ∅) :
    ∃ t vis' start, findSpanningTree g = some t ∧ Wf t ∧ t.V = g.V ∧
      t.E ⊆ g.E ∧ start ∈ vis' ∧ vis' ⊆ g.V ∧
      vis'.card = t.E.card + 1 ∧
      (∀ x ∈ vis', ReachE t.E start x) ∧
      (∀ x ∈ vis', ∀ w ∈ adjL g x, w ∈ vis') := by
  cases hs : sortedV g with
  | nil =>
      exfalso
      obtain ⟨x, hx⟩ := Finset.nonempty_iff_ne_empty.mpr hne
      have hxl : x ∈ sortedV g := mem_sortedV.mpr hx
      rw [hs] at hxl
      exact absurd hxl (List.not_mem_nil x)
  | cons start rest =>
      have hstartV : start ∈ g.V := by
        rw [← mem_sortedV, hs]
        exact List.mem_cons_self _ _
      have hVpos : 0 < g.V.card :=
        Finset.card_pos.mpr (Finset.nonempty_iff_ne_empty.mpr hne)
      obtain ⟨vis', te', h1, h2, h3, h4, h5, h6, h7, h8⟩ :=
        bfsLoop_spec hW start (g.V.card + 1) [start] {start} ∅
          (by
            intro x hx
            rcases List.mem_cons.mp hx with rfl | hx
            · exact Finset.mem_singleton_self _
            · exact absurd hx (List.not_mem_nil x))
          (Finset.singleton_subset_iff.mpr hstartV)
          (Finset.mem_singleton_self _)
          (Finset.empty_subset _)
          (fun e he => absurd he (Finset.not_mem_empty e))
          (by rw [Finset.card_singleton, Finset.card_empty])
          (by
            intro x hx
            rw [Finset.mem_singleton] at hx
            subst hx
            exact Relation.ReflTransGen.refl)
          (by
            intro x hx hxq
            exact absurd (by
              rw [Finset.mem_singleton] at hx
              subst hx
              exact List.mem_cons_self _ _) hxq)
          (by
            rw [List.length_cons, List.length_nil, Finset.card_singleton]
            omega)
      obtain ⟨t, hmk, hWt, hVt, hEt⟩ :=
        mkGraphE_spec (fun e he => hW.edgeCanon e (h5 he))
          (fun e he => hW.edgeMemV e (h5 he))
      refine ⟨t, vis', start, ?_, hWt, hVt, ?_, ?_, h3, ?_, ?_, h8⟩
      · rw [findSpanningTree, if_neg (by rw [hconn]; exact fun h => by cases h),
          hs]
        show (match bfsLoop g (g.V.card + 1) [start] {start} ∅ with
          | none => none
          | some (_, te) => mkGraphE g.V te) = some t
        rw [h1]
        exact hmk
      · rw [hEt]
        exact h5
      · exact h2 (Finset.mem_singleton_self _)
      · rw [hEt]
        exact h6
      · intro x hx
        rw [hEt]
        exact h7 x hx


/-! ## Claim C4, amended -/

/-- C4 (amended): `find_spanning_tree()` raises exactly when
`is_connected()` is false or the vertex set is empty (the empty graph
passes `is_connected()` yet raises `IndexError` on `sorted(V)[0]`); and on
every *mathematically* connected nonempty graph (every vertex reaches
every other — stronger than `is_connected()`, which ignores isolated
vertices and is defied by the recorded counterexample) the returned graph
covers all original vertices, uses `|V| - 1` edges of the graph, and is
connected. -/
theorem findSpanningTree_amended (g : Graph) (hW : Wf g) :
    (findSpanningTree g = none ↔ (isConnected g = false ∨ g.V = ∅)) ∧
    ((∀ u ∈ g.V, ∀ v ∈ g.V, Reach g u v) → g.V ≠ ∅ →
      ∃ t, findSpanningTree g = some t ∧ Wf t ∧ t.V = g.V ∧ t.E ⊆ g.E ∧
        t.E.card = g.V.card - 1 ∧ ∀ u ∈ t.V, ∀ v ∈ t.V, Reach t u v) := by
  constructor
  · constructor
    · intro hnone
      by_cases hconn : isConnected g = true
      · by_cases hV : g.V = ∅
        · exact Or.inr hV
        · obtain ⟨t, -, -, heq, -⟩ := findSpanningTree_run hW hconn hV
          rw [heq] at hnone
          cases hnone
      · refine Or.inl ?_
        cases hbool : isConnected g
        · rfl
        · exact absurd hbool hconn
    · intro h
      rcases h with h | h
      · rw [findSpanningTree, if_pos h]
      · rw [findSpanningTree]
        have hs : sortedV g = [] := by
          cases hc : sortedV g with
          | nil => rfl
          | cons a l =>
              have ha : a ∈ g.V := mem_sortedV.mp (by
                rw [hc]
                exact List.mem_cons_self _ _)
              rw [h] at ha
              exact absurd ha (Finset.not_mem_empty a)
        rw [hs]
        by_cases hcb : isConnected g = false
        · rw [if_pos hcb]
        · rw [if_neg hcb]
  · intro hconn hne
    have hct := isConnected_true_of_connected hW hconn
    obtain ⟨t, vis', start, heq, hWt, hVt, hEsub, hsv, hvV, hcard, hreach,
      hclosed⟩ := findSpanningTree_run hW hct hne
    have hstartV : start ∈ g.V := hvV hsv
    have hveq : vis' = g.V := by
      refine Finset.Subset.antisymm hvV ?_
      intro v hv
      have hr : Reach g start v := hconn start hstartV v hv
      clear hv
      induction hr with
      | refl => exact hsv
      | tail h1 h2 ih => exact hclosed _ ih _ ((hW.adjL_iff _ _).mpr h2)
    have hcard2 : t.E.card = g.V.card - 1 := by
      rw [hveq] at hcard
      omega
    refine ⟨t, heq, hWt, hVt, hEsub, hcard2, ?_⟩
    have hsym : Symmetric (adjacent t) := fun a b h => adjacent_symm h
    have hreach_t : ∀ x ∈ t.V, Reach t start x := by
      intro x hx
      rw [hVt, ← hveq] at hx
      exact hreach x hx
    intro u hu v hv
    exact Relation.ReflTransGen.trans
      (Relation.ReflTransGen.symmetric hsym (hreach_t u hu))
      (hreach_t v hv)

/-- Closed instance of the amended C4 at the 4-cycle graph. -/
theorem findSpanningTree_amended_witness :
    Wf gSquare ∧ (∀ u ∈ gSquare.V, ∀ v ∈ gSquare.V, Reach gSquare u v) ∧
    gSquare.V ≠ ∅ ∧
    (∃ t, findSpanningTree gSquare = some t ∧ Wf t ∧ t.V = gSquare.V ∧
      t.E ⊆ gSquare.E ∧ t.E.card = gSquare.V.card - 1 ∧
      ∀ u ∈ t.V, ∀ v ∈ t.V, Reach t u v) := by
  have hto : ∀ u ∈ gSquare.V, Reach gSquare 0 u := by
    intro u hu
    have hc : ∀ x ∈ gSquare.V, x = 0 ∨ x = 1 ∨ x = 2 ∨ x = 3 := by decide
    rcases hc u hu with rfl | rfl | rfl | rfl
    · exact Relation.ReflTransGen.refl
    · exact Relation.ReflTransGen.single (show adjacent gSquare 0 1 from
        by decide)
    · exact Relation.ReflTransGen.single (show adjacent gSquare 0 2 from
        by decide)
    · exact Relation.ReflTransGen.tail
        (Relation.ReflTransGen.single (show adjacent gSquare 0 1 from
          by decide))
        (show adjacent gSquare 1 3 from by decide)
  have hconn : ∀ u ∈ gSquare.V, ∀ v ∈ gSquare.V, Reach gSquare u v := by
    intro u hu v hv
    exact Relation.ReflTransGen.trans
      (Relation.ReflTransGen.symmetric (fun a b h => adjacent_symm h)
        (hto u hu))
      (hto v hv)
  exact ⟨by decide, hconn, by decide,
    (findSpanningTree_amended gSquare (by decide)).2 hconn (by decide)⟩


/-! ## Hamiltonian cycle: soundness of the backtracking search -/

/-- Soundness of the defunctionalized `backtrack`: any accepted list is a
closed walk from `start` through `n` distinct vertices of the graph.  The
frame stack is kept parallel to the reversed path, each frame holding
pending neighbours of its path vertex. -/
theorem hamRun_sound {g : Graph} (hW : Wf g) (n start : Nat) :
    ∀ (fuel : Nat) (fr : List (List Nat)) (path : List Nat)
      (vis : Finset Nat) (L : List Nat),
      fr.length = path.length →
      (path = [] ∨ path.head? = some start) →
      path.Nodup →
      path.toFinset = vis →
      (∀ x ∈ path, x ∈ g.V) →
      List.Chain' (adjacent g) path →
      (∀ p ∈ fr.zip path.reverse, ∀ w ∈ p.1, w ∈ adjL g p.2) →
      hamRun g n start fuel fr path vis = some L →
      L.head? = some start ∧ L.getLast? = some start ∧
      L.dropLast.Nodup ∧ L.dropLast.length = n ∧
      (∀ x ∈ L, x ∈ g.V) ∧ List.Chain' (adjacent g) L := by
  intro fuel
  induction fuel with
  | zero =>
      intro fr path vis L _ _ _ _ _ _ _ hsome
      rw [show hamRun g n start 0 fr path vis = none from rfl] at hsome
      cases hsome
  | succ fuel ih =>
      intro fr path vis L hlen hhead hnd htf hV hchain hfr hsome
      cases fr with
      | nil =>
          rw [show hamRun g n start (fuel + 1) [] path vis = none from rfl]
            at hsome
          cases hsome
      | cons f fr' =>
          have hplen : 0 < path.length := by
            rw [List.length_cons] at hlen
            omega
          have hpne : path ≠ [] := List.length_pos.mp hplen
          have hhead2 : path.head? = some start := by
            rcases hhead with h | h
            · exact absurd h hpne
            · exact h
          have hrev : path.reverse
              = path.getLast hpne :: path.dropLast.reverse := by
            conv_lhs => rw [← List.dropLast_append_getLast hpne]
            rw [List.reverse_append]
            rfl
          cases f with
          | nil =>
              rw [show hamRun g n start (fuel + 1) ([] :: fr') path vis
                  = hamRun g n start fuel fr' path.dropLast
                      (vis.erase (path.getLastD 0)) from rfl] at hsome
              have hnd2 : path.dropLast.Nodup :=
                List.Nodup.sublist (List.dropLast_sublist path) hnd
              have hlast_ndl : path.getLast hpne ∉ path.dropLast := by
                have h3 := hnd
                conv at h3 => rw [← List.dropLast_append_getLast hpne]
                exact fun hc => (List.nodup_append.mp h3).2.2 hc
                  (List.mem_singleton.mpr rfl)
              refine ih fr' path.dropLast (vis.erase (path.getLastD 0)) L
                ?_ ?_ hnd2 ?_ ?_ ?_ ?_ hsome
              · rw [List.length_cons] at hlen
                rw [List.length_dropLast]
                omega
              · by_cases h2 : 1 < path.length
                · refine Or.inr ?_
                  rw [List.head?_dropLast, if_pos h2]
                  exact hhead2
                · refine Or.inl ?_
                  rw [← List.length_eq_zero, List.length_dropLast]
                  omega
              · rw [List.getLastD_eq_getLast?, List.getLast?_eq_getLast path hpne,
                  Option.getD_some, ← htf]
                ext x
                simp only [List.mem_toFinset, Finset.mem_erase]
                constructor
                · intro hx
                  refine ⟨?_, (List.dropLast_sublist path).subset hx⟩
                  intro heq
                  rw [heq] at hx
                  exact hlast_ndl hx
                · rintro ⟨hne2, hx⟩
                  conv at hx => rw [← List.dropLast_append_getLast hpne]
                  rcases List.mem_append.mp hx with h | h
                  · exact h
                  · exact absurd (List.mem_singleton.mp h) hne2
              · exact fun x hx => hV x ((List.dropLast_sublist path).subset hx)
              · have h3 := hchain
                conv at h3 => rw [← List.dropLast_append_getLast hpne]
                exact (List.chain'_append.mp h3).1
              · intro p hp x hx
                refine hfr p ?_ x hx
                rw [hrev, List.zip_cons_cons]
                exact List.mem_cons_of_mem _ hp
          | cons w ws =>
              rw [show hamRun g n start (fuel + 1) ((w :: ws) :: fr') path vis
                  = if w ∈ vis then
                      hamRun g n start fuel (ws :: fr') path vis
                    else if (path ++ [w]).length = n then
                      if start ∈ adjL g w then some ((path ++ [w]) ++ [start])
                      else hamRun g n start fuel (ws :: fr') path vis
                    else
                      hamRun g n start fuel
                        (((adjL g w).insertionSort (· ≤ ·)) :: ws :: fr')
                        (path ++ [w]) (insert w vis) from rfl] at hsome
              have hfrtop : ∀ x ∈ w :: ws, x ∈ adjL g (path.getLast hpne) := by
                intro x hx
                refine hfr ((w :: ws), path.getLast hpne) ?_ x hx
                rw [hrev, List.zip_cons_cons]
                exact List.mem_cons_self _ _
              have hfr_rest : ∀ p ∈ (ws :: fr').zip path.reverse,
                  ∀ x ∈ p.1, x ∈ adjL g p.2 := by
                intro p hp x hx
                rw [hrev, List.zip_cons_cons] at hp
                rcases List.mem_cons.mp hp with rfl | hp
                · exact hfrtop x (List.mem_cons_of_mem _ hx)
                · refine hfr p ?_ x hx
                  rw [hrev, List.zip_cons_cons]
                  exact List.mem_cons_of_mem _ hp
              by_cases hwv : w ∈ vis
              · rw [if_pos hwv] at hsome
                exact ih (ws :: fr') path vis L hlen hhead hnd htf hV hchain
                  hfr_rest hsome
              · rw [if_neg hwv] at hsome
                have hwadj : w ∈ adjL g (path.getLast hpne) :=
                  hfrtop w (List.mem_cons_self _ _)
                have hwV : w ∈ g.V := (hW.adjL_mem_V hwadj).2
                have hwnotp : w ∉ path := by
                  intro hc
                  exact hwv (htf ▸ List.mem_toFinset.mpr hc)
                have hnd3 : (path ++ [w]).Nodup := by
                  refine List.nodup_append.mpr ⟨hnd, List.nodup_cons.mpr
                    ⟨List.not_mem_nil w, List.nodup_nil⟩, ?_⟩
                  intro a ha hb
                  rw [List.mem_singleton] at hb
                  rw [hb] at ha
                  exact hwnotp ha
                have hchain3 : List.Chain' (adjacent g) (path ++ [w]) := by
                  refine List.chain'_append.mpr
                    ⟨hchain, List.chain'_singleton w, ?_⟩
                  intro x hxx y hy
                  rw [List.getLast?_eq_getLast path hpne] at hxx
                  rw [show ([w] : List Nat).head? = some w from rfl] at hy
                  rw [Option.mem_some_iff] at hxx hy
                  rw [← hxx, ← hy]
                  exact (hW.adjL_iff _ _).mp hwadj
                have hhead3 : (path ++ [w]).head? = some start := by
                  rw [List.head?_append_of_ne_nil _ hpne]
                  exact hhead2
                by_cases hful : (path ++ [w]).length = n
                · rw [if_pos hful] at hsome
                  by_cases hsadj : start ∈ adjL g w
                  · rw [if_pos hsadj] at hsome
                    injection hsome with hL
                    subst hL
                    refine ⟨?_, List.getLast?_concat _, ?_, ?_, ?_, ?_⟩
                    · rw [List.head?_append_of_ne_nil _ (by
                        intro hc
                        rw [hc] at hful
                        rw [List.length_nil] at hful
                        exact absurd (List.append_ne_nil_of_right_ne_nil path
                          (by intro h2; cases h2)) (fun h3 => h3 hc))]
                      exact hhead3
                    · rw [List.dropLast_concat]
                      exact hnd3
                    · rw [List.dropLast_concat]
                      exact hful
                    · intro x hx
                      rcases List.mem_append.mp hx with hx | hx
                      · rcases List.mem_append.mp hx with hx | hx
                        · exact hV x hx
                        · rw [List.mem_singleton.mp hx]
                          exact hwV
                      · rw [List.mem_singleton.mp hx]
                        exact hV start (List.mem_of_mem_head?
                          (Option.mem_def.mpr hhead2))
                    · refine List.chain'_append.mpr
                        ⟨hchain3, List.chain'_singleton start, ?_⟩
                      intro x hxx y hy
                      rw [List.getLast?_concat] at hxx
                      rw [show ([start] : List Nat).head? = some start
                        from rfl] at hy
                      rw [Option.mem_some_iff] at hxx hy
                      rw [← hxx, ← hy]
                      exact (hW.adjL_iff _ _).mp hsadj
                  · rw [if_neg hsadj] at hsome
                    exact ih (ws :: fr') path vis L hlen hhead hnd htf hV
                      hchain hfr_rest hsome
                · rw [if_neg hful] at hsome
                  refine ih (((adjL g w).insertionSort (· ≤ ·)) :: ws :: fr')
                    (path ++ [w]) (insert w vis) L ?_ (Or.inr hhead3) hnd3 ?_
                    ?_ hchain3 ?_ hsome
                  · rw [List.length_cons, List.length_cons, List.length_append,
                      List.length_singleton]
                    rw [List.length_cons] at hlen
                    omega
                  · ext x
                    simp only [List.mem_toFinset, List.mem_append,
                      List.mem_singleton, Finset.mem_insert, ← htf,
                      List.mem_toFinset]
                    tauto
                  · intro x hx
                    rcases List.mem_append.mp hx with hx | hx
                    · exact hV x hx
                    · rw [List.mem_singleton.mp hx]
                      exact hwV
                  · intro p hp x hx
                    rw [List.reverse_concat, List.zip_cons_cons] at hp
                    rcases List.mem_cons.mp hp with rfl | hp
                    · exact (List.mem_insertionSort _ ).mp hx
                    · exact hfr_rest p hp x hx


/-! ## Claim C5, amended -/

/-- C5 (amended): for every *nonempty* well-formed graph the claim holds:
`hamiltonian_cycle()` returns either none or a vertex sequence beginning
and ending at the start vertex (the smallest vertex), visiting every
vertex exactly once before the final repeat, with every consecutive pair
adjacent.  (On the empty graph the code returns `[]` instead of a cycle or
`None` — the recorded counterexample.) -/
theorem hamiltonianCycle_amended (g : Graph) (hW : Wf g) (hne : g.V ≠ ∅) :
    HamClaim g := by
  have hunfold : hamiltonianCycle g
      = (if g.V.card = 0 then some [] else
          if g.V.card = 1 then
            (if (sortedV g).headD 0 ∈ adjL g ((sortedV g).headD 0) then
              some [(sortedV g).headD 0, (sortedV g).headD 0] else none)
          else
            hamRun g g.V.card ((sortedV g).headD 0)
              ((g.V.card + 2).factorial * (g.V.card + g.E.card + 2))
              [(adjL g ((sortedV g).headD 0)).insertionSort (· ≤ ·)]
              [(sortedV g).headD 0] {(sortedV g).headD 0}) := rfl
  have hn0 : g.V.card ≠ 0 := fun h => hne (Finset.card_eq_zero.mp h)
  have hsne : sortedV g ≠ [] := by
    intro hc
    obtain ⟨x, hx⟩ := Finset.nonempty_iff_ne_empty.mpr hne
    have hxm := mem_sortedV.mpr hx
    rw [hc] at hxm
    exact absurd hxm (List.not_mem_nil x)
  obtain ⟨a, l, hc⟩ : ∃ a l, sortedV g = a :: l := by
    cases hcc : sortedV g with
    | nil => exact absurd hcc hsne
    | cons a l => exact ⟨a, l, rfl⟩
  have hheadeq : (sortedV g).head? = some ((sortedV g).headD 0) := by
    rw [hc]
    rfl
  have hstartV : (sortedV g).headD 0 ∈ g.V := by
    rw [← mem_sortedV, hc]
    rw [show (a :: l).headD 0 = a from rfl]
    exact List.mem_cons_self _ _
  cases hres : hamiltonianCycle g with
  | none => exact Or.inl hres
  | some L =>
      have hres0 := hres
      by_cases h1 : g.V.card = 1
      · rw [hunfold, if_neg hn0, if_pos h1,
          if_neg (fun hc2 => (hW.adjL_ne hc2) rfl)] at hres
        cases hres
      · rw [hunfold, if_neg hn0, if_neg h1] at hres
        obtain ⟨hh, hl, hnd, hlen, hmem, hch⟩ :=
          hamRun_sound hW g.V.card ((sortedV g).headD 0)
            ((g.V.card + 2).factorial * (g.V.card + g.E.card + 2))
            [(adjL g ((sortedV g).headD 0)).insertionSort (· ≤ ·)]
            [(sortedV g).headD 0] {(sortedV g).headD 0} L
            rfl
            (Or.inr rfl)
            (List.nodup_cons.mpr ⟨List.not_mem_nil _, List.nodup_nil⟩)
            (by
              ext x
              simp)
            (by
              intro x hx
              rw [List.mem_singleton.mp hx]
              exact hstartV)
            (List.chain'_singleton _)
            (by
              intro p hp x hx
              rw [show ([(sortedV g).headD 0] : List Nat).reverse
                  = [(sortedV g).headD 0] from rfl, List.zip_cons_cons] at hp
              rcases List.mem_cons.mp hp with rfl | hp
              · exact (List.mem_insertionSort _ ).mp hx
              · exact absurd hp (List.not_mem_nil p))
            hres
        exact Or.inr ⟨L, (sortedV g).headD 0, hres0, hheadeq, hh, hl, hnd,
          hlen, hmem, hch⟩

/-- Closed instance of the amended C5 at the 4-cycle graph. -/
theorem hamiltonianCycle_amended_witness :
    Wf gSquare ∧ gSquare.V ≠ ∅ ∧ HamClaim gSquare :=
  ⟨by decide, by decide,
    hamiltonianCycle_amended gSquare (by decide) (by decide)⟩


/-! ## Cycle detection: the DFS of `cycle_containing` -/

theorem cFuel_eq (g : Graph) :
    cFuel g = 1 + 2 * g.V.card + ∑ v ∈ g.V, (adjL g v).length := by
  have hnd : (sortedV g).Nodup := finSort_nodup g.V
  rw [cFuel, ← sortedV_toFinset g, List.sum_toFinset _ hnd]

/-- The `while x != w:` reconstruction walk succeeds whenever `w` lies on
the parent chain below `u`, returning the chain segment down to and
including `w`. -/
theorem parentWalk_chain {par : Nat → Option Nat} {w : Nat} :
    ∀ (S : List Nat) (u : Nat) (fuel : Nat),
      List.Chain' (fun a b => par a = some b) (u :: S) →
      w ∈ S → (u :: S).Nodup → S.length < fuel →
      ∃ pre suf, S = pre ++ w :: suf ∧
        parentWalk par fuel u w = some (pre ++ [w]) := by
  intro S
  induction S with
  | nil =>
      intro u fuel _ hw
      exact absurd hw (List.not_mem_nil w)
  | cons y S' ih =>
      intro u fuel hch hw hnd hfuel
      have hune : u ≠ w := by
        intro hc
        exact (List.nodup_cons.mp hnd).1 (hc ▸ hw)
      obtain ⟨fuel', rfl⟩ : ∃ f2, fuel = f2 + 1 :=
        ⟨fuel - 1, by rw [List.length_cons] at hfuel; omega⟩
      have hpar : par u = some y := (List.chain'_cons.mp hch).1
      rw [show parentWalk par (fuel' + 1) u w
          = if u = w then some [] else
            match par u with
            | none => none
            | some z => (parentWalk par fuel' z w).map (fun l => z :: l)
          from rfl, if_neg hune, hpar,
        show (match some y with
          | none => none
          | some z => Option.map (fun l => z :: l) (parentWalk par fuel' z w))
          = Option.map (fun l => y :: l) (parentWalk par fuel' y w) from rfl]
      by_cases hwy : w = y
      · subst hwy
        obtain ⟨fuel2, rfl⟩ : ∃ f3, fuel' = f3 + 1 :=
          ⟨fuel' - 1, by rw [List.length_cons] at hfuel; omega⟩
        rw [show parentWalk par (fuel2 + 1) w w = some [] from by
          rw [parentWalk, if_pos rfl]]
        exact ⟨[], S', rfl, rfl⟩
      · have hwS2 : w ∈ S' := by
          rcases List.mem_cons.mp hw with h | h
          · exact absurd h hwy
          · exact h
        obtain ⟨pre2, suf, hS2, hpw⟩ :=
          ih y fuel' (List.chain'_cons.mp hch).2 hwS2
            (List.nodup_cons.mp hnd).2
            (by rw [List.length_cons] at hfuel; omega)
        rw [hpw]
        refine ⟨y :: pre2, suf, ?_, rfl⟩
        rw [hS2]
        rfl

/-- The frame stack's vertex list is a parent chain. -/
theorem frames_par_chain {par : Nat → Option Nat} :
    ∀ (fr : List (Nat × Option Nat × List Nat)),
      (∀ f ∈ fr, f.2.1 = par f.1) →
      List.Chain' (fun f f2 => f.2.1 = some f2.1) fr →
      List.Chain' (fun a b => par a = some b) (fr.map (fun f => f.1)) := by
  intro fr
  induction fr with
  | nil => intro _ _; exact List.chain'_nil
  | cons f fr ih =>
      intro hp hch
      cases fr with
      | nil => exact List.chain'_singleton _
      | cons f2 fr2 =>
          rw [List.map_cons, List.map_cons]
          refine List.chain'_cons.mpr ⟨?_, ?_⟩
          · rw [← hp f (List.mem_cons_self _ _)]
            exact (List.chain'_cons.mp hch).1
          · have h2 := ih (fun x hx => hp x (List.mem_cons_of_mem _ hx))
              (List.chain'_cons.mp hch).2
            rw [List.map_cons] at h2
            exact h2

/-- A parent chain respects the discovery order, hence repeats no
vertex. -/
theorem par_chain_nodup {par : Nat → Option Nat} {disc : List Nat}
    (hord : ∀ x y, par x = some y → disc.indexOf y < disc.indexOf x) :
    ∀ {l : List Nat}, List.Chain' (fun a b => par a = some b) l →
      l.Nodup := by
  intro l hch
  have hch2 : List.Chain' (fun a b => disc.indexOf b < disc.indexOf a) l :=
    hch.imp (fun a b h => hord a b h)
  letI : IsTrans Nat (fun a b => disc.indexOf b < disc.indexOf a) :=
    ⟨fun a b c h1 h2 => lt_trans h2 h1⟩
  have hpw := List.chain'_iff_pairwise.mp hch2
  exact hpw.imp (fun {a b} h heq => by
    rw [heq] at h
    omega)

theorem par_chain_adjacent {g : Graph} {par : Nat → Option Nat}
    (hadj : ∀ x y, par x = some y → adjacent g x y) :
    ∀ {l : List Nat}, List.Chain' (fun a b => par a = some b) l →
      List.Chain' (adjacent g) l :=
  fun hch => hch.imp (fun a b h => hadj a b h)


/-- A set of vertices all of whose internal edges are parent links of a
discovery-ordered parent forest carries no cycle: the latest-discovered
vertex of a cycle would need two distinct parents. -/
theorem forest_no_cycle {g : Graph} (hW : Wf g) {vis : Finset Nat}
    {par : Nat → Option Nat} {disc : List Nat}
    (hcl : ∀ x ∈ vis, ∀ y ∈ adjL g x,
      y ∈ vis ∧ (par x = some y ∨ par y = some x))
    (hord : ∀ x y, par x = some y → disc.indexOf y < disc.indexOf x)
    {c : List Nat} (hc3 : 3 ≤ c.length) (hnd : c.Nodup)
    (hch : List.Chain' (adjacent g) c)
    (hwrap : ∀ a ∈ c.getLast?, ∀ b ∈ c.head?, adjacent g a b)
    (hsub : ∀ x ∈ c, x ∈ vis) : False := by
  have hcne : c ≠ [] := by
    intro h
    rw [h] at hc3
    exact absurd hc3 (by decide)
  have hne : c.toFinset.Nonempty := by
    cases hc : c with
    | nil => exact absurd hc hcne
    | cons a t => exact ⟨a, List.mem_toFinset.mpr (List.mem_cons_self _ _)⟩
  obtain ⟨m, hmF, hmax⟩ :=
    Finset.exists_max_image c.toFinset (fun x => disc.indexOf x) hne
  have hmc : m ∈ c := List.mem_toFinset.mp hmF
  obtain ⟨c1, c2, rfl⟩ := List.append_of_mem hmc
  have key : ∀ a b : Nat, a ≠ b → adjacent g m a → adjacent g m b →
      a ∈ c1 ++ m :: c2 → b ∈ c1 ++ m :: c2 → False := by
    intro a b hab ha hb hamem hbmem
    have h1 := hcl m (hsub m hmc) a ((hW.adjL_iff m a).mpr ha)
    have h2 := hcl m (hsub m hmc) b ((hW.adjL_iff m b).mpr hb)
    have hpa : par m = some a := by
      rcases h1.2 with h | h
      · exact h
      · exfalso
        have h3 := hord a m h
        have h4 := hmax a (List.mem_toFinset.mpr hamem)
        omega
    have hpb : par m = some b := by
      rcases h2.2 with h | h
      · exact h
      · exfalso
        have h3 := hord b m h
        have h4 := hmax b (List.mem_toFinset.mpr hbmem)
        omega
    rw [hpa] at hpb
    exact hab (Option.some.inj hpb)
  cases c1 with
  | nil =>
      cases c2 with
      | nil =>
          rw [show ([] ++ [m] : List Nat).length = 1 from rfl] at hc3
          exact absurd hc3 (by decide)
      | cons z c2' =>
          have hmz : adjacent g m z := (List.chain'_cons.mp hch).1
          cases c2' with
          | nil =>
              rw [show ([] ++ [m, z] : List Nat).length = 2 from rfl] at hc3
              exact absurd hc3 (by decide)
          | cons v rest =>
              have hlne : (z :: v :: rest : List Nat) ≠ [] :=
                List.cons_ne_nil _ _
              have hLmem : (z :: v :: rest).getLast hlne ∈ v :: rest := by
                rw [List.getLast_cons (List.cons_ne_nil _ _)]
                exact List.getLast_mem _
              have hlastc : ([] ++ m :: z :: v :: rest : List Nat).getLast?
                  = some ((z :: v :: rest).getLast hlne) := by
                rw [List.nil_append,
                  List.getLast?_eq_getLast _ (List.cons_ne_nil _ _),
                  List.getLast_cons hlne]
              have hLm : adjacent g ((z :: v :: rest).getLast hlne) m := by
                refine hwrap _ ?_ m ?_
                · rw [hlastc]
                  rfl
                · rfl
              have hzL : z ≠ (z :: v :: rest).getLast hlne := by
                intro hc
                have hznd : z ∉ v :: rest := by
                  have h5 := hnd
                  rw [List.nil_append] at h5
                  exact (List.nodup_cons.mp ((List.nodup_cons.mp h5).2)).1
                rw [hc] at hznd
                exact hznd hLmem
              refine key z ((z :: v :: rest).getLast hlne) hzL hmz
                (adjacent_symm hLm) ?_ ?_
              · exact List.mem_cons_of_mem _ (List.mem_cons_self _ _)
              · exact List.mem_cons_of_mem _
                  (List.mem_cons_of_mem _ hLmem)
  | cons w1 c1' =>
      cases c2 with
      | nil =>
          have hc1ne : (w1 :: c1' : List Nat) ≠ [] := List.cons_ne_nil _ _
          have hsplit := List.chain'_append.mp hch
          have ham : adjacent g ((w1 :: c1').getLast hc1ne) m := by
            refine hsplit.2.2 _ ?_ m ?_
            · rw [List.getLast?_eq_getLast _ hc1ne]
              rfl
            · rfl
          have hlastc : ((w1 :: c1') ++ [m]).getLast? = some m :=
            List.getLast?_concat _
          have hheadc : ((w1 :: c1') ++ [m]).head? = some w1 := rfl
          have hmw1 : adjacent g m w1 := by
            refine hwrap m ?_ w1 ?_
            · rw [hlastc]
              rfl
            · rw [hheadc]
              rfl
          cases c1' with
          | nil =>
              rw [show (([w1] ++ [m] : List Nat)).length = 2 from rfl] at hc3
              exact absurd hc3 (by decide)
          | cons v rest =>
              have hLmem : (w1 :: v :: rest).getLast hc1ne ∈ v :: rest := by
                rw [List.getLast_cons (List.cons_ne_nil _ _)]
                exact List.getLast_mem _
              have hne2 : w1 ≠ (w1 :: v :: rest).getLast hc1ne := by
                intro hc
                have h5 := hnd
                have hw1nd : w1 ∉ v :: rest := by
                  have h6 := (List.nodup_append.mp h5).1
                  exact (List.nodup_cons.mp h6).1
                rw [hc] at hw1nd
                exact hw1nd hLmem
              refine key w1 ((w1 :: v :: rest).getLast hc1ne) hne2 hmw1
                (adjacent_symm ham) ?_ ?_
              · exact List.mem_append.mpr (Or.inl (List.mem_cons_self _ _))
              · exact List.mem_append.mpr
                  (Or.inl (List.mem_cons_of_mem _ hLmem))
      | cons z c2' =>
          have hc1ne : (w1 :: c1' : List Nat) ≠ [] := List.cons_ne_nil _ _
          have hsplit := List.chain'_append.mp hch
          have ham : adjacent g ((w1 :: c1').getLast hc1ne) m := by
            refine hsplit.2.2 _ ?_ m ?_
            · rw [List.getLast?_eq_getLast _ hc1ne]
              rfl
            · rfl
          have hmz : adjacent g m z := (List.chain'_cons.mp hsplit.2.1).1
          have hane : (w1 :: c1').getLast hc1ne ≠ z := by
            intro hc
            have h5 := (List.nodup_append.mp hnd).2.2
            exact h5 (hc ▸ List.getLast_mem hc1ne)
              (List.mem_cons_of_mem _ (List.mem_cons_self _ _))
          refine key ((w1 :: c1').getLast hc1ne) z (fun h => hane h)
            (adjacent_symm ham) hmz ?_ ?_
          · exact List.mem_append.mpr (Or.inl (List.getLast_mem hc1ne))
          · exact List.mem_append.mpr (Or.inr
              (List.mem_cons_of_mem _ (List.mem_cons_self _ _)))


/-- Full characterization of the `cycle_containing` DFS: with fuel above
the measure it terminates without raising; it returns Python `None` only
with the whole component visited and every internal edge a parent link of
the discovery-ordered parent forest, and it returns a list only when that
list is a closed duplicate-free cycle of the graph inside the component of
the root. -/
theorem cdfs_spec {g : Graph} (hW : Wf g) (r : Nat) :
    ∀ (fuel : Nat) (fr : List (Nat × Option Nat × List Nat))
      (vis : Finset Nat) (par : Nat → Option Nat) (disc : List Nat),
      (∀ f ∈ fr, f.1 ∈ vis ∧ f.2.1 = par f.1 ∧
        ∃ sc, adjL g f.1 = sc ++ f.2.2 ∧
          ∀ y ∈ sc, y ∈ vis ∧ (some y = f.2.1 ∨ par y = some f.1)) →
      List.Chain' (fun f f2 => f.2.1 = some f2.1) fr →
      (∀ x ∈ vis, x ∉ fr.map (fun f => f.1) → ∀ y ∈ adjL g x,
        y ∈ vis ∧ (par x = some y ∨ par y = some x)) →
      (∀ f ∈ fr, ∀ y, par y = some f.1 → y ∉ f.2.2) →
      disc.Nodup → disc.toFinset = vis →
      (∀ x y, par x = some y →
        x ∈ vis ∧ y ∈ vis ∧ adjacent g x y ∧
          disc.indexOf y < disc.indexOf x) →
      (∀ x ∈ vis, Reach g r x) →
      vis ⊆ g.V →
      cMeasure g fr vis < fuel →
      (∃ (vis2 : Finset Nat) (par2 : Nat → Option Nat) (disc2 : List Nat),
        cdfsRun g fuel fr vis par = some (none, vis2, par2) ∧
        vis ⊆ vis2 ∧ vis2 ⊆ g.V ∧ (∀ x ∈ vis2, Reach g r x) ∧
        disc2.Nodup ∧ disc2.toFinset = vis2 ∧
        (∀ x y, par2 x = some y →
          x ∈ vis2 ∧ y ∈ vis2 ∧ adjacent g x y ∧
            disc2.indexOf y < disc2.indexOf x) ∧
        (∀ x ∈ vis2, ∀ y ∈ adjL g x,
          y ∈ vis2 ∧ (par2 x = some y ∨ par2 y = some x)))
      ∨ (∃ (c : List Nat) (vis2 : Finset Nat) (par2 : Nat → Option Nat),
          cdfsRun g fuel fr vis par = some (some c, vis2, par2) ∧
          3 ≤ c.dropLast.length ∧ c.dropLast.Nodup ∧
          c.head? = c.getLast? ∧ List.Chain' (adjacent g) c ∧
          (∀ x ∈ c, Reach g r x)) := by
  intro fuel
  induction fuel with
  | zero =>
      intro fr vis par disc _ _ _ _ _ _ _ _ _ hfuel
      omega
  | succ fuel ih =>
      intro fr vis par disc h1 hch h3 h4 hdA hdB h7 hreach hvV hfuel
      cases fr with
      | nil =>
          refine Or.inl ⟨vis, par, disc, rfl, Finset.Subset.refl _, hvV,
            hreach, hdA, hdB, h7, ?_⟩
          intro x hx y hy
          exact h3 x hx (List.not_mem_nil x) y hy
      | cons f fr' =>
          obtain ⟨u, p, P⟩ := f
          obtain ⟨huvis0, hpu0, sc, hsc0, hscp0⟩ :=
            h1 (u, p, P) (List.mem_cons_self _ _)
          have huvis : u ∈ vis := huvis0
          have hpu : p = par u := hpu0
          have hsc : adjL g u = sc ++ P := hsc0
          have hscp : ∀ y ∈ sc, y ∈ vis ∧ (some y = p ∨ par y = some u) :=
            hscp0
          clear huvis0 hpu0 hsc0 hscp0
          cases P with
          | nil =>
              have hmeq : cMeasure g ((u, p, ([] : List Nat)) :: fr') vis
                  = cMeasure g fr' vis + 1 := by
                simp only [cMeasure, List.length_cons, List.map_cons,
                  List.sum_cons, List.length_nil]
                omega
              refine ih fr' vis par disc
                (fun f2 hf2 => h1 f2 (List.mem_cons_of_mem _ hf2))
                hch.tail ?_
                (fun f2 hf2 => h4 f2 (List.mem_cons_of_mem _ hf2))
                hdA hdB h7 hreach hvV (by omega)
              intro x hx hxm y hy
              by_cases hxu : x = u
              · subst hxu
                rw [List.append_nil] at hsc
                rw [hsc] at hy
                have hy2 := hscp y hy
                refine ⟨hy2.1, ?_⟩
                rcases hy2.2 with h | h
                · exact Or.inl (by rw [hpu] at h; exact h.symm)
                · exact Or.inr h
              · refine h3 x hx ?_ y hy
                intro hc
                rw [List.map_cons] at hc
                rcases List.mem_cons.mp hc with h | h
                · exact hxu h
                · exact hxm h
          | cons w ws =>
              have hwadjLu : w ∈ adjL g u := by
                rw [hsc]
                exact List.mem_append.mpr (Or.inr (List.mem_cons_self _ _))
              have hadj_uw : adjacent g u w := (hW.adjL_iff u w).mp hwadjLu
              have hwV : w ∈ g.V := (hW.adjL_mem_V hwadjLu).2
              have hwu : w ≠ u := hW.adjL_ne hwadjLu
              have hndadj : (adjL g u).Nodup := hW.adjL_nodup u
              have hwws : w ∉ ws := by
                rw [hsc] at hndadj
                exact (List.nodup_cons.mp (List.nodup_append.mp hndadj).2.1).1
              have hwsc : w ∉ sc := by
                rw [hsc] at hndadj
                intro hc
                exact (List.nodup_append.mp hndadj).2.2 hc
                  (List.mem_cons_self _ _)
              have hSch : List.Chain' (fun a b => par a = some b)
                  (u :: fr'.map (fun f => f.1)) := by
                have h5 := frames_par_chain ((u, p, w :: ws) :: fr')
                  (fun f2 hf2 => (h1 f2 hf2).2.1) hch
                rw [List.map_cons] at h5
                exact h5
              have hSnd : (u :: fr'.map (fun f => f.1)).Nodup :=
                par_chain_nodup (fun x y hxy => (h7 x y hxy).2.2.2) hSch
              have hSvis : ∀ x ∈ u :: fr'.map (fun f => f.1), x ∈ vis := by
                intro x hx
                rcases List.mem_cons.mp hx with rfl | hx
                · exact huvis
                · obtain ⟨f2, hf2, rfl⟩ := List.mem_map.mp hx
                  exact (h1 f2 (List.mem_cons_of_mem _ hf2)).1
              by_cases hp : some w = p
              · -- parent skip
                rw [show cdfsRun g (fuel + 1) ((u, p, w :: ws) :: fr') vis par
                    = if some w = p then
                        cdfsRun g fuel ((u, p, ws) :: fr') vis par
                      else if w ∈ vis then
                        match buildCycle par (vis.card + 1) u w with
                        | none => none
                        | some c => some (some c, vis, par)
                      else
                        cdfsRun g fuel
                          ((w, some u, adjL g w) :: (u, p, ws) :: fr')
                          (insert w vis)
                          (fun x => if x = w then some u else par x)
                    from rfl, if_pos hp]
                have hparuw : par u = some w := by
                  rw [← hpu, ← hp]
                have hwvis : w ∈ vis := (h7 u w hparuw).2.1
                have hmeq : cMeasure g ((u, p, w :: ws) :: fr') vis
                    = cMeasure g ((u, p, ws) :: fr') vis + 1 := by
                  simp only [cMeasure, List.length_cons, List.map_cons,
                    List.sum_cons]
                  omega
                refine ih ((u, p, ws) :: fr') vis par disc ?_ ?_ h3 ?_
                  hdA hdB h7 hreach hvV (by omega)
                · intro f2 hf2
                  rcases List.mem_cons.mp hf2 with rfl | hf2
                  · refine ⟨huvis, hpu, sc ++ [w], ?_, ?_⟩
                    · rw [hsc, List.append_assoc]
                      rfl
                    · intro y hy
                      rcases List.mem_append.mp hy with hy | hy
                      · exact hscp y hy
                      · rw [List.mem_singleton.mp hy]
                        exact ⟨hwvis, Or.inl hp⟩
                  · exact h1 f2 (List.mem_cons_of_mem _ hf2)
                · cases fr' with
                  | nil => exact List.chain'_singleton _
                  | cons f2 fr2 =>
                      exact List.chain'_cons.mpr
                        ⟨(List.chain'_cons.mp hch).1,
                          (List.chain'_cons.mp hch).2⟩
                · intro f2 hf2 y hy
                  rcases List.mem_cons.mp hf2 with rfl | hf2
                  · have h6 := h4 (u, p, w :: ws) (List.mem_cons_self _ _) y hy
                    intro hc
                    exact h6 (List.mem_cons_of_mem _ hc)
                  · exact h4 f2 (List.mem_cons_of_mem _ hf2) y hy
              · by_cases hwvis : w ∈ vis
                · -- cycle found
                  have huadjw : u ∈ adjL g w := by
                    rw [hW.adjL_iff]
                    rw [show canon w u = canon u w from canon_comm w u]
                    exact hadj_uw
                  have hwS : w ∈ fr'.map (fun f => f.1) := by
                    by_contra hns
                    have hnotmap : w ∉
                        ((u, p, w :: ws) :: fr').map (fun f => f.1) := by
                      rw [List.map_cons]
                      intro hc
                      rcases List.mem_cons.mp hc with h | h
                      · exact hwu h
                      · exact hns h
                    have h6 := h3 w hwvis hnotmap u huadjw
                    rcases h6.2 with h | h
                    · exact h4 (u, p, w :: ws) (List.mem_cons_self _ _) w h
                        (List.mem_cons_self _ _)
                    · exact hp (by rw [hpu, h])
                  have hlenS : (fr'.map (fun f => f.1)).length
                      < vis.card + 1 := by
                    have h6 : (u :: fr'.map (fun f => f.1)).length
                        ≤ vis.card := by
                      rw [← List.toFinset_card_of_nodup hSnd]
                      refine Finset.card_le_card ?_
                      intro x hx
                      exact hSvis x (List.mem_toFinset.mp hx)
                    rw [List.length_cons] at h6
                    omega
                  obtain ⟨pre, suf, hsplit, hpw⟩ :=
                    parentWalk_chain (fr'.map (fun f => f.1)) u
                      (vis.card + 1) hSch hwS hSnd hlenS
                  have hbc : buildCycle par (vis.card + 1) u w
                      = some (([w, u] ++ (pre ++ [w])).reverse) := by
                    rw [buildCycle, hpw]
                    rfl
                  rw [show cdfsRun g (fuel + 1)
                        ((u, p, w :: ws) :: fr') vis par
                      = if some w = p then
                          cdfsRun g fuel ((u, p, ws) :: fr') vis par
                        else if w ∈ vis then
                          match buildCycle par (vis.card + 1) u w with
                          | none => none
                          | some c => some (some c, vis, par)
                        else
                          cdfsRun g fuel
                            ((w, some u, adjL g w) :: (u, p, ws) :: fr')
                            (insert w vis)
                            (fun x => if x = w then some u else par x)
                      from rfl, if_neg hp, if_pos hwvis, hbc]
                  have hpre_ne : pre ≠ [] := by
                    intro hpre0
                    rw [hpre0, List.nil_append] at hsplit
                    rw [hsplit] at hSch
                    have h6 := (List.chain'_cons.mp hSch).1
                    exact hp (by rw [hpu, h6])
                  have hCeq : ([w, u] ++ (pre ++ [w])).reverse
                      = (u :: (pre ++ [w])).reverse ++ [w] := by
                    rw [show ([w, u] ++ (pre ++ [w]))
                        = [w] ++ (u :: (pre ++ [w])) from rfl,
                      List.reverse_append]
                    rfl
                  have hD_sub : (u :: (pre ++ [w])).Sublist
                      (u :: fr'.map (fun f => f.1)) := by
                    rw [hsplit]
                    exact List.Sublist.cons₂ u
                      (List.Sublist.append_left
                        ((List.nil_sublist suf).cons₂ w) pre)
                  have hD_nodup : (u :: (pre ++ [w])).Nodup :=
                    List.Nodup.sublist hD_sub hSnd
                  have hD_chain_par : List.Chain' (fun a b => par a = some b)
                      (u :: (pre ++ [w])) := by
                    refine hSch.prefix ⟨suf, ?_⟩
                    rw [hsplit, List.cons_append, List.append_assoc]
                    rfl
                  have hD_chain_adj : List.Chain' (adjacent g)
                      (u :: (pre ++ [w])) :=
                    par_chain_adjacent (fun x y h => (h7 x y h).2.2.1)
                      hD_chain_par
                  have hD_last : (u :: (pre ++ [w])).getLast? = some w := by
                    rw [show (u :: (pre ++ [w])) = (u :: pre) ++ [w] from by
                      rw [List.cons_append]]
                    exact List.getLast?_concat _
                  refine Or.inr ⟨([w, u] ++ (pre ++ [w])).reverse, vis, par,
                    rfl, ?_, ?_, ?_, ?_, ?_⟩
                  · rw [hCeq, List.dropLast_concat, List.length_reverse,
                      List.length_cons, List.length_append,
                      List.length_singleton]
                    have : 0 < pre.length := List.length_pos.mpr hpre_ne
                    omega
                  · rw [hCeq, List.dropLast_concat, List.nodup_reverse]
                    exact hD_nodup
                  · rw [hCeq, List.getLast?_concat,
                      List.head?_append_of_ne_nil _ (by
                        intro hc
                        have := congrArg List.length hc
                        rw [List.length_reverse, List.length_cons] at this
                        simp at this),
                      List.head?_reverse, hD_last]
                  · rw [hCeq]
                    refine List.chain'_append.mpr ⟨?_,
                      List.chain'_singleton _, ?_⟩
                    · rw [List.chain'_reverse]
                      exact hD_chain_adj.imp (fun a b h => adjacent_symm h)
                    · intro x hx y hy
                      rw [List.getLast?_reverse] at hx
                      rw [show (u :: (pre ++ [w])).head? = some u from rfl]
                        at hx
                      rw [show ([w] : List Nat).head? = some w from rfl] at hy
                      rw [Option.mem_some_iff] at hx hy
                      rw [← hx, ← hy]
                      exact hadj_uw
                  · intro x hx
                    rw [hCeq] at hx
                    rcases List.mem_append.mp hx with hx | hx
                    · rw [List.mem_reverse] at hx
                      exact hreach x (hSvis x (hD_sub.subset hx))
                    · rw [List.mem_singleton.mp hx]
                      exact hreach w hwvis
                · -- push
                  rw [show cdfsRun g (fuel + 1)
                        ((u, p, w :: ws) :: fr') vis par
                      = if some w = p then
                          cdfsRun g fuel ((u, p, ws) :: fr') vis par
                        else if w ∈ vis then
                          match buildCycle par (vis.card + 1) u w with
                          | none => none
                          | some c => some (some c, vis, par)
                        else
                          cdfsRun g fuel
                            ((w, some u, adjL g w) :: (u, p, ws) :: fr')
                            (insert w vis)
                            (fun x => if x = w then some u else par x)
                      from rfl, if_neg hp, if_neg hwvis]
                  have hneuw : u ≠ w := fun hc => hwu hc.symm
                  have hvis_ne_w : ∀ x ∈ vis, x ≠ w :=
                    fun x hx hc => hwvis (hc ▸ hx)
                  have hpar2ne : ∀ x, x ≠ w →
                      (fun x => if x = w then some u else par x) x = par x :=
                    fun x hx => if_neg hx
                  have hpar2w :
                      (fun x => if x = w then some u else par x) w
                        = some u := if_pos rfl
                  have hwdisc : w ∉ disc := by
                    intro hc
                    exact hwvis (by rw [← hdB]; exact List.mem_toFinset.mpr hc)
                  have humem : u ∉ fr'.map (fun f => f.1) :=
                    (List.nodup_cons.mp hSnd).1
                  have hmeq : cMeasure g ((u, p, w :: ws) :: fr') vis
                      = cMeasure g
                          ((w, some u, adjL g w) :: (u, p, ws) :: fr')
                          (insert w vis) + 1 := by
                    have hwSd : w ∈ g.V \ vis := Finset.mem_sdiff.mpr ⟨hwV, hwvis⟩
                    have hsplitS : ∑ x ∈ (g.V \ vis).erase w,
                          (1 + (adjL g x).length) + (1 + (adjL g w).length)
                        = ∑ x ∈ g.V \ vis, (1 + (adjL g x).length) :=
                      Finset.sum_erase_add _ _ hwSd
                    have herase : g.V \ insert w vis = (g.V \ vis).erase w := by
                      ext x
                      simp only [Finset.mem_sdiff, Finset.mem_erase,
                        Finset.mem_insert]
                      tauto
                    simp only [cMeasure, List.length_cons, List.map_cons,
                      List.sum_cons, herase]
                    omega
                  have hI1 : ∀ f2 ∈ (w, some u, adjL g w) :: (u, p, ws) :: fr',
                        f2.1 ∈ insert w vis ∧
                        f2.2.1 = (fun x => if x = w then some u else par x) f2.1 ∧
                        ∃ sc2, adjL g f2.1 = sc2 ++ f2.2.2 ∧
                          ∀ y ∈ sc2, y ∈ insert w vis ∧
                            (some y = f2.2.1 ∨
                              (fun x => if x = w then some u else par x) y = some f2.1) := by
                    intro f2 hf2
                    rcases List.mem_cons.mp hf2 with rfl | hf2
                    · exact ⟨Finset.mem_insert_self _ _, hpar2w.symm,
                        [], rfl, fun y hy => absurd hy (List.not_mem_nil y)⟩
                    rcases List.mem_cons.mp hf2 with rfl | hf2
                    · refine ⟨Finset.mem_insert_of_mem huvis, ?_,
                        sc ++ [w], ?_, ?_⟩
                      · rw [hpar2ne u hneuw]
                        exact hpu
                      · rw [hsc, List.append_assoc]
                        rfl
                      · intro y hy
                        rcases List.mem_append.mp hy with hy | hy
                        · have h6 := hscp y hy
                          refine ⟨Finset.mem_insert_of_mem h6.1, ?_⟩
                          rcases h6.2 with h | h
                          · exact Or.inl h
                          · refine Or.inr ?_
                            rw [hpar2ne y (hvis_ne_w y h6.1)]
                            exact h
                        · rw [List.mem_singleton.mp hy]
                          exact ⟨Finset.mem_insert_self _ _,
                            Or.inr hpar2w⟩
                    · obtain ⟨hf1, hf2p, sc2, hsc2, hsc2p⟩ := h1 f2
                        (List.mem_cons_of_mem _ hf2)
                      refine ⟨Finset.mem_insert_of_mem hf1, ?_, sc2, hsc2, ?_⟩
                      · rw [hpar2ne f2.1 (hvis_ne_w f2.1 hf1)]
                        exact hf2p
                      · intro y hy
                        have h6 := hsc2p y hy
                        refine ⟨Finset.mem_insert_of_mem h6.1, ?_⟩
                        rcases h6.2 with h | h
                        · exact Or.inl h
                        · refine Or.inr ?_
                          rw [hpar2ne y (hvis_ne_w y h6.1)]
                          exact h
                  have hI2 : List.Chain' (fun f f2 => f.2.1 = some f2.1)
                        ((w, some u, adjL g w) :: (u, p, ws) :: fr') := by
                    refine List.chain'_cons.mpr ⟨rfl, ?_⟩
                    cases fr' with
                    | nil => exact List.chain'_singleton _
                    | cons f2 fr2 =>
                        exact List.chain'_cons.mpr
                          ⟨(List.chain'_cons.mp hch).1,
                            (List.chain'_cons.mp hch).2⟩
                  have hI3 : ∀ x ∈ insert w vis,
                        x ∉ ((w, some u, adjL g w) :: (u, p, ws) :: fr').map (fun f => f.1) →
                        ∀ y ∈ adjL g x, y ∈ insert w vis ∧
                          ((fun x => if x = w then some u else par x) x = some y ∨
                            (fun x => if x = w then some u else par x) y = some x) := by
                    intro x hx hxm y hy
                    have hxw : x ≠ w := by
                      intro hc
                      refine hxm ?_
                      rw [List.map_cons, hc]
                      exact List.mem_cons_self _ _
                    have hxvis : x ∈ vis := by
                      rcases Finset.mem_insert.mp hx with hc | hc
                      · exact absurd hc hxw
                      · exact hc
                    have hxm2 : x ∉
                        ((u, p, w :: ws) :: fr').map (fun f => f.1) := by
                      intro hc
                      refine hxm ?_
                      rw [List.map_cons] at hc ⊢
                      rw [List.map_cons]
                      rcases List.mem_cons.mp hc with h | h
                      · exact List.mem_cons_of_mem _
                          (h ▸ List.mem_cons_self _ _)
                      · exact List.mem_cons_of_mem _
                          (List.mem_cons_of_mem _ h)
                    have h6 := h3 x hxvis hxm2 y hy
                    refine ⟨Finset.mem_insert_of_mem h6.1, ?_⟩
                    rcases h6.2 with h | h
                    · refine Or.inl ?_
                      rw [hpar2ne x hxw]
                      exact h
                    · refine Or.inr ?_
                      rw [hpar2ne y (hvis_ne_w y h6.1)]
                      exact h
                  have hI4 : ∀ f2 ∈ (w, some u, adjL g w) :: (u, p, ws) :: fr', ∀ y,
                        (fun x => if x = w then some u else par x) y = some f2.1 → y ∉ f2.2.2 := by
                    intro f2 hf2 y hy
                    rcases List.mem_cons.mp hf2 with rfl | hf2
                    · by_cases hyw : y = w
                      · rw [hyw, hpar2w] at hy
                        exact absurd (Option.some.inj hy) hneuw
                      · rw [hpar2ne y hyw] at hy
                        exact absurd (h7 y w hy).2.1 hwvis
                    rcases List.mem_cons.mp hf2 with rfl | hf2
                    · by_cases hyw : y = w
                      · subst hyw
                        exact hwws
                      · rw [hpar2ne y hyw] at hy
                        have h6 := h4 (u, p, w :: ws)
                          (List.mem_cons_self _ _) y hy
                        intro hc
                        exact h6 (List.mem_cons_of_mem _ hc)
                    · by_cases hyw : y = w
                      · rw [hyw, hpar2w] at hy
                        have hf1u : f2.1 = u := (Option.some.inj hy).symm
                        exact absurd (List.mem_map.mpr ⟨f2, hf2, hf1u⟩) humem
                      · rw [hpar2ne y hyw] at hy
                        exact h4 f2 (List.mem_cons_of_mem _ hf2) y hy
                  have hI5 : (disc ++ [w]).Nodup := by
                    refine List.nodup_append.mpr
                      ⟨hdA, List.nodup_cons.mpr
                        ⟨List.not_mem_nil w, List.nodup_nil⟩, ?_⟩
                    intro a ha hb
                    rw [List.mem_singleton] at hb
                    rw [hb] at ha
                    exact hwdisc ha
                  have hI6 : (disc ++ [w]).toFinset = insert w vis := by
                    ext x
                    simp only [List.toFinset_append, Finset.mem_union,
                      List.mem_toFinset, Finset.mem_insert,
                      List.mem_singleton, ← hdB, List.mem_toFinset]
                    tauto
                  have hI7 : ∀ x y, (fun x => if x = w then some u else par x) x = some y →
                        x ∈ insert w vis ∧ y ∈ insert w vis ∧ adjacent g x y ∧
                          (disc ++ [w]).indexOf y < (disc ++ [w]).indexOf x := by
                    intro x y hxy
                    by_cases hxw : x = w
                    · subst hxw
                      rw [hpar2w] at hxy
                      have hyu : y = u := (Option.some.inj hxy).symm
                      rw [hyu]
                      refine ⟨Finset.mem_insert_self _ _,
                        Finset.mem_insert_of_mem huvis,
                        adjacent_symm hadj_uw, ?_⟩
                      have hudisc : u ∈ disc := by
                        rw [← List.mem_toFinset, hdB]
                        exact huvis
                      rw [List.indexOf_append_of_mem hudisc,
                        List.indexOf_append_of_not_mem hwdisc,
                        List.indexOf_cons_self]
                      have := List.indexOf_lt_length.mpr hudisc
                      omega
                    · rw [hpar2ne x hxw] at hxy
                      have h6 := h7 x y hxy
                      have hydisc : y ∈ disc := by
                        rw [← List.mem_toFinset, hdB]
                        exact h6.2.1
                      have hxdisc : x ∈ disc := by
                        rw [← List.mem_toFinset, hdB]
                        exact h6.1
                      refine ⟨Finset.mem_insert_of_mem h6.1,
                        Finset.mem_insert_of_mem h6.2.1, h6.2.2.1, ?_⟩
                      rw [List.indexOf_append_of_mem hydisc,
                        List.indexOf_append_of_mem hxdisc]
                      exact h6.2.2.2
                  have hI8 : ∀ x ∈ insert w vis, Reach g r x := by
                    intro x hx
                    rcases Finset.mem_insert.mp hx with rfl | hx
                    · exact (hreach u huvis).tail hadj_uw
                    · exact hreach x hx
                  have hI9 : insert w vis ⊆ g.V := by
                    exact Finset.insert_subset hwV hvV
                  rcases ih ((w, some u, adjL g w) :: (u, p, ws) :: fr')
                      (insert w vis)
                      (fun x => if x = w then some u else par x)
                      (disc ++ [w]) hI1 hI2 hI3 hI4 hI5 hI6 hI7 hI8 hI9
                      (by omega) with
                    ⟨v2, p2, d2, heq, hs1, hs2, hs3, hs4, hs5, hs6, hs7⟩ |
                    ⟨c, v2, p2, heq, hc1, hc2, hc3, hc4, hc5⟩
                  · exact Or.inl ⟨v2, p2, d2, heq,
                      Finset.Subset.trans (Finset.subset_insert _ _) hs1,
                      hs2, hs3, hs4, hs5, hs6, hs7⟩
                  · exact Or.inr ⟨c, v2, p2, heq, hc1, hc2, hc3, hc4, hc5⟩


/-- A closed walk with duplicate-free interior of length at least 3 yields
an `IsCycleList` on its interior. -/
theorem closed_cycle_isCycleList {g : Graph} {c : List Nat}
    (h3 : 3 ≤ c.dropLast.length) (hnd : c.dropLast.Nodup)
    (hhl : c.head? = c.getLast?) (hch : List.Chain' (adjacent g) c) :
    IsCycleList g c.dropLast := by
  have hlen : 1 < c.length := by
    have h4 := h3
    rw [List.length_dropLast] at h4
    omega
  have hcne : c ≠ [] := by
    intro h
    rw [h] at hlen
    exact absurd hlen (by decide)
  have hceq : c.dropLast ++ [c.getLast hcne] = c :=
    List.dropLast_append_getLast hcne
  have hch2 : List.Chain' (adjacent g) (c.dropLast ++ [c.getLast hcne]) := by
    rw [hceq]
    exact hch
  have hsplit := List.chain'_append.mp hch2
  refine ⟨h3, hnd, hsplit.1, ?_⟩
  intro a ha b hb
  have hwrap : adjacent g a (c.getLast hcne) := by
    refine hsplit.2.2 a ha (c.getLast hcne) ?_
    rfl
  have h5 : c.dropLast.head? = c.head? := by
    rw [List.head?_dropLast, if_pos hlen]
  have h6 : c.getLast? = some (c.getLast hcne) :=
    List.getLast?_eq_getLast c hcne
  rw [h5, hhl, h6, Option.mem_some_iff] at hb
  rw [← hb]
  exact hwrap

/-- C6 (amended): for every vertex `v` of the graph, `cycle_containing(v)`
terminates without raising; it returns `None` exactly when the connected
component containing `v` is acyclic; and any returned list is a closed
duplicate-free cycle of the graph lying inside `v`'s component — though
not necessarily through `v` itself (the recorded counterexample). -/
theorem cycleContaining_amended (g : Graph) (hW : Wf g) (v : Nat)
    (hv : v ∈ g.V) :
    (cycleContaining g v).isSome = true ∧
    (cycleContaining g v = some none ↔
      ¬ ∃ c, IsCycleList g c ∧ ∀ x ∈ c, Reach g v x) ∧
    (∀ c, cycleContaining g v = some (some c) →
      3 ≤ c.dropLast.length ∧ c.dropLast.Nodup ∧ c.head? = c.getLast? ∧
      List.Chain' (adjacent g) c ∧ IsCycleList g c.dropLast ∧
      (∀ x ∈ c, Reach g v x)) := by
  have hunf : cycleContaining g v
      = (cdfsRun g (cFuel g) [(v, none, adjL g v)] {v}
          (fun _ => none)).map Prod.fst := by
    rw [cycleContaining, if_neg (fun hc => hc hv)]
  have hfuel : cMeasure g [(v, none, adjL g v)] {v} < cFuel g := by
    have hsplitS : ∑ x ∈ g.V.erase v, (1 + (adjL g x).length)
        + (1 + (adjL g v).length)
        = ∑ x ∈ g.V, (1 + (adjL g x).length) :=
      Finset.sum_erase_add _ _ hv
    have herase : g.V \ {v} = g.V.erase v := by
      ext x
      simp only [Finset.mem_sdiff, Finset.mem_erase, Finset.mem_singleton]
      tauto
    have hdist : ∑ x ∈ g.V, (1 + (adjL g x).length)
        = g.V.card + ∑ x ∈ g.V, (adjL g x).length := by
      rw [Finset.sum_add_distrib, ← Finset.card_eq_sum_ones]
    rw [cFuel_eq]
    simp only [cMeasure, List.length_cons, List.length_nil, List.map_cons,
      List.map_nil, List.sum_cons, List.sum_nil, herase]
    omega
  have hstep := cdfs_spec hW v (cFuel g) [(v, none, adjL g v)] {v}
    (fun _ => none) [v]
    (by
      intro f hf
      rw [List.mem_singleton] at hf
      subst hf
      exact ⟨Finset.mem_singleton_self v, rfl, [], rfl,
        fun y hy => absurd hy (List.not_mem_nil y)⟩)
    (List.chain'_singleton _)
    (by
      intro x hx hxm y hy
      exfalso
      refine hxm ?_
      rw [show ([(v, none, adjL g v)].map
          (fun (f : Nat × Option Nat × List Nat) => f.1)) = [v] from rfl,
        Finset.mem_singleton.mp hx]
      exact List.mem_cons_self _ _)
    (by
      intro f hf y hy
      exact Option.noConfusion hy)
    (List.nodup_cons.mpr ⟨List.not_mem_nil _, List.nodup_nil⟩)
    (by simp)
    (by
      intro x y h
      exact Option.noConfusion h)
    (by
      intro x hx
      rw [Finset.mem_singleton.mp hx]
      exact Relation.ReflTransGen.refl)
    (Finset.singleton_subset_iff.mpr hv)
    hfuel
  rcases hstep with
    ⟨vis2, par2, disc2, heq, hsub, hsV, hreach2, hd1, hd2, hpar2, hclosed⟩ |
    ⟨c, vis2, par2, heq, hc1, hc2, hc3, hc4, hc5⟩
  · have hres : cycleContaining g v = some none := by
      rw [hunf, heq]
      rfl
    refine ⟨by rw [hres]; rfl, ?_, ?_⟩
    · refine ⟨fun _ => ?_, fun _ => hres⟩
      rintro ⟨c0, hcyc, hcomp⟩
      have hcompvis : ∀ x, Reach g v x → x ∈ vis2 := by
        intro x hx
        induction hx with
        | refl => exact hsub (Finset.mem_singleton_self v)
        | tail h1 h2 ih =>
            exact (hclosed _ ih _ ((hW.adjL_iff _ _).mpr h2)).1
      exact forest_no_cycle hW hclosed
        (fun x y h => (hpar2 x y h).2.2.2)
        hcyc.1 hcyc.2.1 hcyc.2.2.1 hcyc.2.2.2
        (fun x hx => hcompvis x (hcomp x hx))
    · intro c0 hc0
      rw [hres] at hc0
      exact Option.noConfusion (Option.some.inj hc0)
  · have hres : cycleContaining g v = some (some c) := by
      rw [hunf, heq]
      rfl
    refine ⟨by rw [hres]; rfl, ?_, ?_⟩
    · constructor
      · intro h
        rw [hres] at h
        exact Option.noConfusion (Option.some.inj h)
      · intro hno
        exfalso
        refine hno ⟨c.dropLast, closed_cycle_isCycleList hc1 hc2 hc3 hc4, ?_⟩
        intro x hx
        exact hc5 x ((List.dropLast_sublist c).subset hx)
    · intro c0 hc0
      rw [hres] at hc0
      have hcc : c = c0 := Option.some.inj (Option.some.inj hc0)
      subst hcc
      exact ⟨hc1, hc2, hc3, hc4, closed_cycle_isCycleList hc1 hc2 hc3 hc4,
        hc5⟩

/-- Closed instance of the amended C6 at the pendant-triangle graph and
vertex 3. -/
theorem cycleContaining_amended_witness :
    Wf gPendant ∧ 3 ∈ gPendant.V ∧
    ((cycleContaining gPendant 3).isSome = true ∧
      (cycleContaining gPendant 3 = some none ↔
        ¬ ∃ c, IsCycleList gPendant c ∧ ∀ x ∈ c, Reach gPendant 3 x) ∧
      (∀ c, cycleContaining gPendant 3 = some (some c) →
        3 ≤ c.dropLast.length ∧ c.dropLast.Nodup ∧ c.head? = c.getLast? ∧
        List.Chain' (adjacent gPendant) c ∧
        IsCycleList gPendant c.dropLast ∧
        (∀ x ∈ c, Reach gPendant 3 x))) :=
  ⟨by decide, by decide,
    cycleContaining_amended gPendant (by decide) 3 (by decide)⟩

end GraphsTheory
